import Mathlib

/-!
# Bone Graft `file.c`: struct-layout decoder

A shallow embedding of `src/file.c`.  The C globals become a read-only `Config`
(the command line options) and a threaded `State` (zero-run counter, count-only
flag, last struct size, the open file and the heap of `struct_t` records).
`bail` and a failed `assert` end the run; they are the `Err` results.

Unsigned C arithmetic is 32 bits wide and is written with an explicit
`% 2 ^ 32`; bytes are `Nat`s below 256.
-/

namespace Graft

/-- Ways a call can end the program (`bail`, `assert`), plus the three ways the
embedding itself can refuse to go on. -/
inductive Err where
  /-- `bail(SEMANTIC_ERROR, "unexpected end of file")` in `eread`. -/
  | unexpectedEof
  /-- `bail(SEMANTIC_ERROR, "extra junk at end of file")` in `testeof`. -/
  | extraJunk
  /-- `bail(SEMANTIC_ERROR, "file ends in middle of zerocomp run")` in `testeof`. -/
  | midRun
  /-- A failed `assert`. -/
  | assertion
  /-- A `struct_t *` that is dangling (freed or never allocated) was dereferenced. -/
  | badPointer
  /-- A 32-bit shift by 32 or more positions (undefined in C). -/
  | undefinedShift
  /-- The recursion budget of the embedding ran out. -/
  | outOfFuel
  deriving DecidableEq, Repr

deriving instance DecidableEq for Except

/-- The command line options of `file.c` (lines 18-28), fixed during a run, and
the byte order of the machine the decoder runs on. -/
structure Config where
  /-- Reverse byte ordering. -/
  switchbytes : Bool
  /-- Size of ints. -/
  intsz : Nat
  /-- Size of pointers. -/
  pointersz : Nat
  /-- Size of bitfield units. -/
  fieldsz : Nat
  /-- Struct member alignment. -/
  memberalign : Nat
  /-- Alignment of structs without bitfields, 0 = by member. -/
  structalign : Nat
  /-- Alignment of structs that contain bitfields. -/
  fieldalign : Nat
  /-- Bitfields start at MSB, not LSB. -/
  fieldMSB : Bool
  /-- Bitfields can span bitfield units. -/
  fieldspan : Bool
  /-- Zero-run compression of the stream. -/
  zerocomp : Bool
  /-- Whether the host stores the most significant byte of a `uint16`/`uint32`
  first; `iread` reads the raw bytes into such an object. -/
  hostBigEndian : Bool
  deriving DecidableEq, Repr

/-- Modelled from the spec: `struct_t` is declared in `file.h`, which is not part
of the sources at hand.  The fields are those `file.c` uses; their widths follow
the spec's StructContext (`bytes_consumed: u32`, `bit_buffer: u32`).  `parent`
is a pointer, here an index into the heap (`none` is `NULL`). -/
structure struct_t where
  align : Nat
  nbytes : Nat
  nbits : Nat
  fieldbuf : Nat
  parent : Option Nat
  deriving DecidableEq, Repr

/-- The part of the global state that reading bytes touches: `nzeroes`,
`countonly` and `fp` (`none` is `NULL`, otherwise the bytes not yet read). -/
structure Stream where
  nzeroes : Nat
  countonly : Bool
  fp : Option (List Nat)
  deriving DecidableEq, Repr

/-- The mutable globals of `file.c` together with the heap of `struct_t` records.
A `struct_t *` is an index into `heap`; a freed cell is `none`. -/
structure State where
  strm : Stream
  numbytes : Nat
  heap : List (Option struct_t)
  deriving DecidableEq, Repr

/-- Computations on the byte stream alone. -/
abbrev SM := StateT Stream (Except Err)

/-- Computations on the whole state. -/
abbrev M := StateT State (Except Err)

/-- The word size of C `unsigned` and `uint32` arithmetic. -/
def W32 : Nat := 2 ^ 32

/-- The C `assert`. -/
def cassert {σ : Type} (b : Bool) : StateT σ (Except Err) Unit :=
  fun s => if b then .ok ((), s) else .error Err.assertion

/-- Run a stream computation inside the whole state. -/
def liftStrm {α : Type} (m : SM α) : M α :=
  fun s => match m s.strm with
    | .ok (a, t) => .ok (a, { s with strm := t })
    | .error e => .error e

/-- Dereference a `struct_t *`. -/
def deref (p : Nat) : M struct_t :=
  fun s => match s.heap[p]? with
    | some (some c) => .ok (c, s)
    | _ => .error Err.badPointer

/-- Store through a `struct_t *`. -/
def store (p : Nat) (c : struct_t) : M Unit :=
  fun s => match s.heap[p]? with
    | some (some _) => .ok ((), { s with heap := s.heap.set p (some c) })
    | _ => .error Err.badPointer

/-- The `alloc(sizeof(struct_t))` of `startstruct`: a fresh cell at the end of the
heap.  Its contents are overwritten before they are read, except `fieldbuf`,
which `bread` fills before its first use (`nbits` starts at 0). -/
def alloc : M Nat :=
  fun s => .ok (s.heap.length,
    { s with heap := s.heap ++ [some ⟨0, 0, 0, 0, none⟩] })

/-- The `free(st)` of `endstruct`. -/
def free (p : Nat) : M Unit :=
  fun s => match s.heap[p]? with
    | some (some _) => .ok ((), { s with heap := s.heap.set p none })
    | _ => .error Err.badPointer

/-- `x >> k` on a `uint32`. -/
def shr32 {σ : Type} (x k : Nat) : StateT σ (Except Err) Nat :=
  fun s => if k < 32 then .ok (x >>> k, s) else .error Err.undefinedShift

/-- `x << k` on a `uint32`. -/
def shl32 {σ : Type} (x k : Nat) : StateT σ (Except Err) Nat :=
  fun s => if k < 32 then .ok ((x <<< k) % W32, s) else .error Err.undefinedShift

/-- `a - b` on `unsigned`. -/
def sub32 (a b : Nat) : Nat := (a + W32 - b % W32) % W32

/-- `eread(buf, len, 1)` (lines 337-349): read `len` bytes from the file or bail.
A list of bytes has no read errors other than running out. -/
def eread (len : Nat) : SM (List Nat) :=
  fun s =>
    if !(len == 1 || len == 2 || len == 4) then .error Err.assertion else
    match s.fp with
    | none => .error Err.assertion
    | some bs =>
      if bs.length < len then .error Err.unexpectedEof
      else .ok ((bs.take len).map (· % 256), { s with fp := some (bs.drop len) })

/-- One round of the inner `for` loop of `zread` under `zerocomp` (lines 220-227):
deliver one byte of the decompressed stream. -/
def zbyte : SM Nat := do
  let s ← get
  if s.nzeroes > 0 then
    set { s with nzeroes := s.nzeroes - 1 }
    pure 0
  else
    let b ← eread 1
    if b.headD 0 == 0 then
      let n ← eread 1
      modify fun t => { t with nzeroes := n.headD 0 }
    pure (b.headD 0)

/-- The inner `for(i=0; i<len; i++)` loop of `zread` under `zerocomp`. -/
def zbytes : Nat → SM (List Nat)
  | 0 => pure []
  | n + 1 => do
    let b ← zbyte
    let bs ← zbytes n
    pure (b :: bs)

/-- One round of the `while(num--)` loop of `zread` (lines 215-230): one item of
`len` bytes. -/
def zitem (cfg : Config) (len : Nat) : SM (List Nat) := do
  let s ← get
  if s.countonly then
    pure (List.replicate len 0)
  else if cfg.zerocomp then
    zbytes len
  else
    eread len

/-- The `while(num--)` loop of `zread` (lines 214-233): the `len*num` bytes
written to `buf`. -/
def zitems (cfg : Config) (len : Nat) : Nat → SM (List Nat)
  | 0 => pure []
  | n + 1 => do
    let b ← zitem cfg len
    let bs ← zitems cfg len n
    pure (b ++ bs)

/-- The mask loop of `bread` (lines 308-311). -/
def maskLoop : Nat → Nat
  | 0 => 0
  | n + 1 => ((maskLoop n <<< 1) % W32) ||| 1

/-- The object a `uint16`/`uint32` holds after `len` raw bytes were stored into
it, in the host's byte order. -/
def hostWord (cfg : Config) (bytes : List Nat) : Nat :=
  if cfg.hostBigEndian then bytes.foldl (fun acc b => acc * 256 + b) 0
  else bytes.foldr (fun b acc => b + 256 * acc) 0

/-- The 2-byte swap of `iread` (line 260), with the `(uint16)` cast. -/
def swap16 (x : Nat) : Nat :=
  (((x >>> 8) &&& 0xff) ||| ((x &&& 0xff) <<< 8)) % 2 ^ 16

/-- The 4-byte reversal of `iread` (lines 266-267) on a `uint32`. -/
def swap32 (x : Nat) : Nat :=
  (((x >>> 24) &&& 0xff) ||| (((x &&& 0xff) <<< 24) % W32) |||
    ((x >>> 8) &&& 0xff00) ||| (((x &&& 0xff00) <<< 8) % W32)) % W32

/-- The second `switch` of `iread` (lines 271-281): store `val` into a buffer of
`buflen` bytes. -/
def narrow (buflen val : Nat) : Nat :=
  if buflen = 1 then val % 2 ^ 8
  else if buflen = 2 then val % 2 ^ 16
  else val % W32

mutual

/-- `clearfield` (lines 357-367). -/
def clearfield (cfg : Config) : Nat → Option Nat → M Unit
  | 0, _ => throw Err.outOfFuel
  | _ + 1, none => pure ()
  | fuel + 1, some p => do
    let c ← deref p
    if c.nbits ≠ 0 then
      let _ ← bread cfg fuel c.nbits (some p)
termination_by structural fuel => fuel

/-- The `while` loop of `align` (lines 181-188). -/
def alignLoop (cfg : Config) : Nat → Nat → Nat → M Unit
  | 0, _, _ => throw Err.outOfFuel
  | fuel + 1, p, alignment => do
    let c ← deref p
    if c.nbytes % alignment ≠ 0 then
      let _ ← zread cfg fuel 1 1 none
      let c ← deref p
      store p { c with nbytes := (c.nbytes + 1) % W32 }
      alignLoop cfg fuel p alignment
termination_by structural fuel => fuel

/-- `align` (lines 175-189). -/
def align (cfg : Config) : Nat → Option Nat → Nat → M Unit
  | 0, _, _ => throw Err.outOfFuel
  | _ + 1, none, _ => throw Err.assertion
  | fuel + 1, some p, alignment => do
    cassert (alignment == 1 || alignment == 2 || alignment == 4)
    alignLoop cfg fuel p alignment
termination_by structural fuel => fuel

/-- `zread` (lines 198-234); the result is what is written to `buf`. -/
def zread (cfg : Config) : Nat → Nat → Nat → Option Nat → M (List Nat)
  | 0, _, _, _ => throw Err.outOfFuel
  | fuel + 1, len, num, st => do
    cassert (len == 1 || len == 2 || len == 4)
    cassert (decide (num > 0))
    cassert (cfg.memberalign == 1 || cfg.memberalign == 2 || cfg.memberalign == 4)
    match st with
    | none => pure ()
    | some p =>
      clearfield cfg fuel (some p)
      align cfg fuel (some p) (if cfg.memberalign < len then cfg.memberalign else len)
      let c ← deref p
      store p { c with nbytes := (c.nbytes + (len * num) % W32) % W32 }
    liftStrm (zitems cfg len num)
termination_by structural fuel => fuel

/-- `iread` (lines 242-282); the result is what is written to `buf`. -/
def iread (cfg : Config) : Nat → Nat → Nat → Option Nat → M Nat
  | 0, _, _, _ => throw Err.outOfFuel
  | fuel + 1, buflen, len, st => do
    cassert (buflen == 1 || buflen == 2 || buflen == 4)
    cassert (len == 1 || len == 2 || len == 4)
    cassert (decide (buflen ≥ len))
    let val ←
      if len = 1 then do
        let buf1 ← zread cfg fuel 1 1 st
        pure (hostWord cfg buf1)
      else if len = 2 then do
        let buf2 ← zread cfg fuel 2 1 st
        let buf2 := hostWord cfg buf2
        pure (if cfg.switchbytes then swap16 buf2 else buf2)
      else if len = 4 then do
        let buf4 ← zread cfg fuel 4 1 st
        let buf4 := hostWord cfg buf4
        pure (if cfg.switchbytes then swap32 buf4 else buf4)
      else pure 0
    pure (narrow buflen val)
termination_by structural fuel => fuel

/-- `bread` (lines 290-329). -/
def bread (cfg : Config) : Nat → Nat → Option Nat → M Nat
  | 0, _, _ => throw Err.outOfFuel
  | _ + 1, _, none => throw Err.assertion
  | fuel + 1, len, some p => do
    cassert (decide (len > 0))
    cassert (decide (len ≤ (cfg.fieldsz * 8) % W32))
    let c ← deref p
    let (len, spanned) ←
      if c.nbits < len then
        if c.nbits ≠ 0 && cfg.fieldspan then
          pure (c.nbits, len - c.nbits)
        else do
          let v ← iread cfg fuel 4 cfg.fieldsz (some p)
          let c ← deref p
          store p { c with fieldbuf := v }
          let c ← deref p
          store p { c with nbits := (cfg.fieldsz * 8) % W32 }
          pure (len, 0)
      else pure (len, 0)
    let mask := maskLoop len
    let c ← deref p
    let val ←
      if cfg.fieldMSB then do
        let v ← shr32 c.fieldbuf (sub32 c.nbits len)
        pure (v &&& mask)
      else do
        let v ← shr32 c.fieldbuf (sub32 ((cfg.fieldsz * 8) % W32) c.nbits)
        pure (v &&& mask)
    store p { c with nbits := sub32 c.nbits len }
    if spanned ≠ 0 then
      let spanval ← bread cfg fuel spanned (some p)
      if cfg.fieldMSB then do
        let v ← shl32 val spanned
        pure (v ||| spanval)
      else do
        let v ← shl32 spanval len
        pure (v ||| val)
    else pure val
termination_by structural fuel => fuel

end

/-- `testeof` (lines 71-80). -/
def testeof : M Unit := fun s =>
  match s.strm.fp with
  | none => .error Err.assertion
  | some [] => if s.strm.nzeroes ≠ 0 then .error Err.midRun else .ok ((), s)
  | some (_ :: _) => .error Err.extraJunk

/-- `startcount` (lines 88-91). -/
def startcount : M Unit := do
  let s ← get
  cassert (!s.strm.countonly)
  set { s with strm := { s.strm with countonly := true } }

/-- `getcount` (lines 98-102). -/
def getcount : M Nat := do
  let s ← get
  cassert s.strm.countonly
  set { s with strm := { s.strm with countonly := false } }
  pure s.numbytes

/-- The alignment `startstruct` computes for the new struct (lines 126-138). -/
def structAlignment (cfg : Config) (hasfields : Bool) (maxlen : Nat) : Nat :=
  let maxlen := if hasfields && decide (cfg.fieldsz > maxlen) then cfg.fieldsz else maxlen
  let maxlen := if cfg.memberalign < maxlen then cfg.memberalign else maxlen
  if hasfields then
    (if cfg.fieldalign > maxlen then cfg.fieldalign else maxlen)
  else
    (if cfg.structalign ≠ 0 && decide (cfg.structalign < maxlen) then cfg.structalign
     else maxlen)

/-- `startstruct` (lines 115-151). -/
def startstruct (cfg : Config) (fuel : Nat) (parent : Option Nat) (hasfields : Bool)
    (maxlen : Nat) : M Nat := do
  cassert (maxlen == 1 || maxlen == 2 || maxlen == 4)
  cassert (cfg.fieldsz == 1 || cfg.fieldsz == 2 || cfg.fieldsz == 4)
  cassert (cfg.memberalign == 1 || cfg.memberalign == 2 || cfg.memberalign == 4)
  cassert (decide (cfg.fieldalign ≤ 4) && cfg.fieldalign != 3)
  cassert (decide (cfg.structalign ≤ 4) && cfg.structalign != 3)
  let st ← alloc
  let a := structAlignment cfg hasfields maxlen
  cassert (a == 1 || a == 2 || a == 4)
  let c ← deref st
  store st { c with align := a, nbytes := 0, nbits := 0, parent := parent }
  match parent with
  | none => pure ()
  | some q =>
    let pc ← deref q
    cassert (decide (pc.align ≥ a))
    align cfg fuel (some q) a
  pure st

/-- `endstruct` (lines 159-167). -/
def endstruct (cfg : Config) (fuel : Nat) (st : Option Nat) : M Unit :=
  match st with
  | none => throw Err.assertion
  | some p => do
    clearfield cfg fuel (some p)
    let c ← deref p
    align cfg fuel (some p) c.align
    let c ← deref p
    modify fun s => { s with numbytes := c.nbytes }
    match c.parent with
    | none => pure ()
    | some q =>
      let pc ← deref q
      store q { pc with nbytes := (pc.nbytes + c.nbytes) % W32 }
    free p

/-- Configurations whose `memberalign` passes the assertion of `zread`. -/
def MemberAlignOk (cfg : Config) : Prop :=
  cfg.memberalign = 1 ∨ cfg.memberalign = 2 ∨ cfg.memberalign = 4

/-- A configuration with zero-run compression on (1-byte units, MSB first). -/
def zcfg : Config := ⟨false, 4, 4, 1, 4, 0, 0, true, false, true, false⟩

/-- A state with an open file holding `bs`, no pending run and an empty heap. -/
def openOn (bs : List Nat) : State := ⟨⟨0, false, some bs⟩, 0, []⟩

/-- The number of padding bytes from offset `b` to the next multiple of `n`. -/
def padding (b n : Nat) : Nat := (n - b % n) % n

/-- A count-only state whose heap holds one struct context with `nbytes = 2^32 - 1`. -/
def wrapState : State := ⟨⟨0, true, none⟩, 0, [some ⟨2, 4294967295, 0, 0, none⟩]⟩

/-- Configurations in the accepted domains that `startstruct` asserts (lines 119-122). -/
def ValidConfig (cfg : Config) : Prop :=
  (cfg.fieldsz = 1 ∨ cfg.fieldsz = 2 ∨ cfg.fieldsz = 4)
  ∧ (cfg.memberalign = 1 ∨ cfg.memberalign = 2 ∨ cfg.memberalign = 4)
  ∧ (cfg.structalign = 0 ∨ cfg.structalign = 1 ∨ cfg.structalign = 2 ∨ cfg.structalign = 4)
  ∧ (cfg.fieldalign = 0 ∨ cfg.fieldalign = 1 ∨ cfg.fieldalign = 2 ∨ cfg.fieldalign = 4)

/-- The effective bound as the spec words it (section 4.3, step 1):
`min(max_member_width, member_align)`, then raised to at least `field_unit_width` if the
struct has bitfields. -/
def specBound (cfg : Config) (hasfields : Bool) (maxlen : Nat) : Nat :=
  if hasfields then max (min maxlen cfg.memberalign) cfg.fieldsz
  else min maxlen cfg.memberalign

/-- The struct alignment as the spec words it (section 4.3, step 2). -/
def specAlignment (cfg : Config) (hasfields : Bool) (maxlen : Nat) : Nat :=
  if hasfields then max cfg.fieldalign (specBound cfg hasfields maxlen)
  else if cfg.structalign ≠ 0 then min cfg.structalign (specBound cfg hasfields maxlen)
  else specBound cfg hasfields maxlen

/-- The effective bound in the order the code applies the two adjustments (lines 127-130):
the member width is first raised to `fieldsz` if the struct has bitfields, then capped by
`memberalign`. -/
def codeBound (cfg : Config) (hasfields : Bool) (maxlen : Nat) : Nat :=
  min (if hasfields then max maxlen cfg.fieldsz else maxlen) cfg.memberalign

/-- A configuration with 4-byte bitfield units and byte-packed members. -/
def packedCfg : Config := ⟨false, 4, 4, 4, 1, 0, 0, true, false, false, false⟩

/-- The struct alignment formula of the spec, over the bound the code computes. -/
def codeAlignment (cfg : Config) (hasfields : Bool) (maxlen : Nat) : Nat :=
  if hasfields then max cfg.fieldalign (codeBound cfg hasfields maxlen)
  else if cfg.structalign ≠ 0 then min cfg.structalign (codeBound cfg hasfields maxlen)
  else codeBound cfg hasfields maxlen

/-- The number of bits in a bitfield unit, `fieldsz*8` as `bread` computes it. -/
def unitBits (cfg : Config) : Nat := (cfg.fieldsz * 8) % W32

/-- The value `bread` extracts for `len` bits from the unit buffered in `c`
(lines 313-316). -/
def fieldBits (cfg : Config) (c : struct_t) (len : Nat) : Nat :=
  if cfg.fieldMSB then (c.fieldbuf >>> (c.nbits - len)) &&& maskLoop len
  else (c.fieldbuf >>> (unitBits cfg - c.nbits)) &&& maskLoop len

/-- The value `iread` computes from the `len` bytes `zread` stored (the first `switch`,
lines 252-269). -/
def wordOf (cfg : Config) (len : Nat) (bytes : List Nat) : Nat :=
  if len = 1 then hostWord cfg bytes
  else if len = 2 then (if cfg.switchbytes then swap16 (hostWord cfg bytes) else hostWord cfg bytes)
  else if len = 4 then (if cfg.switchbytes then swap32 (hostWord cfg bytes) else hostWord cfg bytes)
  else 0

/-- A configuration with 1-byte bitfield units, MSB first, no spanning, no compression. -/
def msbCfg : Config := ⟨false, 4, 4, 1, 4, 0, 0, true, false, false, false⟩

/-- The three reads `bread(3)`, `bread(5)`, `bread(8)` issued in that order. -/
def readThreeFields (cfg : Config) (fuel : Nat) (st : Option Nat) : M (Nat × Nat × Nat) := do
  let x ← bread cfg fuel 3 st
  let y ← bread cfg fuel 5 st
  let z ← bread cfg fuel 8 st
  pure (x, y, z)

/-- A configuration with 1-byte units and spanning, LSB first. -/
def spanLsbCfg : Config := ⟨false, 4, 4, 1, 4, 0, 0, false, true, false, false⟩

/-- The two reads `bread(5)`, `bread(6)` issued in that order. -/
def readTwoFields (cfg : Config) (fuel : Nat) (st : Option Nat) : M (Nat × Nat) := do
  let x ← bread cfg fuel 5 st
  let y ← bread cfg fuel 6 st
  pure (x, y)

/-- The configuration `cfg` with `switchbytes` set to `b`. -/
def withSwitch (cfg : Config) (b : Bool) : Config := { cfg with switchbytes := b }

/-- A plain little-endian configuration (no compression, no byte switching). -/
def plainCfg : Config := ⟨false, 4, 4, 2, 4, 0, 0, false, false, false, false⟩

/-- The schema of the nested-sizing example: a struct with a 4-byte int member followed by
a nested struct of two 2-byte ints. -/
def nestedTraversal (cfg : Config) (fuel : Nat) : M (Nat × Nat × Nat) := do
  let p ← startstruct cfg fuel none false 4
  let a ← iread cfg fuel 4 4 (some p)
  let q ← startstruct cfg fuel (some p) false 2
  let b ← iread cfg fuel 2 2 (some q)
  let c ← iread cfg fuel 2 2 (some q)
  endstruct cfg fuel (some q)
  endstruct cfg fuel (some p)
  pure (a, b, c)

/-- The same traversal run as a dry run between `startcount` and `getcount`. -/
def nestedSize (cfg : Config) (fuel : Nat) : M Nat := do
  startcount
  let _ ← nestedTraversal cfg fuel
  getcount

/-- A bitfield read that leaves bits in the unit, then `startcount`, then a second read from
the same struct context. -/
def readAcrossStartcount (cfg : Config) (fuel : Nat) : M (Nat × Nat) := do
  let st ← startstruct cfg fuel none true 1
  let x ← bread cfg fuel 3 (some st)
  startcount
  let y ← bread cfg fuel 5 (some st)
  pure (x, y)

/-- Closed form of the value `bread` returns when it refills (lines 313-326): the `n` bits
left of the old unit `w` joined with `len - n` bits of the fresh unit `u`, the old bits on
top when `fieldMSB`, at the bottom otherwise. -/
def spanBits (cfg : Config) (w n len u : Nat) : Nat :=
  if cfg.fieldMSB then (w % 2 ^ n) * 2 ^ (len - n) + u / 2 ^ (unitBits cfg - (len - n))
  else (u % 2 ^ (len - n)) * 2 ^ n + w / 2 ^ (unitBits cfg - n) % 2 ^ n

/-- The value the specification gives for a read of `a` bits returning `x` followed by a
read of `b` bits returning `y`: `(x << b) | y` MSB first, `x | (y << a)` otherwise. -/
def joinBits (cfg : Config) (a b x y : Nat) : Nat :=
  if cfg.fieldMSB then (x <<< b) ||| y else x ||| (y <<< a)

/-- The check of one heap cell: a live context holds at most one unit of unread bits. -/
def bitsOk (cfg : Config) : Option struct_t → Bool
  | none => true
  | some c => decide (c.nbits ≤ unitBits cfg)

/-- The invariant `nbits ≤ fieldsz * 8` on every live struct context. -/
def BitsBounded (cfg : Config) (s : State) : Prop := s.heap.all (bitsOk cfg) = true

/-- Partial-correctness triples for the state monad: from a state satisfying `P`, every
successful run of `m` ends in a result and state satisfying `Q`. -/
def Triple {α : Type} (P : State → Prop) (m : M α) (Q : α → State → Prop) : Prop :=
  ∀ s a t, P s → m s = .ok (a, t) → Q a t

instance decBitsBounded (cfg : Config) (s : State) : Decidable (BitsBounded cfg s) :=
  inferInstanceAs (Decidable (s.heap.all (bitsOk cfg) = true))

/-- A heap cell with its bit buffer blanked: what is left is the accounting of the context. -/
def eraseBuf (o : Option struct_t) : Option struct_t :=
  o.map fun c => { c with fieldbuf := 0 }

/-- The relation between a state of a real traversal and a state of a count-only traversal:
the second is in count-only mode, and the two agree on `numbytes` and on every context up to
the contents of the bit buffer. The streams are unrelated. -/
def CountRel (s1 s2 : State) : Prop :=
  s2.strm.countonly = true ∧ s1.numbytes = s2.numbytes
    ∧ s1.heap.map eraseBuf = s2.heap.map eraseBuf

/-- Simulation of a real run `m1` by a count-only run `m2`: whenever `m1` succeeds from a
state related to the start of `m2`, `m2` succeeds too, with results related by `V` and final
states related by `CountRel`. -/
def Sim {α β : Type} (V : α → β → Prop) (m1 : M α) (m2 : M β) : Prop :=
  ∀ s1 s2 a t1, CountRel s1 s2 → m1 s1 = .ok (a, t1) →
    ∃ b t2, m2 s2 = .ok (b, t2) ∧ V a b ∧ CountRel t1 t2

/-- The configuration `cfg` with the `zerocomp` option set to `z`. -/
def withZerocomp (cfg : Config) (z : Bool) : Config := { cfg with zerocomp := z }

/-- One call of the schema layer, with its arguments fixed; struct contexts are named by
their heap index. -/
inductive Call where
  | startstruct (parent : Option Nat) (hasfields : Bool) (maxlen : Nat)
  | endstruct (st : Option Nat)
  | zread (len num : Nat) (st : Option Nat)
  | iread (buflen len : Nat) (st : Option Nat)
  | bread (len : Nat) (st : Option Nat)
  | align (st : Option Nat) (n : Nat)

/-- The global `numbytes`: the struct size the last `endstruct` recorded (what `getcount`
returns). -/
def recorded : M Nat := fun s => .ok (s.numbytes, s)

/-- Run one call; the result lists the struct size it recorded, if it is an `endstruct`. -/
def runCall (cfg : Config) (fuel : Nat) : Call → M (List Nat)
  | .startstruct parent hasfields maxlen => do
    let _ ← startstruct cfg fuel parent hasfields maxlen
    pure []
  | .endstruct st => do
    endstruct cfg fuel st
    let n ← recorded
    pure [n]
  | .zread len num st => do
    let _ ← zread cfg fuel len num st
    pure []
  | .iread buflen len st => do
    let _ ← iread cfg fuel buflen len st
    pure []
  | .bread len st => do
    let _ ← bread cfg fuel len st
    pure []
  | .align st n => do
    align cfg fuel st n
    pure []

/-- Run a sequence of calls; the result lists the sizes recorded by its `endstruct` calls. -/
def runCalls (cfg : Config) (fuel : Nat) : List Call → M (List Nat)
  | [] => pure []
  | c :: cs => do
    let a ← runCall cfg fuel c
    let rest ← runCalls cfg fuel cs
    pure (a ++ rest)

/-! ## Running the state monad -/

section Run
variable {σ α β : Type}

@[simp] theorem run_bind (x : StateT σ (Except Err) α) (f : α → StateT σ (Except Err) β) (s : σ) :
    (x >>= f) s = (match x s with
      | .ok (a, t) => f a t
      | .error e => .error e) := by
  show (StateT.bind x f) s = _
  unfold StateT.bind
  show (x s >>= _) = _
  cases x s with
  | error e => rfl
  | ok r => cases r; rfl

@[simp] theorem run_map (g : α → β) (x : StateT σ (Except Err) α) (s : σ) :
    (g <$> x) s = (match x s with
      | .ok (a, t) => .ok (g a, t)
      | .error e => .error e) := by
  show (StateT.map g x) s = _
  unfold StateT.map
  show (x s >>= _) = _
  cases x s with
  | error e => rfl
  | ok r => cases r; rfl

@[simp] theorem run_pure (a : α) (s : σ) :
    (pure a : StateT σ (Except Err) α) s = .ok (a, s) := rfl

@[simp] theorem run_get (s : σ) : (get : StateT σ (Except Err) σ) s = .ok (s, s) := rfl

@[simp] theorem run_set (t s : σ) : (set t : StateT σ (Except Err) PUnit) s = .ok (⟨⟩, t) := rfl

@[simp] theorem run_modify (f : σ → σ) (s : σ) :
    (modify f : StateT σ (Except Err) PUnit) s = .ok (⟨⟩, f s) := rfl

@[simp] theorem run_throw (e : Err) (s : σ) :
    (throw e : StateT σ (Except Err) α) s = .error e := rfl

@[simp] theorem cassert_true (s : σ) : cassert true s = .ok ((), s) := rfl

@[simp] theorem cassert_false (s : σ) : cassert false s = .error Err.assertion := rfl

end Run

/-! ## The byte stream and the zero-run codec -/

theorem zbyte_run (n : Nat) (c : Bool) (f : Option (List Nat)) (h : 0 < n) :
    zbyte ⟨n, c, f⟩ = .ok (0, ⟨n - 1, c, f⟩) := by
  simp [zbyte, h]

theorem zbyte_lit (c : Bool) (b : Nat) (bs : List Nat) (h : b % 256 ≠ 0) :
    zbyte ⟨0, c, some (b :: bs)⟩ = .ok (b % 256, ⟨0, c, some bs⟩) := by
  simp [zbyte, eread, h]

theorem zbyte_zero (c : Bool) (b k : Nat) (bs : List Nat) (h : b % 256 = 0) :
    zbyte ⟨0, c, some (b :: k :: bs)⟩ = .ok (0, ⟨k % 256, c, some bs⟩) := by
  simp [zbyte, eread, h]

theorem zbytes_run (j n : Nat) (c : Bool) (f : Option (List Nat)) (h : j ≤ n) :
    zbytes j ⟨n, c, f⟩ = .ok (List.replicate j 0, ⟨n - j, c, f⟩) := by
  induction j generalizing n with
  | zero => simp [zbytes]
  | succ j ih =>
    have h1 : 0 < n := by omega
    simp [zbytes, zbyte_run n c f h1, ih (n - 1) (by omega), List.replicate_succ]
    omega


theorem zitems_countonly (cfg : Config) (len num : Nat) (s : Stream) (h : s.countonly = true) :
    zitems cfg len num s = .ok (List.replicate (len * num) 0, s) := by
  induction num with
  | zero => simp [zitems]
  | succ n ih =>
    have hz : zitem cfg len s = .ok (List.replicate len 0, s) := by simp [zitem, h]
    simp only [zitems, run_bind, hz, ih, run_pure]
    rw [Nat.mul_succ, Nat.add_comm, List.replicate_add]

theorem eread_countonly (len : Nat) (s t : Stream) (xs : List Nat)
    (h : eread len s = .ok (xs, t)) : t.countonly = s.countonly := by
  unfold eread at h
  split at h
  · cases h
  · split at h
    · cases h
    · split at h
      · cases h
      · cases h; rfl

theorem zbyte_countonly (s t : Stream) (x : Nat) (h : zbyte s = .ok (x, t)) :
    t.countonly = s.countonly := by
  unfold zbyte at h
  simp only [run_bind, run_get] at h
  split at h
  · simp at h
    rw [← h.2]
  · cases h1 : eread 1 s with
    | error e => simp [h1] at h
    | ok r =>
      obtain ⟨b, u⟩ := r
      have hu := eread_countonly 1 s u b h1
      simp only [run_bind, h1] at h
      split at h
      · cases h2 : eread 1 u with
        | error e => simp [h2] at h
        | ok r2 =>
          obtain ⟨n, v⟩ := r2
          have hv := eread_countonly 1 u v n h2
          simp [h2] at h
          rw [← h.2, ← hu, ← hv]
      · simp at h
        rw [← h.2, hu]

theorem zbytes_countonly (n : Nat) (s t : Stream) (xs : List Nat)
    (h : zbytes n s = .ok (xs, t)) : t.countonly = s.countonly := by
  induction n generalizing s t xs with
  | zero => simp [zbytes] at h; rw [h.2]
  | succ n ih =>
    simp only [zbytes, run_bind, run_pure] at h
    cases h1 : zbyte s with
    | error e => simp [h1] at h
    | ok r =>
      obtain ⟨b, u⟩ := r
      simp only [h1] at h
      cases h2 : zbytes n u with
      | error e => simp [h2] at h
      | ok r2 =>
        obtain ⟨ys, v⟩ := r2
        simp [h2] at h
        rw [← h.2, ih u v ys h2, zbyte_countonly s u b h1]

theorem zbytes_add (a b : Nat) (s : Stream) :
    zbytes (a + b) s = (match zbytes a s with
      | .ok (xs, t) => (match zbytes b t with
        | .ok (ys, u) => .ok (xs ++ ys, u)
        | .error e => .error e)
      | .error e => .error e) := by
  induction a generalizing s with
  | zero =>
    simp only [Nat.zero_add, zbytes, run_pure, List.nil_append]
    cases zbytes b s with
    | error e => rfl
    | ok r => rfl
  | succ a ih =>
    rw [Nat.succ_add]
    simp only [zbytes, run_bind, run_pure]
    cases zbyte s with
    | error e => rfl
    | ok r =>
      obtain ⟨x, t⟩ := r
      simp only [ih]
      cases zbytes a t with
      | error e => rfl
      | ok r2 =>
        obtain ⟨xs, u⟩ := r2
        simp only []
        cases zbytes b u with
        | error e => rfl
        | ok r3 => rfl

theorem zitems_zerocomp (cfg : Config) (len num : Nat) (s : Stream) (h : s.countonly = false)
    (hz : cfg.zerocomp = true) : zitems cfg len num s = zbytes (len * num) s := by
  induction num generalizing s with
  | zero => simp [zitems, zbytes]
  | succ n ih =>
    have hi : zitem cfg len s = zbytes len s := by simp [zitem, h, hz]
    have hmul : len * (n + 1) = len + len * n := by ring
    rw [hmul, zbytes_add]
    simp only [zitems, run_bind, run_pure, hi]
    cases h1 : zbytes len s with
    | error e => rfl
    | ok r =>
      obtain ⟨xs, t⟩ := r
      have ht : t.countonly = false := by rw [zbytes_countonly len s t xs h1, h]
      simp only []
      rw [ih t ht]
      cases zbytes (len * n) t with
      | error e => rfl
      | ok r => rfl

theorem liftStrm_ok {α : Type} (m : SM α) (s : State) (a : α) (t : Stream)
    (h : m s.strm = .ok (a, t)) : liftStrm m s = .ok (a, { s with strm := t }) := by
  simp [liftStrm, h]

theorem liftStrm_error {α : Type} (m : SM α) (s : State) (e : Err)
    (h : m s.strm = .error e) : liftStrm m s = .error e := by
  simp [liftStrm, h]

theorem zread_none (cfg : Config) (hm : MemberAlignOk cfg) (fuel len num : Nat) (s : State)
    (hl : len = 1 ∨ len = 2 ∨ len = 4) (hn : 0 < num) :
    zread cfg (fuel + 1) len num none s = liftStrm (zitems cfg len num) s := by
  rcases hm with hm | hm | hm <;> rcases hl with hl | hl | hl <;>
    simp [zread, hm, hl, hn]

theorem zbytes_zero_run (c : Bool) (k j : Nat) (rest : List Nat) (hk : k < 256) (hj : j ≤ k) :
    zbytes (j + 1) ⟨0, c, some (0 :: k :: rest)⟩
      = .ok (List.replicate (j + 1) 0, ⟨k - j, c, some rest⟩) := by
  have hk2 : k % 256 = k := Nat.mod_eq_of_lt hk
  simp only [zbytes, run_bind, run_pure, zbyte_zero c 0 k rest (by decide), hk2,
    zbytes_run j k c (some rest) hj, List.replicate_succ]

theorem zbytes_zero_run_lit (c : Bool) (k v : Nat) (rest : List Nat) (hk : k < 256)
    (hv : v % 256 ≠ 0) :
    zbytes (k + 2) ⟨0, c, some (0 :: k :: v :: rest)⟩
      = .ok (List.replicate (k + 1) 0 ++ [v % 256], ⟨0, c, some rest⟩) := by
  have h := zbytes_add (k + 1) 1 ⟨0, c, some (0 :: k :: v :: rest)⟩
  have h1 : zbytes 1 ⟨0, c, some (v :: rest)⟩ = .ok ([v % 256], ⟨0, c, some rest⟩) := by
    simp only [zbytes, run_bind, run_pure, zbyte_lit c v rest hv]
  rw [zbytes_zero_run c k k (v :: rest) hk (Nat.le_refl k)] at h
  simp only [Nat.sub_self, h1] at h
  exact h

/-- C4. With `zerocomp` on and `nzeroes = 0`, when the next two input bytes are `0x00` and
`k`, the first `j + 1` bytes `zread` delivers (any `j ≤ k`, read byte by byte or as items of
any width) are all zero, exactly those two input bytes are consumed, and `k - j` zeros are
still pending: after all `1 + k` bytes `nzeroes` is 0 again, and the byte after them is the
next input byte, read literally. -/
theorem zread_zero_then_run (cfg : Config) (hz : cfg.zerocomp = true) (hm : MemberAlignOk cfg)
    (fuel k j : Nat) (hk : k < 256) (hj : j ≤ k) (rest : List Nat) (s : State)
    (hs : s.strm = ⟨0, false, some (0 :: k :: rest)⟩) :
    zread cfg (fuel + 1) 1 (j + 1) none s
        = .ok (List.replicate (j + 1) 0, { s with strm := ⟨k - j, false, some rest⟩ })
    ∧ zread cfg (fuel + 1) 1 (k + 1) none s
        = .ok (List.replicate (k + 1) 0, { s with strm := ⟨0, false, some rest⟩ })
    ∧ (∀ v rest2, rest = v :: rest2 → v % 256 ≠ 0 →
        zread cfg (fuel + 1) 1 (k + 2) none s
          = .ok (List.replicate (k + 1) 0 ++ [v % 256],
              { s with strm := ⟨0, false, some rest2⟩ }))
    ∧ ∀ len num, len * num = j + 1 →
        zitems cfg len num s.strm
          = .ok (List.replicate (j + 1) 0, ⟨k - j, false, some rest⟩) := by
  have hc : s.strm.countonly = false := by rw [hs]
  refine ⟨?_, ?_, ?_, ?_⟩
  · rw [zread_none cfg hm fuel 1 (j + 1) s (Or.inl rfl) (Nat.succ_pos j)]
    apply liftStrm_ok
    rw [zitems_zerocomp cfg 1 (j + 1) s.strm hc hz, Nat.one_mul, hs]
    exact zbytes_zero_run false k j rest hk hj
  · rw [zread_none cfg hm fuel 1 (k + 1) s (Or.inl rfl) (Nat.succ_pos k)]
    apply liftStrm_ok
    rw [zitems_zerocomp cfg 1 (k + 1) s.strm hc hz, Nat.one_mul, hs]
    have := zbytes_zero_run false k k rest hk (Nat.le_refl k)
    rw [Nat.sub_self] at this
    exact this
  · intro v rest2 hr hv
    rw [zread_none cfg hm fuel 1 (k + 2) s (Or.inl rfl) (Nat.succ_pos (k + 1))]
    apply liftStrm_ok
    rw [zitems_zerocomp cfg 1 (k + 2) s.strm hc hz, Nat.one_mul, hs, hr]
    exact zbytes_zero_run_lit false k v rest2 hk hv
  · intro len num hln
    rw [zitems_zerocomp cfg len num s.strm hc hz, hln, hs]
    exact zbytes_zero_run false k j rest hk hj

theorem zread_zero_then_run_witness :
    zread zcfg 1 1 3 none (openOn [0, 2, 9])
        = .ok ([0, 0, 0], { openOn [0, 2, 9] with strm := ⟨0, false, some [9]⟩ }) :=
  (zread_zero_then_run zcfg rfl (Or.inr (Or.inr rfl)) 0 2 2 (by decide) (Nat.le_refl 2) [9]
    (openOn [0, 2, 9]) rfl).1

/-- C3 (as stated, refuted). For `k = 0` the input `[0x00, 0, 7]` decodes to one zero byte
followed by 7, not to zero zero bytes followed by 7. -/
theorem zero_run_roundtrip_counterexample :
    zread zcfg 1 1 2 none (openOn [0, 0, 7]) = .ok ([0, 7], openOn [])
    ∧ ([0, 7] : List Nat) ≠ List.replicate 0 0 ++ [7] := by
  decide

/-- C3 (amended). With `zerocomp` on and `nzeroes = 0`, reading bytes through `zread` from
the input `[0x00, k, v]` (`v` a non-zero byte) until the input is used up yields exactly
`1 + k` zero bytes followed by `v`, for each `k` in `{0, 1, 255}`; the file is then at its
end with no run pending, so `testeof` succeeds. -/
theorem zero_run_roundtrip (cfg : Config) (hz : cfg.zerocomp = true) (hm : MemberAlignOk cfg)
    (fuel k v : Nat) (hk : k = 0 ∨ k = 1 ∨ k = 255) (hv : 0 < v) (hv2 : v < 256) (s : State)
    (hs : s.strm = ⟨0, false, some [0, k, v]⟩) :
    zread cfg (fuel + 1) 1 (k + 2) none s
        = .ok (List.replicate (1 + k) 0 ++ [v], { s with strm := ⟨0, false, some []⟩ })
    ∧ testeof { s with strm := ⟨0, false, some []⟩ }
        = .ok ((), { s with strm := ⟨0, false, some []⟩ }) := by
  have hc : s.strm.countonly = false := by rw [hs]
  have hk2 : k < 256 := by omega
  have hv3 : v % 256 = v := Nat.mod_eq_of_lt hv2
  refine ⟨?_, ?_⟩
  · rw [zread_none cfg hm fuel 1 (k + 2) s (Or.inl rfl) (Nat.succ_pos (k + 1))]
    apply liftStrm_ok
    rw [zitems_zerocomp cfg 1 (k + 2) s.strm hc hz, Nat.one_mul, hs, Nat.add_comm 1 k]
    have := zbytes_zero_run_lit false k v [] hk2 (by omega)
    rw [hv3] at this
    exact this
  · simp [testeof]

theorem zero_run_roundtrip_witness :
    zread zcfg 1 1 257 none (openOn [0, 255, 7])
        = .ok (List.replicate (1 + 255) 0 ++ [7],
            { openOn [0, 255, 7] with strm := ⟨0, false, some []⟩ }) :=
  (zero_run_roundtrip zcfg rfl (Or.inr (Or.inr rfl)) 0 255 7 (by decide) (by decide) (by decide)
    (openOn [0, 255, 7]) rfl).1

/-! ## Heap cells and plain reads -/

theorem deref_ok (p : Nat) (s : State) (c : struct_t) (h : s.heap[p]? = some (some c)) :
    deref p s = .ok (c, s) := by
  simp [deref, h]

theorem store_ok (p : Nat) (s : State) (c d : struct_t) (h : s.heap[p]? = some (some c)) :
    store p d s = .ok ((), { s with heap := s.heap.set p (some d) }) := by
  simp [store, h]

theorem heap_set_get (h : List (Option struct_t)) (p : Nat) (c d : struct_t)
    (hc : h[p]? = some (some c)) : (h.set p (some d))[p]? = some (some d) := by
  have hp : p < h.length := by
    by_contra hlt
    rw [List.getElem?_eq_none (by omega)] at hc
    cases hc
  simp [List.getElem?_set, hp]

theorem heap_set_self (h : List (Option struct_t)) (p : Nat) (c : struct_t)
    (hc : h[p]? = some (some c)) : h.set p (some c) = h := by
  apply List.ext_getElem?
  intro i
  by_cases hi : p = i
  · subst hi
    rw [heap_set_get h p c c hc, hc]
  · simp [List.getElem?_set, hi]

theorem heap_set_set (h : List (Option struct_t)) (p : Nat) (c d : Option struct_t) :
    (h.set p c).set p d = h.set p d := by
  simp

theorem eread_plain (len : Nat) (s : Stream) (bs : List Nat) (hl : len = 1 ∨ len = 2 ∨ len = 4)
    (hf : s.fp = some bs) (hb : len ≤ bs.length) :
    eread len s = .ok ((bs.take len).map (· % 256), { s with fp := some (bs.drop len) }) := by
  have hn : ¬ bs.length < len := by omega
  rcases hl with hl | hl | hl <;> subst hl <;> simp [eread, hf, hn]

theorem zitems_plain (cfg : Config) (len num : Nat) (s : Stream) (bs : List Nat)
    (hl : len = 1 ∨ len = 2 ∨ len = 4) (hc : s.countonly = false) (hz : cfg.zerocomp = false)
    (hf : s.fp = some bs) (hb : len * num ≤ bs.length) :
    zitems cfg len num s
      = .ok ((bs.take (len * num)).map (· % 256), { s with fp := some (bs.drop (len * num)) }) := by
  induction num generalizing s bs with
  | zero =>
    simp only [zitems, run_pure, Nat.mul_zero, List.take_zero, List.map_nil, List.drop_zero]
    rw [← hf]
  | succ n ih =>
    have hmul : len * (n + 1) = len + len * n := by ring
    rw [hmul] at hb ⊢
    have h1 : zitem cfg len s
        = .ok ((bs.take len).map (· % 256), { s with fp := some (bs.drop len) }) := by
      have hlen : len ≤ bs.length := by omega
      have he := eread_plain len s bs hl hf hlen
      simp [zitem, hc, hz, he]
    have h2 := ih { s with fp := some (bs.drop len) } (bs.drop len) hc rfl
      (by rw [List.length_drop]; omega)
    simp only [zitems, run_bind, run_pure, h1, h2, List.drop_drop]
    rw [← List.map_append, List.take_add, Nat.add_comm]

/-! ## `align` -/

theorem pad_zero_iff (n b : Nat) (hn : n = 1 ∨ n = 2 ∨ n = 4) :
    padding b n = 0 ↔ b % n = 0 := by
  unfold padding
  rcases hn with hn | hn | hn <;> subst hn <;> omega

theorem pad_step (n b k : Nat) (hn : n = 1 ∨ n = 2 ∨ n = 4)
    (hk : padding b n = k + 1) :
    padding ((b + 1) % W32) n = k ∧ ((b + 1) % W32 + k) % W32 = (b + (k + 1)) % W32 := by
  unfold padding W32 at *
  rcases hn with hn | hn | hn <;> subst hn <;> omega

theorem alignLoop_spec (cfg : Config) (hm : MemberAlignOk cfg) (p n : Nat)
    (hn : n = 1 ∨ n = 2 ∨ n = 4) (k : Nat) :
    ∀ (fuel : Nat) (s : State) (c : struct_t), s.heap[p]? = some (some c) → c.nbytes < W32 →
      padding c.nbytes n = k → k + 1 ≤ fuel →
      alignLoop cfg fuel p n s = (match zitems cfg 1 k s.strm with
        | .ok (_, t) => .ok ((), ⟨t, s.numbytes,
            s.heap.set p (some { c with nbytes := (c.nbytes + k) % W32 })⟩)
        | .error e => .error e) := by
  induction k with
  | zero =>
    intro fuel s c hc hb hk hf
    obtain ⟨f, rfl⟩ : ∃ f, fuel = f + 1 := ⟨fuel - 1, by omega⟩
    have hmod : c.nbytes % n = 0 := (pad_zero_iff n c.nbytes hn).1 hk
    have hself : s.heap.set p (some { c with nbytes := (c.nbytes + 0) % W32 }) = s.heap := by
      rw [Nat.add_zero, Nat.mod_eq_of_lt hb]
      exact heap_set_self s.heap p c hc
    rw [alignLoop]
    simp only [run_bind, deref_ok p s c hc, hmod, zitems, run_pure, hself, ne_eq,
      not_true_eq_false, if_false]
  | succ k ih =>
    intro fuel s c hc hb hk hf
    obtain ⟨f, rfl⟩ : ∃ f, fuel = f + 2 := ⟨fuel - 2, by omega⟩
    have hmod : c.nbytes % n ≠ 0 := by
      intro h0
      have := (pad_zero_iff n c.nbytes hn).2 h0
      omega
    obtain ⟨hk2, hsum⟩ := pad_step n c.nbytes k hn hk
    have hz := zread_none cfg hm f 1 1 s (Or.inl rfl) Nat.one_pos
    rw [alignLoop]
    simp only [run_bind, deref_ok p s c hc, hmod, hz, liftStrm, ne_eq, not_false_eq_true,
      if_true]
    simp only [zitems, run_bind, run_pure]
    cases h1 : zitem cfg 1 s.strm with
    | error e => rfl
    | ok r =>
      obtain ⟨b, t⟩ := r
      have hc1 : ({ s with strm := t } : State).heap[p]? = some (some c) := hc
      have hc2 : (s.heap.set p (some { c with nbytes := (c.nbytes + 1) % W32 }))[p]?
          = some (some { c with nbytes := (c.nbytes + 1) % W32 }) :=
        heap_set_get s.heap p c _ hc
      have hlt : (c.nbytes + 1) % W32 < W32 := Nat.mod_lt _ (by unfold W32; decide)
      have := ih (f + 1) ⟨t, s.numbytes,
        s.heap.set p (some { c with nbytes := (c.nbytes + 1) % W32 })⟩
        { c with nbytes := (c.nbytes + 1) % W32 } hc2 hlt hk2 (by omega)
      simp only [deref_ok p _ c hc1, store_ok p _ c _ hc1, this, hsum, List.set_set]
      cases zitems cfg 1 k t with
      | error e => rfl
      | ok r2 => rfl


theorem pad_lt (n b : Nat) (hn : n = 1 ∨ n = 2 ∨ n = 4) : padding b n < 4 := by
  unfold padding
  rcases hn with hn | hn | hn <;> subst hn <;> omega

theorem align_spec (cfg : Config) (hm : MemberAlignOk cfg) (fuel p n : Nat)
    (hn : n = 1 ∨ n = 2 ∨ n = 4) (s : State) (c : struct_t) (hc : s.heap[p]? = some (some c))
    (hb : c.nbytes < W32) (hf : 5 ≤ fuel) :
    align cfg fuel (some p) n s = (match zitems cfg 1 (padding c.nbytes n) s.strm with
      | .ok (_, t) => .ok ((), ⟨t, s.numbytes,
          s.heap.set p (some { c with nbytes := (c.nbytes + padding c.nbytes n) % W32 })⟩)
      | .error e => .error e) := by
  obtain ⟨f, rfl⟩ : ∃ f, fuel = f + 1 := ⟨fuel - 1, by omega⟩
  have hk := pad_lt n c.nbytes hn
  have hloop := alignLoop_spec cfg hm p n hn (padding c.nbytes n) f s c hc hb rfl (by omega)
  have hca : cassert (n == 1 || n == 2 || n == 4) s = .ok ((), s) := by
    rcases hn with hn | hn | hn <;> subst hn <;> rfl
  rw [align]
  simp only [run_bind, hca, hloop]

/-- C1 (as stated, refuted). A context with `nbytes = 2^32 - 1` aligned to 2 reads one padding
byte, and its 32-bit `nbytes` wraps to 0: it is not raised, and is not a multiple `≥ b`. -/
theorem align_wrap_counterexample :
    align zcfg 5 (some 0) 2 wrapState
        = .ok ((), { wrapState with heap := [some ⟨2, 0, 0, 0, none⟩] })
    ∧ padding 4294967295 2 = 1 ∧ ¬ (4294967295 ≤ 0) := by
  decide

/-- C1 (amended). For a struct context with `nbytes = b` (a 32-bit counter) and `n` in
`{1,2,4}`, `align` reads and discards exactly `(n - b % n) % n` bytes through the stream (it
fails exactly when those reads fail) and sets `nbytes` to `b` plus that amount modulo `2^32`:
in count-only mode the stream is untouched, on a plain stream holding enough bytes exactly
that many are dropped; whenever the sum is below `2^32` the new `nbytes` is the least multiple
of `n` that is `≥ b`, otherwise it wraps to 0; and when `b % n = 0` nothing is read and the
whole state is unchanged. -/
theorem align_pads (cfg : Config) (hm : MemberAlignOk cfg) (fuel p n : Nat)
    (hn : n = 1 ∨ n = 2 ∨ n = 4) (s : State) (c : struct_t) (hc : s.heap[p]? = some (some c))
    (hb : c.nbytes < W32) (hf : 5 ≤ fuel) :
    (align cfg fuel (some p) n s = (match zitems cfg 1 (padding c.nbytes n) s.strm with
      | .ok (_, t) => .ok ((), ⟨t, s.numbytes,
          s.heap.set p (some { c with nbytes := (c.nbytes + padding c.nbytes n) % W32 })⟩)
      | .error e => .error e))
    ∧ (s.strm.countonly = true →
        align cfg fuel (some p) n s = .ok ((), ⟨s.strm, s.numbytes,
          s.heap.set p (some { c with nbytes := (c.nbytes + padding c.nbytes n) % W32 })⟩))
    ∧ (∀ bs, s.strm.countonly = false → cfg.zerocomp = false → s.strm.fp = some bs →
        padding c.nbytes n ≤ bs.length →
        align cfg fuel (some p) n s = .ok ((), ⟨{ s.strm with
            fp := some (bs.drop (padding c.nbytes n)) }, s.numbytes,
          s.heap.set p (some { c with nbytes := (c.nbytes + padding c.nbytes n) % W32 })⟩))
    ∧ (c.nbytes % n = 0 → align cfg fuel (some p) n s = .ok ((), s))
    ∧ (c.nbytes + padding c.nbytes n < W32 →
        (c.nbytes + padding c.nbytes n) % W32 = c.nbytes + padding c.nbytes n
        ∧ n ∣ c.nbytes + padding c.nbytes n
        ∧ ∀ m, c.nbytes ≤ m → n ∣ m → c.nbytes + padding c.nbytes n ≤ m)
    ∧ (W32 ≤ c.nbytes + padding c.nbytes n → (c.nbytes + padding c.nbytes n) % W32 = 0) := by
  have hspec := align_spec cfg hm fuel p n hn s c hc hb hf
  refine ⟨hspec, ?_, ?_, ?_, ?_, ?_⟩
  · intro hco
    rw [hspec, zitems_countonly cfg 1 _ s.strm hco]
  · intro bs hco hz hfp hlen
    rw [hspec, zitems_plain cfg 1 _ s.strm bs (Or.inl rfl) hco hz hfp (by omega)]
    simp only [Nat.one_mul]
  · intro h0
    have hp : padding c.nbytes n = 0 := (pad_zero_iff n c.nbytes hn).2 h0
    rw [hspec, hp]
    simp only [zitems, run_pure, Nat.add_zero, Nat.mod_eq_of_lt hb]
    rw [heap_set_self s.heap p c hc]
  · intro hlt
    refine ⟨Nat.mod_eq_of_lt hlt, ?_, ?_⟩
    · unfold padding
      rcases hn with hn | hn | hn <;> subst hn <;> omega
    · intro m hm1 hm2
      unfold padding
      rcases hn with hn | hn | hn <;> subst hn <;> omega
  · intro hge
    unfold padding W32 at *
    rcases hn with hn | hn | hn <;> subst hn <;> omega

theorem align_pads_witness :
    align zcfg 5 (some 0) 4 ⟨⟨0, false, some [7, 8, 9, 10]⟩, 0, [some ⟨4, 5, 0, 0, none⟩]⟩
      = .ok ((), ⟨⟨0, false, some [10]⟩, 0, [some ⟨4, 8, 0, 0, none⟩]⟩) := by
  have h := (align_pads zcfg (Or.inr (Or.inr rfl)) 5 0 4 (Or.inr (Or.inr rfl))
    ⟨⟨0, false, some [7, 8, 9, 10]⟩, 0, [some ⟨4, 5, 0, 0, none⟩]⟩ ⟨4, 5, 0, 0, none⟩ rfl
    (by decide) (Nat.le_refl 5)).1
  rw [h]
  decide

/-! ## `startstruct` -/

theorem cassert_ok {σ : Type} (b : Bool) (h : b = true) (s : σ) : cassert b s = .ok ((), s) := by
  subst h; rfl

theorem structAlignment_eq (cfg : Config) (hasfields : Bool) (maxlen : Nat) :
    structAlignment cfg hasfields maxlen
      = if hasfields then max cfg.fieldalign (codeBound cfg hasfields maxlen)
        else if cfg.structalign ≠ 0 then min cfg.structalign (codeBound cfg hasfields maxlen)
        else codeBound cfg hasfields maxlen := by
  cases hasfields <;>
    simp only [structAlignment, codeBound, Nat.max_def, Nat.min_def, Bool.false_and,
      Bool.true_and, decide_eq_true_eq, Bool.and_eq_true, bne_iff_ne, ne_eq, Bool.false_eq_true,
      if_false, if_true, Bool.not_eq_true', decide_not, Bool.not_eq_true, decide_eq_false_iff_not] <;>
    split_ifs <;> omega

theorem structAlignment_valid (cfg : Config) (hv : ValidConfig cfg) (hasfields : Bool)
    (maxlen : Nat) (hl : maxlen = 1 ∨ maxlen = 2 ∨ maxlen = 4) :
    structAlignment cfg hasfields maxlen = 1 ∨ structAlignment cfg hasfields maxlen = 2
      ∨ structAlignment cfg hasfields maxlen = 4 := by
  obtain ⟨h1, h2, h3, h4⟩ := hv
  rw [structAlignment_eq]
  cases hasfields <;>
    simp only [codeBound, Nat.max_def, Nat.min_def, Bool.false_eq_true, if_false, if_true] <;>
    split_ifs <;> omega


theorem in124_bool (x : Nat) (h : x = 1 ∨ x = 2 ∨ x = 4) :
    (x == 1 || x == 2 || x == 4) = true := by
  rcases h with h | h | h <;> subst h <;> rfl

theorem in0124_bool (x : Nat) (h : x = 0 ∨ x = 1 ∨ x = 2 ∨ x = 4) :
    (decide (x ≤ 4) && x != 3) = true := by
  rcases h with h | h | h | h <;> subst h <;> rfl

theorem alloc_deref (s : State) (c : struct_t) :
    deref s.heap.length ⟨s.strm, s.numbytes, s.heap ++ [some c]⟩
      = .ok (c, ⟨s.strm, s.numbytes, s.heap ++ [some c]⟩) := by
  simp [deref]

theorem alloc_store (s : State) (c d : struct_t) :
    store s.heap.length d ⟨s.strm, s.numbytes, s.heap ++ [some c]⟩
      = .ok ((), ⟨s.strm, s.numbytes, s.heap ++ [some d]⟩) := by
  simp [store]

theorem startstruct_none (cfg : Config) (hv : ValidConfig cfg) (hasfields : Bool)
    (maxlen : Nat) (hl : maxlen = 1 ∨ maxlen = 2 ∨ maxlen = 4) (fuel : Nat) (s : State) :
    startstruct cfg fuel none hasfields maxlen s
      = .ok (s.heap.length, ⟨s.strm, s.numbytes,
          s.heap ++ [some ⟨structAlignment cfg hasfields maxlen, 0, 0, 0, none⟩]⟩) := by
  have ha := structAlignment_valid cfg hv hasfields maxlen hl
  obtain ⟨h1, h2, h3, h4⟩ := hv
  simp only [startstruct, run_bind, cassert_ok _ (in124_bool _ hl),
    cassert_ok _ (in124_bool _ h1), cassert_ok _ (in124_bool _ h2),
    cassert_ok _ (in0124_bool _ h3), cassert_ok _ (in0124_bool _ h4),
    cassert_ok _ (in124_bool _ ha), alloc, alloc_deref, alloc_store, run_pure]


theorem cassert_run {σ : Type} (b : Bool) (s : σ) :
    cassert b s = if b = true then .ok ((), s) else .error Err.assertion := by
  cases b <;> rfl

theorem liftStrm_frame {α : Type} (m : SM α) (s s2 : State) (a : α)
    (h : liftStrm m s = .ok (a, s2)) :
    m s.strm = .ok (a, s2.strm) ∧ s2.heap = s.heap ∧ s2.numbytes = s.numbytes := by
  unfold liftStrm at h
  split at h
  · next a2 t ht =>
    cases h
    exact ⟨ht, rfl, rfl⟩
  · cases h

theorem zread_none_frame (cfg : Config) (fuel len num : Nat) (s s2 : State) (bs : List Nat)
    (h : zread cfg fuel len num none s = .ok (bs, s2)) :
    zitems cfg len num s.strm = .ok (bs, s2.strm) ∧ s2.heap = s.heap
      ∧ s2.numbytes = s.numbytes := by
  cases fuel with
  | zero => simp [zread] at h
  | succ f =>
    rw [zread] at h
    cases h1 : (len == 1 || len == 2 || len == 4) <;>
    cases h2 : decide (num > 0) <;>
    cases h3 : (cfg.memberalign == 1 || cfg.memberalign == 2 || cfg.memberalign == 4) <;>
    simp only [run_bind, h1, h2, h3, cassert_true, cassert_false, run_pure] at h
    · cases h
    · cases h
    · cases h
    · cases h
    · cases h
    · cases h
    · cases h
    · exact liftStrm_frame _ s s2 bs h

theorem alignLoop_frame (cfg : Config) (p n : Nat) (fuel : Nat) :
    ∀ (s s2 : State), alignLoop cfg fuel p n s = .ok ((), s2) →
      s2.numbytes = s.numbytes ∧ s2.heap.length = s.heap.length ∧
      ∀ i c, s.heap[i]? = some (some c) →
        ∃ m, s2.heap[i]? = some (some { c with nbytes := m }) ∧ (i ≠ p → m = c.nbytes) := by
  induction fuel with
  | zero => intro s s2 h; simp [alignLoop] at h
  | succ f ih =>
    intro s s2 h
    rw [alignLoop] at h
    simp only [run_bind] at h
    cases hd : deref p s with
    | error e => simp [hd] at h
    | ok r =>
      obtain ⟨c0, s0⟩ := r
      have hc0 : s.heap[p]? = some (some c0) ∧ s0 = s := by
        unfold deref at hd
        split at hd
        · next c hc => cases hd; exact ⟨hc, rfl⟩
        · cases hd
      obtain ⟨hc0, rfl⟩ := hc0
      simp only [hd] at h
      split at h
      · next hmod =>
        simp only [run_bind] at h
        cases hz : zread cfg f 1 1 none s0 with
        | error e => simp [hz] at h
        | ok r1 =>
          obtain ⟨bs, s1⟩ := r1
          obtain ⟨-, hh1, hn1⟩ := zread_none_frame cfg f 1 1 s0 s1 bs hz
          have hc1 : s1.heap[p]? = some (some c0) := by rw [hh1]; exact hc0
          simp only [hz, deref_ok p s1 c0 hc1, store_ok p s1 c0 _ hc1] at h
          obtain ⟨hnum, hlen, hcells⟩ := ih _ s2 h
          refine ⟨by rw [hnum, hn1], by rw [hlen]; simp [hh1], ?_⟩
          intro i c hic
          by_cases hip : i = p
          · subst hip
            have hcc : c = c0 := by rw [hc0] at hic; cases hic; rfl
            subst hcc
            have := hcells i _ (heap_set_get s1.heap i c _ hc1)
            obtain ⟨m, hm, -⟩ := this
            exact ⟨m, hm, fun hne => absurd rfl hne⟩
          · have hset : (s1.heap.set p (some { c0 with nbytes := (c0.nbytes + 1) % W32 }))[i]?
                = some (some c) := by
              rw [List.getElem?_set_ne (Ne.symm hip), hh1]; exact hic
            obtain ⟨m, hm, hmp⟩ := hcells i c hset
            exact ⟨m, hm, hmp⟩
      · simp only [run_pure] at h
        cases h
        refine ⟨rfl, rfl, ?_⟩
        intro i c hic
        exact ⟨c.nbytes, hic, fun _ => rfl⟩

theorem align_frame (cfg : Config) (p n : Nat) (fuel : Nat) (s s2 : State)
    (h : align cfg fuel (some p) n s = .ok ((), s2)) :
      s2.numbytes = s.numbytes ∧ s2.heap.length = s.heap.length ∧
      ∀ i c, s.heap[i]? = some (some c) →
        ∃ m, s2.heap[i]? = some (some { c with nbytes := m }) ∧ (i ≠ p → m = c.nbytes) := by
  cases fuel with
  | zero => simp [align] at h
  | succ f =>
    rw [align] at h
    cases h1 : (n == 1 || n == 2 || n == 4) <;>
    simp only [run_bind, h1, cassert_true, cassert_false] at h
    · cases h
    · exact alignLoop_frame cfg p n f s s2 h


theorem startstruct_some (cfg : Config) (hv : ValidConfig cfg) (hasfields : Bool)
    (maxlen : Nat) (hl : maxlen = 1 ∨ maxlen = 2 ∨ maxlen = 4) (fuel q : Nat) (s : State) :
    startstruct cfg fuel (some q) hasfields maxlen s
      = (match deref q ⟨s.strm, s.numbytes,
            s.heap ++ [some ⟨structAlignment cfg hasfields maxlen, 0, 0, 0, some q⟩]⟩ with
        | .ok (pc, s1) =>
          if pc.align ≥ structAlignment cfg hasfields maxlen then
            (match align cfg fuel (some q) (structAlignment cfg hasfields maxlen) s1 with
              | .ok (_, s2) => .ok (s.heap.length, s2)
              | .error e => .error e)
          else .error Err.assertion
        | .error e => .error e) := by
  have ha := structAlignment_valid cfg hv hasfields maxlen hl
  obtain ⟨h1, h2, h3, h4⟩ := hv
  simp only [startstruct, run_bind, cassert_ok _ (in124_bool _ hl),
    cassert_ok _ (in124_bool _ h1), cassert_ok _ (in124_bool _ h2),
    cassert_ok _ (in0124_bool _ h3), cassert_ok _ (in0124_bool _ h4),
    cassert_ok _ (in124_bool _ ha), alloc, alloc_deref, alloc_store, run_pure]
  cases deref q ⟨s.strm, s.numbytes,
      s.heap ++ [some ⟨structAlignment cfg hasfields maxlen, 0, 0, 0, some q⟩]⟩ with
  | error e => rfl
  | ok r =>
    obtain ⟨pc, s1⟩ := r
    simp only []
    by_cases hge : pc.align ≥ structAlignment cfg hasfields maxlen
    · simp only [hge, decide_True, cassert_true, if_true]
      cases align cfg fuel (some q) (structAlignment cfg hasfields maxlen) s1 with
      | error e => rfl
      | ok r2 => rfl
    · simp only [hge, decide_False, cassert_false, if_false]

/-- C2 (as stated, refuted). With 4-byte bitfield units and `memberalign = 1`, a struct with
bitfields and 1-byte members gets alignment 1 from `startstruct`, where the claim's formula
(bound raised to `fieldsz` after the cap by `memberalign`) gives 4. -/
theorem startstruct_alignment_counterexample :
    startstruct packedCfg 5 none true 1 (openOn [])
        = .ok (0, ⟨⟨0, false, some []⟩, 0, [some ⟨1, 0, 0, 0, none⟩]⟩)
    ∧ specAlignment packedCfg true 1 = 4 := by
  decide

/-- C2 (amended). For every configuration in the accepted domains and every `hasfields` and
`maxlen` in `{1,2,4}`, the alignment `startstruct` gives the new context equals
`hasfields ? max(fieldalign, bound) : (structalign != 0 ? min(structalign, bound) : bound)`
where `bound = min(m, memberalign)` and `m` is `maxlen`, first raised to at least `fieldsz`
if `hasfields`: without a parent the call always succeeds with that context, and with a
parent every successful call yields it. -/
theorem startstruct_alignment (cfg : Config) (hv : ValidConfig cfg) (hasfields : Bool)
    (maxlen : Nat) (hl : maxlen = 1 ∨ maxlen = 2 ∨ maxlen = 4) (fuel : Nat)
    (parent : Option Nat) (s : State) :
    startstruct cfg fuel none hasfields maxlen s
        = .ok (s.heap.length, ⟨s.strm, s.numbytes,
            s.heap ++ [some ⟨codeAlignment cfg hasfields maxlen, 0, 0, 0, none⟩]⟩)
    ∧ ∀ p s2, startstruct cfg fuel parent hasfields maxlen s = .ok (p, s2) →
        ∃ c, s2.heap[p]? = some (some c) ∧ c.align = codeAlignment cfg hasfields maxlen := by
  have heq : structAlignment cfg hasfields maxlen = codeAlignment cfg hasfields maxlen :=
    structAlignment_eq cfg hasfields maxlen
  have hnone := startstruct_none cfg hv hasfields maxlen hl fuel s
  rw [heq] at hnone
  refine ⟨hnone, ?_⟩
  intro p s2 h
  cases parent with
  | none =>
    rw [hnone] at h
    cases h
    exact ⟨⟨codeAlignment cfg hasfields maxlen, 0, 0, 0, none⟩, by simp, rfl⟩
  | some q =>
    rw [startstruct_some cfg hv hasfields maxlen hl fuel q s] at h
    split at h
    · next pc s1 hd =>
      have hs1 : s1 = ⟨s.strm, s.numbytes,
          s.heap ++ [some ⟨structAlignment cfg hasfields maxlen, 0, 0, 0, some q⟩]⟩ := by
        unfold deref at hd
        split at hd
        · cases hd; rfl
        · cases hd
      split at h
      · split at h
        · next u s3 hal =>
          cases h
          obtain ⟨-, -, hcells⟩ := align_frame cfg q _ fuel s1 s2 hal
          have hcell : s1.heap[s.heap.length]?
              = some (some ⟨structAlignment cfg hasfields maxlen, 0, 0, 0, some q⟩) := by
            rw [hs1]; simp
          obtain ⟨m, hm, -⟩ := hcells _ _ hcell
          exact ⟨_, hm, heq⟩
        · cases h
      · cases h
    · cases h

theorem startstruct_alignment_witness :
    startstruct zcfg 5 none true 2 (openOn [])
        = .ok (0, ⟨⟨0, false, some []⟩, 0, [some ⟨codeAlignment zcfg true 2, 0, 0, 0, none⟩]⟩) :=
  (startstruct_alignment zcfg
    ⟨Or.inl rfl, Or.inr (Or.inr rfl), Or.inl rfl, Or.inl rfl⟩ true 2 (Or.inr (Or.inl rfl)) 5 none
    (openOn [])).1

/-! ## Byte reversal -/

theorem and_ff00 (x : Nat) : x &&& 0xff00 = (x / 256 % 256) * 256 := by
  have h : (0xff00 : Nat) = (2 ^ 8 - 1) <<< 8 := by decide
  have h2 : (x / 256 % 256) * 256 = ((x >>> 8) &&& (2 ^ 8 - 1)) <<< 8 := by
    rw [Nat.and_pow_two_sub_one_eq_mod, Nat.shiftRight_eq_div_pow, Nat.shiftLeft_eq]
  rw [h2, h]
  apply Nat.eq_of_testBit_eq
  intro i
  simp only [Nat.testBit_and, Nat.testBit_shiftLeft, Nat.testBit_shiftRight,
    Nat.testBit_two_pow_sub_one]
  by_cases hi : 8 ≤ i
  · have : 8 + (i - 8) = i := by omega
    simp [hi, this]
  · simp [hi]

theorem or_low (k a c : Nat) (ha : a < 2 ^ k) : a ||| c * 2 ^ k = a + c * 2 ^ k := by
  rw [Nat.or_comm, Nat.mul_comm, ← Nat.mul_add_lt_is_or ha, Nat.add_comm]

theorem swap16_eq (x : Nat) : swap16 x = x / 256 % 256 + (x % 256) * 256 := by
  unfold swap16
  have h1 : (0xff : Nat) = 2 ^ 8 - 1 := by decide
  rw [h1, Nat.and_pow_two_sub_one_eq_mod, Nat.and_pow_two_sub_one_eq_mod,
    Nat.shiftRight_eq_div_pow, Nat.shiftLeft_eq]
  rw [or_low 8 _ _ (Nat.mod_lt _ (by decide))]
  simp only [Nat.reducePow]
  omega

theorem or_bytes (b0 b1 b2 b3 : Nat) (h1 : b1 < 256) (h2 : b2 < 256)
    (h3 : b3 < 256) :
    b3 ||| b0 * 2 ^ 24 ||| b2 * 2 ^ 8 ||| b1 * 2 ^ 16
      = b3 + b2 * 256 + b1 * 65536 + b0 * 16777216 := by
  have hre : b3 ||| b0 * 2 ^ 24 ||| b2 * 2 ^ 8 ||| b1 * 2 ^ 16
      = b3 ||| (b2 * 2 ^ 8 ||| (b1 * 2 ^ 16 ||| b0 * 2 ^ 24)) := by
    rw [Nat.or_assoc, Nat.or_assoc, Nat.or_comm (b0 * 2 ^ 24), Nat.or_assoc]
  rw [hre, or_low 24 (b1 * 2 ^ 16) b0 (by omega)]
  have e1 : b1 * 2 ^ 16 + b0 * 2 ^ 24 = (b1 + b0 * 256) * 2 ^ 16 := by omega
  rw [e1, or_low 16 (b2 * 2 ^ 8) _ (by omega)]
  have e2 : b2 * 2 ^ 8 + (b1 + b0 * 256) * 2 ^ 16 = (b2 + b1 * 256 + b0 * 65536) * 2 ^ 8 := by
    omega
  rw [e2, or_low 8 b3 _ (by omega)]
  omega

theorem swap32_eq (x : Nat) :
    swap32 x = x / 16777216 % 256 + (x / 65536 % 256) * 256 + (x / 256 % 256) * 65536
      + (x % 256) * 16777216 := by
  unfold swap32 W32
  have h1 : (0xff : Nat) = 2 ^ 8 - 1 := by decide
  rw [and_ff00, and_ff00, h1, Nat.and_pow_two_sub_one_eq_mod, Nat.and_pow_two_sub_one_eq_mod,
    Nat.shiftRight_eq_div_pow, Nat.shiftRight_eq_div_pow, Nat.shiftLeft_eq, Nat.shiftLeft_eq]
  have e1 : x % 2 ^ 8 * 2 ^ 24 % 2 ^ 32 = (x % 256) * 2 ^ 24 := by
    simp only [Nat.reducePow]; omega
  have e2 : x / 256 % 256 * 256 * 2 ^ 8 % 2 ^ 32 = (x / 256 % 256) * 2 ^ 16 := by
    simp only [Nat.reducePow]; omega
  have e3 : x / 2 ^ 8 / 256 % 256 * 256 = (x / 65536 % 256) * 2 ^ 8 := by
    simp only [Nat.reducePow]; omega
  have e4 : x / 2 ^ 24 % 2 ^ 8 = x / 16777216 % 256 := by
    simp only [Nat.reducePow]
  rw [e1, e2, e3, e4, or_bytes (x % 256) (x / 256 % 256) (x / 65536 % 256) (x / 16777216 % 256)
    (Nat.mod_lt _ (by decide)) (Nat.mod_lt _ (by decide)) (Nat.mod_lt _ (by decide))]
  omega

theorem swap16_bytes (b0 b1 : Nat) (h0 : b0 < 256) (h1 : b1 < 256) :
    swap16 (b0 + 256 * b1) = b1 + 256 * b0 := by
  rw [swap16_eq]
  omega

theorem swap32_bytes (b0 b1 b2 b3 : Nat) (h0 : b0 < 256) (h1 : b1 < 256) (h2 : b2 < 256)
    (h3 : b3 < 256) :
    swap32 (b0 + 256 * b1 + 65536 * b2 + 16777216 * b3)
      = b3 + 256 * b2 + 65536 * b1 + 16777216 * b0 := by
  rw [swap32_eq]
  omega

/-- C8. The byte reversal of `iread` is an involution: the 2-byte swap applied twice to a
16-bit value gives the value back, and so does the 4-byte reversal on a 32-bit value. -/
theorem swap_involution :
    (∀ x, x < 2 ^ 16 → swap16 (swap16 x) = x) ∧ (∀ y, y < 2 ^ 32 → swap32 (swap32 y) = y) := by
  constructor
  · intro x hx
    simp only [Nat.reducePow] at hx
    have hx2 : x = x % 256 + 256 * (x / 256) := by omega
    rw [hx2, swap16_bytes _ _ (by omega) (by omega), swap16_bytes _ _ (by omega) (by omega)]
  · intro y hy
    simp only [Nat.reducePow] at hy
    have hy2 : y = y % 256 + 256 * (y / 256 % 256) + 65536 * (y / 65536 % 256)
        + 16777216 * (y / 16777216) := by omega
    rw [hy2, swap32_bytes _ _ _ _ (by omega) (by omega) (by omega) (by omega),
      swap32_bytes _ _ _ _ (by omega) (by omega) (by omega) (by omega)]

theorem swap_involution_witness :
    swap16 (swap16 0x1234) = 0x1234 ∧ swap32 (swap32 0x12345678) = 0x12345678 :=
  ⟨swap_involution.1 0x1234 (by decide), swap_involution.2 0x12345678 (by decide)⟩

/-! ## `bread`, `clearfield` and reads through a struct context -/

theorem sub32_eq (a b : Nat) (h : b ≤ a) (ha : a < W32) : sub32 a b = a - b := by
  unfold sub32 W32 at *
  omega

theorem shr32_ok {σ : Type} (x k : Nat) (h : k < 32) (s : σ) :
    shr32 x k s = .ok (x >>> k, s) := by
  simp [shr32, h]

theorem shl32_ok {σ : Type} (x k : Nat) (h : k < 32) (s : σ) :
    shl32 x k s = .ok ((x <<< k) % W32, s) := by
  simp [shl32, h]

theorem bread_extract (cfg : Config) (f len p : Nat) (s : State) (c : struct_t)
    (hc : s.heap[p]? = some (some c)) (hlen : 0 < len) (hle : len ≤ c.nbits)
    (hF : c.nbits ≤ unitBits cfg) (hU : unitBits cfg ≤ 32) :
    bread cfg (f + 1) len (some p) s
      = .ok (fieldBits cfg c len, ⟨s.strm, s.numbytes,
          s.heap.set p (some { c with nbits := c.nbits - len })⟩) := by
  have h1 : decide (len > 0) = true := by simpa using hlen
  have h2 : decide (len ≤ cfg.fieldsz * 8 % W32) = true := by
    have : len ≤ unitBits cfg := by omega
    simpa [unitBits] using this
  have h3 : ¬ c.nbits < len := by omega
  have hw : c.nbits < W32 := by unfold W32; omega
  rw [bread]
  simp only [run_bind, cassert_ok _ h1, cassert_ok _ h2, deref_ok p s c hc, h3, if_false,
    run_pure, sub32_eq c.nbits len hle hw]
  have hs1 : c.nbits - len < 32 := by omega
  have hs2 : sub32 (cfg.fieldsz * 8 % W32) c.nbits = unitBits cfg - c.nbits :=
    sub32_eq _ _ hF (by unfold W32; unfold unitBits at hU; omega)
  have hs3 : unitBits cfg - c.nbits < 32 := by omega
  cases hM : cfg.fieldMSB
  · simp only [Bool.false_eq_true, if_false, run_bind, hs2, shr32_ok _ _ hs3, run_pure,
      store_ok p s c _ hc, ne_eq, not_true_eq_false, fieldBits, hM]
  · simp only [if_true, run_bind, shr32_ok _ _ hs1, run_pure,
      store_ok p s c _ hc, ne_eq, not_true_eq_false, if_false, fieldBits, hM]


theorem clearfield_spec (cfg : Config) (f p : Nat) (s : State) (c : struct_t)
    (hc : s.heap[p]? = some (some c)) (hF : c.nbits ≤ unitBits cfg) (hU : unitBits cfg ≤ 32) :
    clearfield cfg (f + 2) (some p) s
      = .ok ((), ⟨s.strm, s.numbytes, s.heap.set p (some { c with nbits := 0 })⟩) := by
  rw [clearfield]
  simp only [run_bind, deref_ok p s c hc]
  by_cases h0 : c.nbits = 0
  · have hcc : ({ c with nbits := 0 } : struct_t) = c := by
      cases c; simp only [struct_t.mk.injEq, true_and, and_true] at *; exact h0.symm
    simp only [h0, ne_eq, not_true_eq_false, if_false, run_pure, hcc, heap_set_self s.heap p c hc]
  · have hb := bread_extract cfg f c.nbits p s c hc (by omega) (Nat.le_refl _) hF hU
    simp only [h0, ne_eq, not_false_eq_true, if_true, run_bind, hb, Nat.sub_self, run_pure]

theorem zread_some (cfg : Config) (hm : MemberAlignOk cfg) (f len num p : Nat) (s : State)
    (c : struct_t) (hc : s.heap[p]? = some (some c)) (hF : c.nbits ≤ unitBits cfg)
    (hU : unitBits cfg ≤ 32) (hb : c.nbytes < W32) (hl : len = 1 ∨ len = 2 ∨ len = 4)
    (hn : 0 < num) :
    zread cfg (f + 6) len num (some p) s
      = (match zitems cfg 1 (padding c.nbytes (min cfg.memberalign len)) s.strm with
        | .ok (_, t) => (match zitems cfg len num t with
          | .ok (bs, u) => .ok (bs, ⟨u, s.numbytes, s.heap.set p (some { c with
              nbits := 0
              nbytes := ((c.nbytes + padding c.nbytes (min cfg.memberalign len)) % W32
                + (len * num) % W32) % W32 })⟩)
          | .error e => .error e)
        | .error e => .error e) := by
  have hmin : (if cfg.memberalign < len then cfg.memberalign else len)
      = min cfg.memberalign len := by
    rw [Nat.min_def]; split_ifs <;> omega
  have hmin2 : min cfg.memberalign len = 1 ∨ min cfg.memberalign len = 2
      ∨ min cfg.memberalign len = 4 := by
    rw [Nat.min_def]; rcases hm with h | h | h <;> rcases hl with h2 | h2 | h2 <;>
      subst h2 <;> rw [h] <;> decide
  have hcl := clearfield_spec cfg (f + 3) p s c hc hF hU
  have hc1 : (⟨s.strm, s.numbytes, s.heap.set p (some { c with nbits := 0 })⟩ : State).heap[p]?
      = some (some { c with nbits := 0 }) := heap_set_get s.heap p c _ hc
  have hal := align_spec cfg hm (f + 5) p (min cfg.memberalign len) hmin2 _ _ hc1 hb (by omega)
  rw [zread]
  simp only [run_bind, cassert_ok _ (in124_bool _ hl), cassert_ok _ (in124_bool _ hm),
    cassert_ok (decide (num > 0)) (by simpa using hn), hcl, hmin, hal]
  cases zitems cfg 1 (padding c.nbytes (min cfg.memberalign len)) s.strm with
  | error e => rfl
  | ok r =>
    obtain ⟨x, t⟩ := r
    have hc2 : (⟨t, s.numbytes, s.heap.set p
        (some { c with nbits := 0, nbytes := (c.nbytes
          + padding c.nbytes (min cfg.memberalign len)) % W32 })⟩ : State).heap[p]?
        = some (some { c with nbits := 0, nbytes := (c.nbytes
          + padding c.nbytes (min cfg.memberalign len)) % W32 }) :=
      heap_set_get _ p _ _ hc
    simp only [List.set_set]
    simp only [deref_ok p _ _ hc2, store_ok p _ _ _ hc2, List.set_set, liftStrm]
    cases zitems cfg len num t with
    | error e => rfl
    | ok r2 => rfl


theorem iread_eq (cfg : Config) (f buflen len : Nat) (st : Option Nat) (s : State)
    (hbl : buflen = 1 ∨ buflen = 2 ∨ buflen = 4) (hl : len = 1 ∨ len = 2 ∨ len = 4)
    (hge : len ≤ buflen) :
    iread cfg (f + 1) buflen len st s = (match zread cfg f len 1 st s with
      | .ok (bs, s1) => .ok (narrow buflen (wordOf cfg len bs), s1)
      | .error e => .error e) := by
  rw [iread]
  simp only [run_bind, cassert_ok _ (in124_bool _ hbl), cassert_ok _ (in124_bool _ hl),
    cassert_ok (decide (buflen ≥ len)) (by simpa using hge)]
  rcases hl with h | h | h <;> subst h <;>
    simp only [wordOf, if_true, run_bind, run_pure, OfNat.ofNat_ne_one, if_false,
      Nat.reduceEqDiff] <;>
    cases zread cfg f _ 1 st s with
    | error e => rfl
    | ok r => rfl

theorem bread_refill (cfg : Config) (f len p : Nat) (s : State) (c : struct_t)
    (hc : s.heap[p]? = some (some c)) (hlen : 0 < len) (hlt : c.nbits < len)
    (hle : len ≤ unitBits cfg) (hU : unitBits cfg ≤ 32)
    (hns : c.nbits = 0 ∨ cfg.fieldspan = false) :
    bread cfg (f + 1) len (some p) s = (match iread cfg f 4 cfg.fieldsz (some p) s with
      | .ok (v, s1) => (match s1.heap[p]? with
        | some (some c1) =>
          .ok (fieldBits cfg { c1 with fieldbuf := v, nbits := unitBits cfg } len,
            ⟨s1.strm, s1.numbytes,
              s1.heap.set p (some { c1 with fieldbuf := v, nbits := unitBits cfg - len })⟩)
        | _ => .error Err.badPointer)
      | .error e => .error e) := by
  have h1 : decide (len > 0) = true := by simpa using hlen
  have h2 : decide (len ≤ cfg.fieldsz * 8 % W32) = true := by simpa [unitBits] using hle
  have h3 : (decide (c.nbits ≠ 0) && cfg.fieldspan) = false := by
    rcases hns with h | h <;> simp [h]
  rw [bread]
  simp only [run_bind, cassert_ok _ h1, cassert_ok _ h2, deref_ok p s c hc, hlt, if_true, h3,
    Bool.false_eq_true, if_false]
  cases iread cfg f 4 cfg.fieldsz (some p) s with
  | error e => rfl
  | ok r =>
    obtain ⟨v, s1⟩ := r
    simp only []
    cases hc1 : s1.heap[p]? with
    | none => simp [deref, hc1]
    | some oc =>
      cases oc with
      | none => simp [deref, hc1]
      | some c1 =>
        have hc2 : (⟨s1.strm, s1.numbytes, s1.heap.set p (some { c1 with fieldbuf := v })⟩
            : State).heap[p]? = some (some { c1 with fieldbuf := v }) :=
          heap_set_get s1.heap p c1 _ hc1
        have hc3 : (⟨s1.strm, s1.numbytes, s1.heap.set p
            (some ⟨c1.align, c1.nbytes, cfg.fieldsz * 8 % W32, v, c1.parent⟩)⟩
            : State).heap[p]?
              = some (some ⟨c1.align, c1.nbytes, cfg.fieldsz * 8 % W32, v, c1.parent⟩) :=
          heap_set_get s1.heap p c1 _ hc1
        have hU2 : cfg.fieldsz * 8 % W32 ≤ 32 := hU
        have hle2 : len ≤ cfg.fieldsz * 8 % W32 := hle
        have hs1 : cfg.fieldsz * 8 % W32 - len < 32 := by omega
        have hw : cfg.fieldsz * 8 % W32 < W32 := by unfold W32 at *; omega
        simp only [deref_ok p s1 c1 hc1, store_ok p s1 c1 _ hc1, deref_ok p _ _ hc2,
          store_ok p _ _ _ hc2, List.set_set, run_pure, run_bind]
        simp only [deref_ok p _ _ hc3, store_ok p _ _ _ hc3, List.set_set,
          sub32_eq _ _ hle2 hw, sub32_eq _ _ (Nat.le_refl _) hw, Nat.sub_self]
        cases hM : cfg.fieldMSB
        · simp only [Bool.false_eq_true, if_false, run_bind, shr32_ok _ _ (Nat.zero_lt_succ 31),
            run_pure, store_ok p _ _ _ hc3, List.set_set, ne_eq, not_true_eq_false, fieldBits,
            hM, unitBits, Nat.sub_self]
        · simp only [if_true, run_bind, shr32_ok _ _ hs1,
            run_pure, store_ok p _ _ _ hc3, List.set_set, ne_eq, not_true_eq_false, if_false,
            fieldBits, hM, unitBits]


theorem unitBits_le (cfg : Config) (hv : ValidConfig cfg) : unitBits cfg ≤ 32 := by
  obtain ⟨h1, -⟩ := hv
  unfold unitBits W32
  rcases h1 with h | h | h <;> rw [h] <;> decide

theorem unitBits_eq (cfg : Config) (hv : ValidConfig cfg) : unitBits cfg = cfg.fieldsz * 8 := by
  obtain ⟨h1, -⟩ := hv
  unfold unitBits W32
  rcases h1 with h | h | h <;> rw [h] <;> decide

theorem bread_span (cfg : Config) (f len p : Nat) (s : State) (c : struct_t)
    (hc : s.heap[p]? = some (some c)) (hpos : 0 < c.nbits) (hlt : c.nbits < len)
    (hle : len ≤ unitBits cfg) (hU : unitBits cfg ≤ 32) (hsp : cfg.fieldspan = true) :
    bread cfg (f + 1) len (some p) s
      = (match bread cfg f (len - c.nbits) (some p)
            ⟨s.strm, s.numbytes, s.heap.set p (some { c with nbits := 0 })⟩ with
        | .ok (spanval, s2) =>
          .ok (if cfg.fieldMSB then
                ((fieldBits cfg c c.nbits <<< (len - c.nbits)) % W32) ||| spanval
              else ((spanval <<< c.nbits) % W32) ||| fieldBits cfg c c.nbits, s2)
        | .error e => .error e) := by
  have h1 : decide (len > 0) = true := by simp; omega
  have h2 : decide (len ≤ cfg.fieldsz * 8 % W32) = true := by simpa [unitBits] using hle
  have h3 : (decide (c.nbits ≠ 0) && cfg.fieldspan) = true := by
    simp [hsp]; omega
  have hU2 : cfg.fieldsz * 8 % W32 ≤ 32 := hU
  have hle2 : len ≤ cfg.fieldsz * 8 % W32 := hle
  have hw : c.nbits < W32 := by unfold W32; omega
  have hw2 : cfg.fieldsz * 8 % W32 < W32 := by unfold W32 at *; omega
  have hs2 : cfg.fieldsz * 8 % W32 - c.nbits < 32 := by omega
  have hs3 : len - c.nbits < 32 := by omega
  have hs4 : c.nbits < 32 := by omega
  have hne : len - c.nbits ≠ 0 := by omega
  rw [bread]
  simp only [run_bind, cassert_ok _ h1, cassert_ok _ h2, deref_ok p s c hc, hlt, if_true, h3,
    run_pure, sub32_eq _ _ (Nat.le_refl c.nbits) hw, Nat.sub_self,
    sub32_eq _ _ (Nat.le_trans (Nat.le_of_lt hlt) hle2) hw2]
  cases hM : cfg.fieldMSB
  · simp only [Bool.false_eq_true, if_false, run_bind, shr32_ok _ _ hs2, run_pure,
      store_ok p s c _ hc, hne, ne_eq, not_false_eq_true, if_true, fieldBits, hM, unitBits]
    cases bread cfg f (len - c.nbits) (some p)
        ⟨s.strm, s.numbytes, s.heap.set p (some { c with nbits := 0 })⟩ with
    | error e => rfl
    | ok r =>
      obtain ⟨sv, s2⟩ := r
      simp only [shl32_ok _ _ hs4]
  · simp only [if_true, run_bind, shr32_ok _ _ (Nat.zero_lt_succ 31), run_pure,
      store_ok p s c _ hc, hne, ne_eq, not_false_eq_true, fieldBits, hM, Nat.sub_self]
    cases bread cfg f (len - c.nbits) (some p)
        ⟨s.strm, s.numbytes, s.heap.set p (some { c with nbits := 0 })⟩ with
    | error e => rfl
    | ok r =>
      obtain ⟨sv, s2⟩ := r
      simp only [shl32_ok _ _ hs3]

theorem bread_fresh (cfg : Config) (hv : ValidConfig cfg) (f len p : Nat) (s : State)
    (c : struct_t) (hc : s.heap[p]? = some (some c)) (hlen : 0 < len) (hlt : c.nbits < len)
    (hle : len ≤ unitBits cfg) (hns : c.nbits = 0 ∨ cfg.fieldspan = false)
    (hb : c.nbytes < W32) :
    bread cfg (f + 8) len (some p) s
      = (match zitems cfg 1 (padding c.nbytes (min cfg.memberalign cfg.fieldsz)) s.strm with
        | .ok (_, t) => (match zitems cfg cfg.fieldsz 1 t with
          | .ok (bs, u) =>
            .ok (fieldBits cfg ⟨c.align,
                  ((c.nbytes + padding c.nbytes (min cfg.memberalign cfg.fieldsz)) % W32
                    + (cfg.fieldsz * 1) % W32) % W32,
                  unitBits cfg, narrow 4 (wordOf cfg cfg.fieldsz bs), c.parent⟩ len,
              ⟨u, s.numbytes, s.heap.set p (some ⟨c.align,
                  ((c.nbytes + padding c.nbytes (min cfg.memberalign cfg.fieldsz)) % W32
                    + (cfg.fieldsz * 1) % W32) % W32,
                  unitBits cfg - len, narrow 4 (wordOf cfg cfg.fieldsz bs), c.parent⟩)⟩)
          | .error e => .error e)
        | .error e => .error e) := by
  have hU := unitBits_le cfg hv
  have hfs : cfg.fieldsz = 1 ∨ cfg.fieldsz = 2 ∨ cfg.fieldsz = 4 := hv.1
  have hle4 : cfg.fieldsz ≤ 4 := by rcases hfs with h | h | h <;> omega
  rw [bread_refill cfg (f + 7) len p s c hc hlen hlt hle hU hns,
    iread_eq cfg (f + 6) 4 cfg.fieldsz (some p) s (Or.inr (Or.inr rfl)) hfs hle4,
    zread_some cfg hv.2.1 f cfg.fieldsz 1 p s c hc (by omega) hU hb hfs Nat.one_pos]
  cases zitems cfg 1 (padding c.nbytes (min cfg.memberalign cfg.fieldsz)) s.strm with
  | error e => rfl
  | ok r =>
    obtain ⟨x, t⟩ := r
    simp only []
    cases zitems cfg cfg.fieldsz 1 t with
    | error e => rfl
    | ok r2 =>
      obtain ⟨bs, u⟩ := r2
      simp only [heap_set_get s.heap p c _ hc, List.set_set]

theorem maskLoop_eq (n : Nat) (h : n ≤ 32) : maskLoop n = 2 ^ n - 1 := by
  induction n with
  | zero => rfl
  | succ n ih =>
    have hp : 0 < 2 ^ n := Nat.two_pow_pos n
    have hlt : 2 ^ n ≤ 2 ^ 31 := Nat.pow_le_pow_right (by decide) (by omega)
    rw [maskLoop, ih (by omega), Nat.shiftLeft_eq, Nat.or_comm]
    unfold W32
    have e : (2 ^ n - 1) * 2 ^ 1 % 2 ^ 32 = (2 ^ n - 1) * 2 ^ 1 := by
      apply Nat.mod_eq_of_lt
      simp only [Nat.reducePow] at hlt ⊢
      omega
    rw [e, or_low 1 1 _ (by decide), Nat.pow_succ]
    omega

theorem shr_mask (x k n : Nat) (h : n ≤ 32) :
    (x >>> k) &&& maskLoop n = x / 2 ^ k % 2 ^ n := by
  rw [maskLoop_eq n h, Nat.and_pow_two_sub_one_eq_mod, Nat.shiftRight_eq_div_pow]

theorem hostWord_one (cfg : Config) (u : Nat) : hostWord cfg [u] = u := by
  unfold hostWord
  cases cfg.hostBigEndian <;> simp

theorem zitems_zero (cfg : Config) (len : Nat) (s : Stream) :
    zitems cfg len 0 s = .ok ([], s) := rfl


theorem unit_read_one (cfg : Config) (hv : ValidConfig cfg) (hfs : cfg.fieldsz = 1)
    (f len p : Nat) (s : State) (c : struct_t) (hc : s.heap[p]? = some (some c))
    (hlen : 0 < len) (hlt : c.nbits < len) (hle : len ≤ 8)
    (hns : c.nbits = 0 ∨ cfg.fieldspan = false) (hb : c.nbytes + 1 < W32)
    (u : Nat) (t : Stream) (hu : u < 256) (h1 : zitems cfg 1 1 s.strm = .ok ([u], t)) :
    bread cfg (f + 8) len (some p) s
      = .ok (fieldBits cfg ⟨c.align, c.nbytes + 1, 8, u, c.parent⟩ len,
          ⟨t, s.numbytes, s.heap.set p (some ⟨c.align, c.nbytes + 1, 8 - len, u, c.parent⟩)⟩) := by
  have hU : unitBits cfg = 8 := by rw [unitBits_eq cfg hv, hfs]
  have hmin : min cfg.memberalign cfg.fieldsz = 1 := by
    rw [hfs]; rcases hv.2.1 with h | h | h <;> rw [h] <;> decide
  have hpad : padding c.nbytes 1 = 0 := by unfold padding; omega
  have hN : ((c.nbytes + 0) % W32 + 1 * 1 % W32) % W32 = c.nbytes + 1 := by
    unfold W32 at *; omega
  have hV : narrow 4 (wordOf cfg 1 [u]) = u := by
    simp only [narrow, wordOf, if_true, hostWord_one, W32]
    simp only [Nat.reduceEqDiff, if_false, Nat.reducePow]
    omega
  rw [bread_fresh cfg hv f len p s c hc hlen hlt (by omega) hns (by unfold W32 at *; omega),
    hmin, hpad, zitems_zero, hfs]
  simp only [h1, hN, hV, hU]

/-- C5. With 1-byte units, MSB first and no spanning, on a freshly started struct context
(`nbytes = 0`, `nbits = 0`), for all `a < 8`, `b < 32`, `v < 256`: if the next two bytes the
stream delivers are `u1 = (a << 5) | b` and `u2 = v`, then `bread(3)`, `bread(5)`, `bread(8)`
return `a`, `b` and `v`; exactly two units are consumed (`nbytes = 2`, `nbits = 0`), the
third field being read whole from the second unit. -/
theorem bitfield_roundtrip_nospan (cfg : Config) (hv : ValidConfig cfg) (hfs : cfg.fieldsz = 1)
    (hM : cfg.fieldMSB = true) (hsp : cfg.fieldspan = false) (f p : Nat) (s : State)
    (c : struct_t) (hc : s.heap[p]? = some (some c)) (hn0 : c.nbytes = 0) (hb0 : c.nbits = 0)
    (a b v : Nat) (ha : a < 8) (hb : b < 32) (hv2 : v < 256) (t1 t2 : Stream)
    (h1 : zitems cfg 1 1 s.strm = .ok ([(a <<< 5) ||| b], t1))
    (h2 : zitems cfg 1 1 t1 = .ok ([v], t2)) :
    readThreeFields cfg (f + 8) (some p) s
      = .ok ((a, b, v), ⟨t2, s.numbytes, s.heap.set p (some ⟨c.align, 2, 0, v, c.parent⟩)⟩) := by
  have hu : (a <<< 5) ||| b = a * 32 + b := by
    rw [Nat.shiftLeft_eq, Nat.or_comm, or_low 5 b a (by simpa using hb)]
    simp only [Nat.reducePow]; omega
  rw [hu] at h1
  obtain ⟨al, nb, nbi, fb, par⟩ := c
  simp only at hn0 hb0
  subst hn0 hb0
  have hU : unitBits cfg = 8 := by rw [unitBits_eq cfg hv, hfs]
  have e1 := unit_read_one cfg hv hfs f 3 p s ⟨al, 0, 0, fb, par⟩ hc (by decide)
    (by simp) (by decide) (Or.inr hsp) (by simp [W32]) (a * 32 + b) t1 (by omega) h1
  have hc1 : (⟨t1, s.numbytes, s.heap.set p (some ⟨al, 1, 5, a * 32 + b, par⟩)⟩
      : State).heap[p]? = some (some ⟨al, 1, 5, a * 32 + b, par⟩) :=
    heap_set_get s.heap p _ _ hc
  have e2 := bread_extract cfg (f + 7) 5 p
    ⟨t1, s.numbytes, s.heap.set p (some ⟨al, 1, 5, a * 32 + b, par⟩)⟩
    ⟨al, 1, 5, a * 32 + b, par⟩ hc1 (by decide) (Nat.le_refl 5)
    (by rw [hU]; simp) (by rw [hU]; decide)
  have hc2 : (⟨t1, s.numbytes, s.heap.set p (some ⟨al, 1, 0, a * 32 + b, par⟩)⟩
      : State).heap[p]? = some (some ⟨al, 1, 0, a * 32 + b, par⟩) :=
    heap_set_get s.heap p _ _ hc
  have e3 := unit_read_one cfg hv hfs f 8 p
    ⟨t1, s.numbytes, s.heap.set p (some ⟨al, 1, 0, a * 32 + b, par⟩)⟩
    ⟨al, 1, 0, a * 32 + b, par⟩ hc2 (by decide) (by simp) (by decide)
    (Or.inr hsp) (by simp [W32]) v t2 hv2 h2
  simp only [List.set_set, Nat.reduceSub, Nat.reduceAdd] at e1 e2 e3
  have r1 : fieldBits cfg ⟨al, 1, 8, a * 32 + b, par⟩ 3 = a := by
    simp only [fieldBits, hM, if_true, shr_mask _ _ 3 (by decide), Nat.reducePow, Nat.reduceSub]
    omega
  have r2 : fieldBits cfg ⟨al, 1, 5, a * 32 + b, par⟩ 5 = b := by
    simp only [fieldBits, hM, if_true, shr_mask _ _ 5 (by decide), Nat.reducePow, Nat.reduceSub,
      Nat.pow_zero]
    omega
  have r3 : fieldBits cfg ⟨al, 2, 8, v, par⟩ 8 = v := by
    simp only [fieldBits, hM, if_true, shr_mask _ _ 8 (by decide), Nat.reducePow, Nat.reduceSub,
      Nat.pow_zero]
    omega
  simp only [readThreeFields, run_bind, e1, e2, e3, r1, r2, r3, run_pure]

theorem bitfield_roundtrip_nospan_witness :
    readThreeFields msbCfg 8 (some 0) ⟨⟨0, false, some [0xA5, 0x77]⟩, 0, [some ⟨1, 0, 0, 0, none⟩]⟩
      = .ok ((5, 5, 0x77), ⟨⟨0, false, some []⟩, 0, [some ⟨1, 2, 0, 0x77, none⟩]⟩) :=
  bitfield_roundtrip_nospan msbCfg ⟨Or.inl rfl, Or.inr (Or.inr rfl), Or.inl rfl, Or.inl rfl⟩
    rfl rfl rfl 0 0 ⟨⟨0, false, some [0xA5, 0x77]⟩, 0, [some ⟨1, 0, 0, 0, none⟩]⟩
    ⟨1, 0, 0, 0, none⟩ rfl rfl rfl 5 5 0x77 (by decide) (by decide) (by decide)
    ⟨0, false, some [0x77]⟩ ⟨0, false, some []⟩ rfl rfl


theorem span_read_one (cfg : Config) (hv : ValidConfig cfg) (hfs : cfg.fieldsz = 1)
    (hsp : cfg.fieldspan = true) (f p : Nat) (s : State) (al fb : Nat) (par : Option Nat)
    (u1 u2 : Nat) (hu2 : u2 < 256) (t1 t2 : Stream)
    (hc : s.heap[p]? = some (some ⟨al, 0, 0, fb, par⟩))
    (h1 : zitems cfg 1 1 s.strm = .ok ([u1], t1)) (hu1 : u1 < 256)
    (h2 : zitems cfg 1 1 t1 = .ok ([u2], t2)) :
    readTwoFields cfg (f + 9) (some p) s
      = .ok ((fieldBits cfg ⟨al, 1, 8, u1, par⟩ 5,
            if cfg.fieldMSB then
              ((fieldBits cfg ⟨al, 1, 3, u1, par⟩ 3 <<< 3) % W32)
                ||| fieldBits cfg ⟨al, 2, 8, u2, par⟩ 3
            else ((fieldBits cfg ⟨al, 2, 8, u2, par⟩ 3 <<< 3) % W32)
                ||| fieldBits cfg ⟨al, 1, 3, u1, par⟩ 3),
          ⟨t2, s.numbytes, s.heap.set p (some ⟨al, 2, 5, u2, par⟩)⟩) := by
  have hU : unitBits cfg = 8 := by rw [unitBits_eq cfg hv, hfs]
  have e1 := unit_read_one cfg hv hfs (f + 1) 5 p s ⟨al, 0, 0, fb, par⟩ hc (by decide)
    (by simp) (by decide) (Or.inl rfl) (by simp [W32]) u1 t1 hu1 h1
  have hc1 : (⟨t1, s.numbytes, s.heap.set p (some ⟨al, 1, 3, u1, par⟩)⟩
      : State).heap[p]? = some (some ⟨al, 1, 3, u1, par⟩) :=
    heap_set_get s.heap p _ _ hc
  have e2 := bread_span cfg (f + 8) 6 p
    ⟨t1, s.numbytes, s.heap.set p (some ⟨al, 1, 3, u1, par⟩)⟩ ⟨al, 1, 3, u1, par⟩ hc1
    (by simp) (by simp) (by rw [hU]; decide) (by rw [hU]; decide) hsp
  have hc2 : (⟨t1, s.numbytes, s.heap.set p (some ⟨al, 1, 0, u1, par⟩)⟩
      : State).heap[p]? = some (some ⟨al, 1, 0, u1, par⟩) :=
    heap_set_get s.heap p _ _ hc
  have e3 := unit_read_one cfg hv hfs f 3 p
    ⟨t1, s.numbytes, s.heap.set p (some ⟨al, 1, 0, u1, par⟩)⟩
    ⟨al, 1, 0, u1, par⟩ hc2 (by decide) (by simp) (by decide)
    (Or.inl rfl) (by simp [W32]) u2 t2 hu2 h2
  simp only [List.set_set, Nat.reduceSub, Nat.reduceAdd] at e1 e2 e3
  rw [e3] at e2
  simp only [readTwoFields, run_bind, e1, e2, run_pure]

/-- C6. With 1-byte units and spanning enabled, on a freshly started struct context and for
all `a < 32`, `b < 64`, `bread(5)` then `bread(6)` return `a` then `b` in both bit orders: MSB
first when the units are `u1 = (a << 3) | (b >> 3)` and `u2` with top three bits `b & 7`; LSB
first when `u1 = a | ((b & 7) << 5)` and `u2` with low three bits `b >> 3`.  The second value
takes 3 bits from each unit; exactly two units are consumed (`nbytes = 2`) and `nbits` ends
at 5. -/
theorem spanning_roundtrip (cfg : Config) (hv : ValidConfig cfg) (hfs : cfg.fieldsz = 1)
    (hsp : cfg.fieldspan = true) (f p : Nat) (s : State) (c : struct_t)
    (hc : s.heap[p]? = some (some c)) (hn0 : c.nbytes = 0) (hb0 : c.nbits = 0)
    (a b u1 u2 : Nat) (ha : a < 32) (hb : b < 64) (hu2 : u2 < 256) (t1 t2 : Stream)
    (h1 : zitems cfg 1 1 s.strm = .ok ([u1], t1))
    (h2 : zitems cfg 1 1 t1 = .ok ([u2], t2))
    (hunits : (cfg.fieldMSB = true ∧ u1 = (a <<< 3) ||| (b >>> 3) ∧ u2 >>> 5 = b &&& 7)
      ∨ (cfg.fieldMSB = false ∧ u1 = a ||| ((b &&& 7) <<< 5) ∧ u2 &&& 7 = b >>> 3)) :
    readTwoFields cfg (f + 9) (some p) s
      = .ok ((a, b), ⟨t2, s.numbytes, s.heap.set p (some ⟨c.align, 2, 5, u2, c.parent⟩)⟩) := by
  obtain ⟨al, nb, nbi, fb, par⟩ := c
  simp only at hn0 hb0
  subst hn0 hb0
  have hU : unitBits cfg = 8 := by rw [unitBits_eq cfg hv, hfs]
  have h7 : (7 : Nat) = 2 ^ 3 - 1 := by decide
  rcases hunits with ⟨hM, hu1, hu2b⟩ | ⟨hM, hu1, hu2b⟩
  · have hu1' : u1 = a * 8 + b / 8 := by
      rw [hu1, Nat.shiftLeft_eq, Nat.shiftRight_eq_div_pow, Nat.or_comm,
        or_low 3 (b / 2 ^ 3) a (by simp only [Nat.reducePow]; omega)]
      simp only [Nat.reducePow]; omega
    have hu2' : u2 / 32 = b % 8 := by
      rw [Nat.shiftRight_eq_div_pow, h7, Nat.and_pow_two_sub_one_eq_mod] at hu2b
      simpa using hu2b
    rw [span_read_one cfg hv hfs hsp f p s al fb par u1 u2 hu2 t1 t2 hc h1 (by omega) h2]
    have r1 : fieldBits cfg ⟨al, 1, 8, u1, par⟩ 5 = a := by
      simp only [fieldBits, hM, if_true, shr_mask _ _ 5 (by decide), Nat.reducePow,
        Nat.reduceSub]
      omega
    have r2 : fieldBits cfg ⟨al, 1, 3, u1, par⟩ 3 = b / 8 := by
      simp only [fieldBits, hM, if_true, shr_mask _ _ 3 (by decide), Nat.reducePow,
        Nat.reduceSub, Nat.pow_zero]
      omega
    have r3 : fieldBits cfg ⟨al, 2, 8, u2, par⟩ 3 = b % 8 := by
      simp only [fieldBits, hM, if_true, shr_mask _ _ 3 (by decide), Nat.reducePow,
        Nat.reduceSub]
      omega
    have r4 : ((b / 8) <<< 3) % W32 ||| b % 8 = b := by
      have e : ((b / 8) <<< 3) % W32 = (b / 8) * 2 ^ 3 := by
        rw [Nat.shiftLeft_eq]; unfold W32; simp only [Nat.reducePow]; omega
      rw [e, Nat.or_comm, or_low 3 (b % 8) (b / 8) (by simp only [Nat.reducePow]; omega)]
      simp only [Nat.reducePow]; omega
    simp only [r1, r2, r3, hM, if_true, r4]
  · have hu1' : u1 = a + (b % 8) * 32 := by
      rw [hu1, h7, Nat.and_pow_two_sub_one_eq_mod, Nat.shiftLeft_eq,
        or_low 5 a _ (by simp only [Nat.reducePow]; omega)]
      simp only [Nat.reducePow]
    have hu2' : u2 % 8 = b / 8 := by
      rw [Nat.shiftRight_eq_div_pow, h7, Nat.and_pow_two_sub_one_eq_mod] at hu2b
      simpa using hu2b
    rw [span_read_one cfg hv hfs hsp f p s al fb par u1 u2 hu2 t1 t2 hc h1 (by omega) h2]
    have r1 : fieldBits cfg ⟨al, 1, 8, u1, par⟩ 5 = a := by
      simp only [fieldBits, hM, Bool.false_eq_true, if_false, shr_mask _ _ 5 (by decide), hU,
        Nat.reducePow, Nat.reduceSub, Nat.pow_zero]
      omega
    have r2 : fieldBits cfg ⟨al, 1, 3, u1, par⟩ 3 = b % 8 := by
      simp only [fieldBits, hM, Bool.false_eq_true, if_false, shr_mask _ _ 3 (by decide), hU,
        Nat.reducePow, Nat.reduceSub]
      omega
    have r3 : fieldBits cfg ⟨al, 2, 8, u2, par⟩ 3 = b / 8 := by
      simp only [fieldBits, hM, Bool.false_eq_true, if_false, shr_mask _ _ 3 (by decide), hU,
        Nat.reducePow, Nat.reduceSub, Nat.pow_zero]
      omega
    have r4 : ((b / 8) <<< 3) % W32 ||| b % 8 = b := by
      have e : ((b / 8) <<< 3) % W32 = (b / 8) * 2 ^ 3 := by
        rw [Nat.shiftLeft_eq]; unfold W32; simp only [Nat.reducePow]; omega
      rw [e, Nat.or_comm, or_low 3 (b % 8) (b / 8) (by simp only [Nat.reducePow]; omega)]
      simp only [Nat.reducePow]; omega
    simp only [r1, r2, r3, hM, Bool.false_eq_true, if_false, r4]

theorem spanning_roundtrip_witness :
    readTwoFields spanLsbCfg 9 (some 0)
        ⟨⟨0, false, some [0xB3, 0x05]⟩, 0, [some ⟨1, 0, 0, 0, none⟩]⟩
      = .ok ((19, 45), ⟨⟨0, false, some []⟩, 0, [some ⟨1, 2, 5, 0x05, none⟩]⟩) :=
  spanning_roundtrip spanLsbCfg ⟨Or.inl rfl, Or.inr (Or.inr rfl), Or.inl rfl, Or.inl rfl⟩
    rfl rfl 0 0 ⟨⟨0, false, some [0xB3, 0x05]⟩, 0, [some ⟨1, 0, 0, 0, none⟩]⟩
    ⟨1, 0, 0, 0, none⟩ rfl rfl rfl 19 45 0xB3 0x05 (by decide) (by decide) (by decide)
    ⟨0, false, some [0x05]⟩ ⟨0, false, some []⟩ rfl rfl
    (Or.inr ⟨rfl, by decide, by decide⟩)

/-! ## `iread` -/

theorem eread_bytes (len : Nat) (s t : Stream) (bs : List Nat)
    (h : eread len s = .ok (bs, t)) : bs.length = len ∧ ∀ b ∈ bs, b < 256 := by
  unfold eread at h
  split at h
  · cases h
  · split at h
    · cases h
    · split at h
      · cases h
      · next hlen =>
        cases h
        refine ⟨by simp; omega, ?_⟩
        intro b hb
        simp only [List.mem_map] at hb
        obtain ⟨a, -, rfl⟩ := hb
        exact Nat.mod_lt _ (by decide)

theorem zbyte_lt (s t : Stream) (x : Nat) (h : zbyte s = .ok (x, t)) : x < 256 := by
  unfold zbyte at h
  simp only [run_bind, run_get] at h
  split at h
  · simp at h
    omega
  · cases h1 : eread 1 s with
    | error e => simp [h1] at h
    | ok r =>
      obtain ⟨b, u⟩ := r
      obtain ⟨hl, hb⟩ := eread_bytes 1 s u b h1
      have hx : b.head?.getD 0 < 256 := by
        cases b with
        | nil => simp
        | cons y ys => exact hb y (List.mem_cons_self y ys)
      simp only [run_bind, h1] at h
      split at h
      · cases h2 : eread 1 u with
        | error e => simp [h2] at h
        | ok r2 =>
          simp [h2] at h
          rw [← h.1]; exact hx
      · simp at h
        rw [← h.1]; exact hx

theorem zbytes_bytes (n : Nat) (s t : Stream) (bs : List Nat)
    (h : zbytes n s = .ok (bs, t)) : bs.length = n ∧ ∀ b ∈ bs, b < 256 := by
  induction n generalizing s t bs with
  | zero =>
    simp [zbytes] at h
    rw [h.1]; simp
  | succ n ih =>
    simp only [zbytes, run_bind, run_pure] at h
    cases h1 : zbyte s with
    | error e => simp [h1] at h
    | ok r =>
      obtain ⟨b, u⟩ := r
      simp only [h1] at h
      cases h2 : zbytes n u with
      | error e => simp [h2] at h
      | ok r2 =>
        obtain ⟨ys, v⟩ := r2
        simp [h2] at h
        obtain ⟨hl, hb⟩ := ih u v ys h2
        rw [← h.1]
        refine ⟨by simp [hl], ?_⟩
        intro x hx
        rcases List.mem_cons.1 hx with hx | hx
        · rw [hx]; exact zbyte_lt s u b h1
        · exact hb x hx

theorem zitem_bytes (cfg : Config) (len : Nat) (s t : Stream) (bs : List Nat)
    (h : zitem cfg len s = .ok (bs, t)) : bs.length = len ∧ ∀ b ∈ bs, b < 256 := by
  unfold zitem at h
  simp only [run_bind, run_get] at h
  split at h
  · simp at h
    rw [← h.1]
    refine ⟨by simp, ?_⟩
    intro b hb
    rw [List.eq_of_mem_replicate hb]; decide
  · split at h
    · exact zbytes_bytes len s t bs h
    · exact eread_bytes len s t bs h

theorem zitems_bytes (cfg : Config) (len num : Nat) (s t : Stream) (bs : List Nat)
    (h : zitems cfg len num s = .ok (bs, t)) : bs.length = len * num ∧ ∀ b ∈ bs, b < 256 := by
  induction num generalizing s t bs with
  | zero =>
    simp [zitems] at h
    rw [h.1]; simp
  | succ n ih =>
    simp only [zitems, run_bind, run_pure] at h
    cases h1 : zitem cfg len s with
    | error e => simp [h1] at h
    | ok r =>
      obtain ⟨b, u⟩ := r
      simp only [h1] at h
      cases h2 : zitems cfg len n u with
      | error e => simp [h2] at h
      | ok r2 =>
        obtain ⟨ys, v⟩ := r2
        simp [h2] at h
        obtain ⟨hl, hb⟩ := ih u v ys h2
        obtain ⟨hl1, hb1⟩ := zitem_bytes cfg len s u b h1
        rw [← h.1]
        refine ⟨by simp [hl, hl1]; ring, ?_⟩
        intro x hx
        rcases List.mem_append.1 hx with hx | hx
        · exact hb1 x hx
        · exact hb x hx

theorem zread_delivers (cfg : Config) (fuel len num : Nat) (st : Option Nat) (s s2 : State)
    (bs : List Nat) (h : zread cfg fuel len num st s = .ok (bs, s2)) :
    ∃ t, zitems cfg len num t = .ok (bs, s2.strm) := by
  cases fuel with
  | zero => simp [zread] at h
  | succ f =>
    rw [zread] at h
    cases h1 : (len == 1 || len == 2 || len == 4) <;>
    cases h2 : decide (num > 0) <;>
    cases h3 : (cfg.memberalign == 1 || cfg.memberalign == 2 || cfg.memberalign == 4) <;>
    simp only [run_bind, h1, h2, h3, cassert_true, cassert_false, run_pure] at h
    · cases h
    · cases h
    · cases h
    · cases h
    · cases h
    · cases h
    · cases h
    · cases st with
      | none =>
        simp only [run_pure] at h
        exact ⟨s.strm, (liftStrm_frame _ s s2 bs h).1⟩
      | some p =>
        simp only [run_bind] at h
        cases hc : clearfield cfg f (some p) s with
        | error e => simp [hc] at h
        | ok r1 =>
          obtain ⟨u1, s1⟩ := r1
          simp only [hc] at h
          cases ha : align cfg f (some p)
              (if cfg.memberalign < len then cfg.memberalign else len) s1 with
          | error e => simp [ha] at h
          | ok r2 =>
            obtain ⟨u2, s3⟩ := r2
            simp only [ha] at h
            cases hd : deref p s3 with
            | error e => simp [hd] at h
            | ok r3 =>
              obtain ⟨c, s4⟩ := r3
              simp only [hd] at h
              split at h
              · next u5 s5 hs => exact ⟨s5.strm, (liftStrm_frame _ s5 s2 bs h).1⟩
              · cases h


theorem bread_drain_switch (cfg : Config) (b : Bool) (f p : Nat) (s : State) (c : struct_t)
    (hc : s.heap[p]? = some (some c)) :
    bread (withSwitch cfg b) f c.nbits (some p) s = bread cfg f c.nbits (some p) s := by
  cases f with
  | zero => rw [bread, bread]
  | succ f =>
    rw [bread, bread]
    cases h1 : decide (c.nbits > 0) <;>
    cases h2 : decide (c.nbits ≤ cfg.fieldsz * 8 % W32) <;>
    simp only [run_bind, h1, h2, cassert_true, cassert_false, deref_ok p s c hc, Nat.lt_irrefl,
      if_false, run_pure, withSwitch, ne_eq, not_true_eq_false]

theorem clearfield_switch (cfg : Config) (b : Bool) (fuel : Nat) (st : Option Nat)
    (s : State) :
    clearfield (withSwitch cfg b) fuel st s = clearfield cfg fuel st s := by
  cases fuel with
  | zero => rw [clearfield, clearfield]
  | succ f =>
    cases st with
    | none => rw [clearfield, clearfield]
    | some p =>
      rw [clearfield, clearfield]
      simp only [run_bind]
      cases hd : deref p s with
      | error e => rfl
      | ok r =>
        obtain ⟨c, s0⟩ := r
        have hc0 : s0.heap[p]? = some (some c) := by
          unfold deref at hd
          split at hd
          · next c2 hc2 => cases hd; exact hc2
          · cases hd
        simp only []
        by_cases h0 : c.nbits = 0
        · simp only [h0, ne_eq, not_true_eq_false, if_false]
        · simp only [h0, ne_eq, not_false_eq_true, if_true, run_bind,
            bread_drain_switch cfg b f p s0 c hc0]

theorem zitems_switch (cfg : Config) (b : Bool) (len num : Nat) (s : Stream) :
    zitems (withSwitch cfg b) len num s = zitems cfg len num s := by
  induction num generalizing s with
  | zero => rfl
  | succ n ih =>
    have h1 : zitem (withSwitch cfg b) len s = zitem cfg len s := rfl
    simp only [zitems, run_bind, h1, ih]

theorem zread_switch (cfg : Config) (b : Bool) (fuel : Nat) :
    (∀ p n s, alignLoop (withSwitch cfg b) fuel p n s = alignLoop cfg fuel p n s)
    ∧ (∀ st n s, align (withSwitch cfg b) fuel st n s = align cfg fuel st n s)
    ∧ (∀ len num st s, zread (withSwitch cfg b) fuel len num st s
        = zread cfg fuel len num st s) := by
  induction fuel with
  | zero =>
    refine ⟨?_, ?_, ?_⟩
    · intro p n s; rw [alignLoop, alignLoop]
    · intro st n s; rw [align, align]
    · intro len num st s; rw [zread, zread]
  | succ f ih =>
    obtain ⟨ih1, ih2, ih3⟩ := ih
    refine ⟨?_, ?_, ?_⟩
    · intro p n s
      rw [alignLoop, alignLoop]
      simp only [run_bind, ih3]
      cases deref p s with
      | error e => rfl
      | ok r =>
        obtain ⟨c, s0⟩ := r
        simp only []
        split
        · simp only [run_bind, ih3, ih1]
        · rfl
    · intro st n s
      cases st with
      | none => rw [align, align]
      | some p =>
        rw [align, align]
        simp only [run_bind, ih1]
    · intro len num st s
      rw [zread, zread]
      have hz : liftStrm (zitems (withSwitch cfg b) len num) = liftStrm (zitems cfg len num) := by
        funext s; simp only [liftStrm, zitems_switch]
      cases st with
      | none => simp only [run_bind, hz]; rfl
      | some p =>
        simp only [run_bind, hz, clearfield_switch, ih2]
        rfl


theorem list_len_one (bs : List Nat) (h : bs.length = 1) : ∃ a, bs = [a] := by
  match bs, h with
  | [a], _ => exact ⟨a, rfl⟩

theorem list_len_two (bs : List Nat) (h : bs.length = 2) : ∃ a b, bs = [a, b] := by
  match bs, h with
  | [a, b], _ => exact ⟨a, b, rfl⟩

theorem list_len_four (bs : List Nat) (h : bs.length = 4) : ∃ a b c d, bs = [a, b, c, d] := by
  match bs, h with
  | [a, b, c, d], _ => exact ⟨a, b, c, d, rfl⟩

theorem hostWord_two (cfg : Config) (a b : Nat) :
    hostWord cfg [a, b] = if cfg.hostBigEndian then b + 256 * a else a + 256 * b := by
  unfold hostWord
  cases cfg.hostBigEndian
  · simp
  · simp
    omega

theorem hostWord_four (cfg : Config) (a b c d : Nat) :
    hostWord cfg [a, b, c, d]
      = if cfg.hostBigEndian then d + 256 * c + 65536 * b + 16777216 * a
        else a + 256 * b + 65536 * c + 16777216 * d := by
  unfold hostWord
  cases cfg.hostBigEndian <;> simp <;> omega

theorem wordOf_lt (cfg : Config) (len : Nat) (bs : List Nat) (hl : len = 1 ∨ len = 2 ∨ len = 4)
    (hlen : bs.length = len) (hb : ∀ b ∈ bs, b < 256) : wordOf cfg len bs < 256 ^ len := by
  rcases hl with h | h | h <;> subst h
  · obtain ⟨a, rfl⟩ := list_len_one bs hlen
    have ha := hb a (by simp)
    simp only [wordOf, if_true, hostWord_one]
    omega
  · obtain ⟨a, b, rfl⟩ := list_len_two bs hlen
    have ha := hb a (by simp)
    have hb' := hb b (by simp)
    simp only [wordOf, OfNat.ofNat_ne_one, if_false, if_true, hostWord_two]
    cases cfg.switchbytes <;> cases cfg.hostBigEndian <;>
      simp only [Bool.false_eq_true, if_false, if_true, swap16_bytes _ _ ha hb',
        swap16_bytes _ _ hb' ha, Nat.reducePow] <;> omega
  · obtain ⟨a, b, c, d, rfl⟩ := list_len_four bs hlen
    have ha := hb a (by simp)
    have hb' := hb b (by simp)
    have hc := hb c (by simp)
    have hd := hb d (by simp)
    simp only [wordOf, OfNat.ofNat_ne_one, Nat.reduceEqDiff, if_false, if_true, hostWord_four]
    cases cfg.switchbytes <;> cases cfg.hostBigEndian <;>
      simp only [Bool.false_eq_true, if_false, if_true, swap32_bytes _ _ _ _ ha hb' hc hd,
        swap32_bytes _ _ _ _ hd hc hb' ha, Nat.reducePow] <;> omega

theorem narrow_id (buflen len v : Nat) (hbl : buflen = 1 ∨ buflen = 2 ∨ buflen = 4)
    (hl : len = 1 ∨ len = 2 ∨ len = 4) (hge : len ≤ buflen) (hv : v < 256 ^ len) :
    narrow buflen v = v := by
  unfold narrow W32
  rcases hbl with h | h | h <;> subst h <;> rcases hl with h | h | h <;> subst h <;>
    simp only [Nat.reducePow, Nat.reduceEqDiff, OfNat.ofNat_ne_one, if_true, if_false] at * <;>
    omega

theorem wordOf_reverse (cfg : Config) (len : Nat) (bs : List Nat)
    (hl : len = 1 ∨ len = 2 ∨ len = 4) (hlen : bs.length = len) (hb : ∀ b ∈ bs, b < 256) :
    wordOf (withSwitch cfg true) len bs = wordOf (withSwitch cfg false) len bs.reverse := by
  rcases hl with h | h | h <;> subst h
  · obtain ⟨a, rfl⟩ := list_len_one bs hlen
    simp only [wordOf, if_true, hostWord_one, List.reverse_singleton]
  · obtain ⟨a, b, rfl⟩ := list_len_two bs hlen
    have ha := hb a (by simp)
    have hb' := hb b (by simp)
    simp only [wordOf, OfNat.ofNat_ne_one, if_false, if_true, hostWord_two, withSwitch,
      Bool.false_eq_true, List.reverse_cons, List.reverse_nil, List.nil_append,
      List.singleton_append]
    cases cfg.hostBigEndian <;>
      simp only [Bool.false_eq_true, if_false, if_true, swap16_bytes _ _ ha hb',
        swap16_bytes _ _ hb' ha]
  · obtain ⟨a, b, c, d, rfl⟩ := list_len_four bs hlen
    have ha := hb a (by simp)
    have hb' := hb b (by simp)
    have hc := hb c (by simp)
    have hd := hb d (by simp)
    simp only [wordOf, OfNat.ofNat_ne_one, Nat.reduceEqDiff, if_false, if_true, hostWord_four,
      withSwitch, Bool.false_eq_true, List.reverse_cons, List.reverse_nil, List.nil_append,
      List.singleton_append, List.cons_append]
    cases cfg.hostBigEndian <;>
      simp only [Bool.false_eq_true, if_false, if_true, swap32_bytes _ _ _ _ ha hb' hc hd,
        swap32_bytes _ _ _ _ hd hc hb' ha]


theorem iread_value (cfg : Config) (f buflen len : Nat)
    (hbl : buflen = 1 ∨ buflen = 2 ∨ buflen = 4) (hl : len = 1 ∨ len = 2 ∨ len = 4)
    (hge : len ≤ buflen) (st : Option Nat) (s s2 : State) (bs : List Nat)
    (h : zread cfg f len 1 st s = .ok (bs, s2)) :
    iread cfg (f + 1) buflen len st s = .ok (wordOf cfg len bs, s2) ∧ bs.length = len
      ∧ (∀ b ∈ bs, b < 256) ∧ wordOf cfg len bs < 256 ^ len := by
  obtain ⟨t, ht⟩ := zread_delivers cfg f len 1 st s s2 bs h
  obtain ⟨hlen, hb⟩ := zitems_bytes cfg len 1 t s2.strm bs ht
  rw [Nat.mul_one] at hlen
  have hlt := wordOf_lt cfg len bs hl hlen hb
  refine ⟨?_, hlen, hb, hlt⟩
  rw [iread_eq cfg f buflen len st s hbl hl hge, h]
  simp only [narrow_id buflen len _ hbl hl hge hlt]

/-- C7. For `len ≤ buflen`, both in `{1,2,4}`, `iread` returns the `len` bytes it reads as an
unsigned value that fits `len` bytes (so it is zero-extended in the `buflen`-byte result);
without `switchbytes` that value is the bytes taken in host order; the value returned with
`switchbytes` set for bytes `bs` equals the one returned with `switchbytes` clear for the
reversed bytes; and a 1-byte read is the same with or without `switchbytes`. -/
theorem iread_widen_reverse (cfg : Config) (f buflen len : Nat)
    (hbl : buflen = 1 ∨ buflen = 2 ∨ buflen = 4) (hl : len = 1 ∨ len = 2 ∨ len = 4)
    (hge : len ≤ buflen) :
    (∀ st s bs s2, zread cfg f len 1 st s = .ok (bs, s2) →
        iread cfg (f + 1) buflen len st s = .ok (wordOf cfg len bs, s2) ∧ bs.length = len
        ∧ wordOf cfg len bs < 256 ^ len
        ∧ (cfg.switchbytes = false → wordOf cfg len bs = hostWord cfg bs))
    ∧ (∀ st1 s1 t1 st2 s2 t2 bs,
        zread (withSwitch cfg true) f len 1 st1 s1 = .ok (bs, t1) →
        zread (withSwitch cfg false) f len 1 st2 s2 = .ok (bs.reverse, t2) →
        ∃ v, iread (withSwitch cfg true) (f + 1) buflen len st1 s1 = .ok (v, t1)
          ∧ iread (withSwitch cfg false) (f + 1) buflen len st2 s2 = .ok (v, t2))
    ∧ (∀ fuel st s, iread (withSwitch cfg true) fuel buflen 1 st s
        = iread (withSwitch cfg false) fuel buflen 1 st s) := by
  refine ⟨?_, ?_, ?_⟩
  · intro st s bs s2 h
    obtain ⟨h1, h2, -, h4⟩ := iread_value cfg f buflen len hbl hl hge st s s2 bs h
    refine ⟨h1, h2, h4, ?_⟩
    intro hsw
    rcases hl with hl | hl | hl <;> subst hl <;>
      simp only [wordOf, hsw, Bool.false_eq_true, if_false, if_true, OfNat.ofNat_ne_one,
        Nat.reduceEqDiff]
  · intro st1 s1 t1 st2 s2 t2 bs h1 h2
    obtain ⟨e1, hlen, hb, -⟩ :=
      iread_value (withSwitch cfg true) f buflen len hbl hl hge st1 s1 t1 bs h1
    obtain ⟨e2, -, -, -⟩ :=
      iread_value (withSwitch cfg false) f buflen len hbl hl hge st2 s2 t2 bs.reverse h2
    refine ⟨wordOf (withSwitch cfg true) len bs, e1, ?_⟩
    rw [e2, wordOf_reverse cfg len bs hl hlen hb]
  · intro fuel st s
    cases fuel with
    | zero => rw [iread, iread]
    | succ g =>
      have h1le : 1 ≤ buflen := by rcases hbl with h | h | h <;> omega
      rw [iread_eq (withSwitch cfg true) g buflen 1 st s hbl (Or.inl rfl) h1le,
        iread_eq (withSwitch cfg false) g buflen 1 st s hbl (Or.inl rfl) h1le,
        (zread_switch cfg true g).2.2, (zread_switch cfg false g).2.2]
      rfl

theorem iread_widen_reverse_witness :
    ∃ v, iread (withSwitch plainCfg true) 2 4 2 none (openOn [0x12, 0x34]) = .ok (v, openOn [])
      ∧ iread (withSwitch plainCfg false) 2 4 2 none (openOn [0x34, 0x12]) = .ok (v, openOn []) :=
  (iread_widen_reverse plainCfg 1 4 2 (Or.inr (Or.inr rfl)) (Or.inr (Or.inl rfl))
    (by decide)).2.1 none (openOn [0x12, 0x34]) (openOn []) none (openOn [0x34, 0x12])
    (openOn []) [0x12, 0x34] (by decide) (by decide)

/-! ## `endstruct` and nested structs -/

theorem free_ok (p : Nat) (s : State) (c : struct_t) (h : s.heap[p]? = some (some c)) :
    free p s = .ok ((), { s with heap := s.heap.set p none }) := by
  simp [free, h]

theorem heap_set_some (h : List (Option struct_t)) (p q : Nat) (c x : struct_t)
    (hc : h[p]? = some (some c)) : ∃ d, (h.set q (some x))[p]? = some (some d) := by
  by_cases hq : q = p
  · subst hq
    exact ⟨x, heap_set_get h q c x hc⟩
  · exact ⟨c, by rw [List.getElem?_set_ne hq]; exact hc⟩

theorem endstruct_spec (cfg : Config) (hm : MemberAlignOk cfg) (f p : Nat) (s : State)
    (c : struct_t) (hc : s.heap[p]? = some (some c)) (hF : c.nbits ≤ unitBits cfg)
    (hU : unitBits cfg ≤ 32) (hb : c.nbytes < W32)
    (ha : c.align = 1 ∨ c.align = 2 ∨ c.align = 4) :
    endstruct cfg (f + 5) (some p) s
      = (match zitems cfg 1 (padding c.nbytes c.align) s.strm with
        | .ok (_, t) =>
          (match c.parent with
          | none => .ok ((), ⟨t, (c.nbytes + padding c.nbytes c.align) % W32, s.heap.set p none⟩)
          | some q =>
            (match (s.heap.set p (some ⟨c.align, (c.nbytes + padding c.nbytes c.align) % W32, 0,
                c.fieldbuf, c.parent⟩))[q]? with
            | some (some pc) =>
              .ok ((), ⟨t, (c.nbytes + padding c.nbytes c.align) % W32,
                ((s.heap.set p (some ⟨c.align, (c.nbytes + padding c.nbytes c.align) % W32, 0,
                    c.fieldbuf, c.parent⟩)).set q
                  (some { pc with nbytes := (pc.nbytes
                    + (c.nbytes + padding c.nbytes c.align) % W32) % W32 })).set p none⟩)
            | _ => .error Err.badPointer))
        | .error e => .error e) := by
  have hcl := clearfield_spec cfg (f + 3) p s c hc hF hU
  have hc1 : (⟨s.strm, s.numbytes, s.heap.set p (some { c with nbits := 0 })⟩ : State).heap[p]?
      = some (some { c with nbits := 0 }) := heap_set_get s.heap p c _ hc
  have hal := align_spec cfg hm (f + 5) p c.align ha _ _ hc1 hb (by omega)
  unfold endstruct
  simp only [run_bind, hcl, deref_ok p _ _ hc1, hal]
  cases zitems cfg 1 (padding c.nbytes c.align) s.strm with
  | error e => rfl
  | ok r =>
    obtain ⟨x, t⟩ := r
    have hc2 : (⟨t, s.numbytes, s.heap.set p (some ⟨c.align,
        (c.nbytes + padding c.nbytes c.align) % W32, 0, c.fieldbuf, c.parent⟩)⟩
        : State).heap[p]? = some (some ⟨c.align,
        (c.nbytes + padding c.nbytes c.align) % W32, 0, c.fieldbuf, c.parent⟩) :=
      heap_set_get s.heap p c _ hc
    simp only [List.set_set]
    simp only [deref_ok p _ _ hc2, run_modify]
    cases hpar : c.parent with
    | none =>
      have hc3 : (⟨t, (c.nbytes + padding c.nbytes c.align) % W32, s.heap.set p (some ⟨c.align,
          (c.nbytes + padding c.nbytes c.align) % W32, 0, c.fieldbuf, none⟩)⟩
          : State).heap[p]? = some (some ⟨c.align,
          (c.nbytes + padding c.nbytes c.align) % W32, 0, c.fieldbuf, none⟩) :=
        heap_set_get s.heap p c _ hc
      simp only [run_bind, run_pure, free_ok p _ _ hc3, List.set_set]
    | some q =>
      simp only [run_bind]
      cases hq : (s.heap.set p (some ⟨c.align, (c.nbytes + padding c.nbytes c.align) % W32, 0,
          c.fieldbuf, some q⟩))[q]? with
      | none => simp [deref, hq]
      | some oc =>
        cases oc with
        | none => simp [deref, hq]
        | some pc =>
          have hq2 : (⟨t, (c.nbytes + padding c.nbytes c.align) % W32, s.heap.set p (some
              ⟨c.align, (c.nbytes + padding c.nbytes c.align) % W32, 0, c.fieldbuf, some q⟩)⟩
              : State).heap[q]? = some (some pc) := hq
          obtain ⟨d, hd⟩ := heap_set_some _ p q _
            { pc with nbytes := (pc.nbytes + (c.nbytes + padding c.nbytes c.align) % W32) % W32 }
            hc2
          simp only [deref_ok q _ _ hq2, store_ok q _ _ _ hq2]
          rw [hpar] at hd
          have hd2 : (⟨t, (c.nbytes + padding c.nbytes c.align) % W32, (s.heap.set p (some
              ⟨c.align, (c.nbytes + padding c.nbytes c.align) % W32, 0, c.fieldbuf,
                some q⟩)).set q (some { pc with nbytes := (pc.nbytes
                  + (c.nbytes + padding c.nbytes c.align) % W32) % W32 })⟩
              : State).heap[p]? = some (some d) := hd
          simp only [free_ok p _ d hd2, run_pure]


theorem iread_member (cfg : Config) (hm : MemberAlignOk cfg) (f buflen len p : Nat) (s : State)
    (c : struct_t) (hc : s.heap[p]? = some (some c)) (hF : c.nbits ≤ unitBits cfg)
    (hU : unitBits cfg ≤ 32) (hb : c.nbytes < W32)
    (hbl : buflen = 1 ∨ buflen = 2 ∨ buflen = 4) (hl : len = 1 ∨ len = 2 ∨ len = 4)
    (hge : len ≤ buflen) :
    iread cfg (f + 7) buflen len (some p) s
      = (match zitems cfg 1 (padding c.nbytes (min cfg.memberalign len)) s.strm with
        | .ok (_, t) => (match zitems cfg len 1 t with
          | .ok (bs, u) => .ok (wordOf cfg len bs, ⟨u, s.numbytes, s.heap.set p (some ⟨c.align,
              ((c.nbytes + padding c.nbytes (min cfg.memberalign len)) % W32
                + (len * 1) % W32) % W32, 0, c.fieldbuf, c.parent⟩)⟩)
          | .error e => .error e)
        | .error e => .error e) := by
  rw [iread_eq cfg (f + 6) buflen len (some p) s hbl hl hge,
    zread_some cfg hm f len 1 p s c hc hF hU hb hl Nat.one_pos]
  cases zitems cfg 1 (padding c.nbytes (min cfg.memberalign len)) s.strm with
  | error e => rfl
  | ok r =>
    obtain ⟨x, t⟩ := r
    simp only []
    cases hz : zitems cfg len 1 t with
    | error e => rfl
    | ok r2 =>
      obtain ⟨bs, u⟩ := r2
      obtain ⟨hlen, hbs⟩ := zitems_bytes cfg len 1 t u bs hz
      rw [Nat.mul_one] at hlen
      simp only [narrow_id buflen len _ hbl hl hge (wordOf_lt cfg len bs hl hlen hbs)]

theorem heap_get2_0 (h : List (Option struct_t)) (x y : Option struct_t) :
    (h ++ [x, y])[h.length]? = some x := by
  rw [List.getElem?_append_right (Nat.le_refl _), Nat.sub_self]
  rfl

theorem heap_get2_1 (h : List (Option struct_t)) (x y : Option struct_t) :
    (h ++ [x, y])[h.length + 1]? = some y := by
  have e : h.length + 1 - h.length = 1 := by omega
  rw [List.getElem?_append_right (Nat.le_succ _), e]
  rfl

theorem heap_set2_0 (h : List (Option struct_t)) (x y z : Option struct_t) :
    (h ++ [x, y]).set h.length z = h ++ [z, y] := by
  simp [List.set_append]

theorem heap_set2_1 (h : List (Option struct_t)) (x y z : Option struct_t) :
    (h ++ [x, y]).set (h.length + 1) z = h ++ [x, z] := by
  simp [List.set_append]

theorem heap_get1 (h : List (Option struct_t)) (x : Option struct_t) :
    (h ++ [x])[h.length]? = some x := by
  simp

theorem heap_set1 (h : List (Option struct_t)) (x z : Option struct_t) :
    (h ++ [x]).set h.length z = h ++ [z] := by
  simp [List.set_append]


theorem nested_steps (cfg : Config) (hv : ValidConfig cfg) (hma : cfg.memberalign = 4)
    (hsa : cfg.structalign = 0) (f : Nat) (s : State) (w x y : List Nat) (t1 t2 t3 : Stream)
    (h1 : zitems cfg 4 1 s.strm = .ok (w, t1)) (h2 : zitems cfg 2 1 t1 = .ok (x, t2))
    (h3 : zitems cfg 2 1 t2 = .ok (y, t3)) :
    nestedTraversal cfg (f + 7) s
      = .ok ((wordOf cfg 4 w, wordOf cfg 2 x, wordOf cfg 2 y),
          ⟨t3, 8, s.heap ++ [none, none]⟩) := by
  have hm : MemberAlignOk cfg := hv.2.1
  have hU := unitBits_le cfg hv
  have a4 : structAlignment cfg false 4 = 4 := by
    simp [structAlignment, hma, hsa]
  have a2 : structAlignment cfg false 2 = 2 := by
    simp [structAlignment, hma, hsa]
  have p0 : padding 0 4 = 0 := by decide
  have p1 : padding 4 2 = 0 := by decide
  have p2 : padding 0 2 = 0 := by decide
  have p3 : padding 2 2 = 0 := by decide
  have p4 : padding 8 4 = 0 := by decide
  have m4 : min 4 4 = 4 := by decide
  have m2 : min 4 2 = 2 := by decide
  -- startstruct(NULL, FALSE, 4)
  have e1 := startstruct_none cfg hv false 4 (Or.inr (Or.inr rfl)) (f + 7) s
  rw [a4] at e1
  -- iread of the 4-byte int
  have e2 := iread_member cfg hm f 4 4 s.heap.length
    ⟨s.strm, s.numbytes, s.heap ++ [some ⟨4, 0, 0, 0, none⟩]⟩ ⟨4, 0, 0, 0, none⟩
    (heap_get1 s.heap _) (Nat.zero_le _) hU (by decide) (Or.inr (Or.inr rfl))
    (Or.inr (Or.inr rfl)) (Nat.le_refl 4)
  simp only [hma, m4, p0, zitems_zero, h1, heap_set1] at e2
  have n1 : ((0 + 0) % W32 + 4 * 1 % W32) % W32 = 4 := by decide
  rw [n1] at e2
  -- startstruct(parent, FALSE, 2)
  have e3 := startstruct_some cfg hv false 2 (Or.inr (Or.inl rfl)) (f + 7) s.heap.length
    ⟨t1, s.numbytes, s.heap ++ [some ⟨4, 4, 0, 0, none⟩]⟩
  rw [a2] at e3
  simp only [List.append_assoc, List.singleton_append, List.length_append,
    List.length_singleton] at e3
  have hg0 : (⟨t1, s.numbytes,
      s.heap ++ [some ⟨4, 4, 0, 0, none⟩, some ⟨2, 0, 0, 0, some s.heap.length⟩]⟩
      : State).heap[s.heap.length]? = some (some ⟨4, 4, 0, 0, none⟩) := heap_get2_0 s.heap _ _
  have al3 := align_spec cfg hm (f + 7) s.heap.length 2 (Or.inr (Or.inl rfl)) _ _ hg0
    (by decide) (by omega)
  simp only [p1, zitems_zero, heap_set2_0] at al3
  have n2 : (4 + 0) % W32 = 4 := by decide
  rw [n2] at al3
  simp only [deref_ok _ _ _ hg0, ge_iff_le, Nat.reduceLeDiff, if_true, al3] at e3
  -- the two 2-byte ints of the child
  have e4 := iread_member cfg hm f 2 2 (s.heap.length + 1)
    ⟨t1, s.numbytes, s.heap ++ [some ⟨4, 4, 0, 0, none⟩, some ⟨2, 0, 0, 0, some s.heap.length⟩]⟩
    ⟨2, 0, 0, 0, some s.heap.length⟩ (heap_get2_1 s.heap _ _) (Nat.zero_le _) hU (by simp [W32])
    (Or.inr (Or.inl rfl)) (Or.inr (Or.inl rfl)) (Nat.le_refl 2)
  simp only [hma, m2, p2, zitems_zero, h2, heap_set2_1] at e4
  have n3 : ((0 + 0) % W32 + 2 * 1 % W32) % W32 = 2 := by decide
  rw [n3] at e4
  have e5 := iread_member cfg hm f 2 2 (s.heap.length + 1)
    ⟨t2, s.numbytes, s.heap ++ [some ⟨4, 4, 0, 0, none⟩, some ⟨2, 2, 0, 0, some s.heap.length⟩]⟩
    ⟨2, 2, 0, 0, some s.heap.length⟩ (heap_get2_1 s.heap _ _) (Nat.zero_le _) hU (by simp [W32])
    (Or.inr (Or.inl rfl)) (Or.inr (Or.inl rfl)) (Nat.le_refl 2)
  simp only [hma, m2, p3, zitems_zero, h3, heap_set2_1] at e5
  have n4 : ((2 + 0) % W32 + 2 * 1 % W32) % W32 = 4 := by decide
  rw [n4] at e5
  -- endstruct(child)
  have e6 := endstruct_spec cfg hm (f + 2) (s.heap.length + 1)
    ⟨t3, s.numbytes, s.heap ++ [some ⟨4, 4, 0, 0, none⟩, some ⟨2, 4, 0, 0, some s.heap.length⟩]⟩
    ⟨2, 4, 0, 0, some s.heap.length⟩ (heap_get2_1 s.heap _ _) (Nat.zero_le _) hU (by simp [W32])
    (Or.inr (Or.inl rfl))
  dsimp only at e6
  rw [p1, zitems_zero] at e6
  dsimp only at e6
  rw [n2, heap_set2_1, heap_get2_0] at e6
  dsimp only at e6
  rw [heap_set2_0, heap_set2_1] at e6
  have n5 : (4 + 4) % W32 = 8 := by decide
  rw [n5] at e6
  -- endstruct(parent)
  have e7 := endstruct_spec cfg hm (f + 2) s.heap.length
    ⟨t3, 4, s.heap ++ [some ⟨4, 8, 0, 0, none⟩, none]⟩
    ⟨4, 8, 0, 0, none⟩ (heap_get2_0 s.heap _ _) (Nat.zero_le _) hU (by decide)
    (Or.inr (Or.inr rfl))
  dsimp only at e7
  rw [p4, zitems_zero] at e7
  dsimp only at e7
  rw [heap_set2_0] at e7
  have n6 : (8 + 0) % W32 = 8 := by decide
  rw [n6] at e7
  simp only [nestedTraversal, run_bind, e1, e2, e3, e4, e5, e6, e7, run_pure]


/-- C9. Under `memberalign = 4` and `structalign = 0`, the call sequence
`startstruct(NULL, no bitfields, 4)`; `iread` of a 4-byte int; `startstruct(parent, no
bitfields, 2)`; two `iread`s of 2-byte ints; `endstruct(child)`; `endstruct(parent)` gives the
child alignment 2, reads nothing but the three members from the stream (no padding), and
leaves 8 as the last struct size; run between `startcount` and `getcount` it returns 8. -/
theorem nested_sizing (cfg : Config) (hv : ValidConfig cfg) (hma : cfg.memberalign = 4)
    (hsa : cfg.structalign = 0) (f : Nat) (s : State) :
    structAlignment cfg false 2 = 2
    ∧ (∀ w x y t1 t2 t3, zitems cfg 4 1 s.strm = .ok (w, t1) → zitems cfg 2 1 t1 = .ok (x, t2) →
        zitems cfg 2 1 t2 = .ok (y, t3) →
        nestedTraversal cfg (f + 7) s
          = .ok ((wordOf cfg 4 w, wordOf cfg 2 x, wordOf cfg 2 y),
              ⟨t3, 8, s.heap ++ [none, none]⟩))
    ∧ (s.strm.countonly = false →
        nestedSize cfg (f + 7) s = .ok (8, ⟨s.strm, 8, s.heap ++ [none, none]⟩)) := by
  refine ⟨by simp [structAlignment, hma, hsa], ?_, ?_⟩
  · intro w x y t1 t2 t3 h1 h2 h3
    exact nested_steps cfg hv hma hsa f s w x y t1 t2 t3 h1 h2 h3
  · intro hco
    have hz4 := zitems_countonly cfg 4 1 ⟨s.strm.nzeroes, true, s.strm.fp⟩ rfl
    have hz2 := zitems_countonly cfg 2 1 ⟨s.strm.nzeroes, true, s.strm.fp⟩ rfl
    have ht := nested_steps cfg hv hma hsa f
      ⟨⟨s.strm.nzeroes, true, s.strm.fp⟩, s.numbytes, s.heap⟩ _ _ _ _ _ _ hz4 hz2 hz2
    have hs : (⟨s.strm.nzeroes, false, s.strm.fp⟩ : Stream) = s.strm := by
      rw [← hco]
    simp only [nestedSize, startcount, getcount, run_bind, run_get, hco, Bool.not_false,
      cassert_true, run_set, ht, run_pure, hs]

theorem nested_sizing_witness :
    nestedSize plainCfg 7 (openOn [1, 2, 3]) = .ok (8, ⟨⟨0, false, some [1, 2, 3]⟩, 8, [none, none]⟩) :=
  (nested_sizing plainCfg ⟨Or.inr (Or.inl rfl), Or.inr (Or.inr rfl), Or.inl rfl, Or.inl rfl⟩
    rfl rfl 0 (openOn [1, 2, 3])).2.2 rfl

/-! ## Count-only mode -/

theorem cassert_inv {σ : Type} (b : Bool) (s t : σ) (u : Unit)
    (h : cassert b s = .ok (u, t)) : b = true ∧ s = t := by
  cases b
  · cases h
  · cases h; exact ⟨rfl, rfl⟩

theorem deref_inv (p : Nat) (s t : State) (c : struct_t) (h : deref p s = .ok (c, t)) :
    s.heap[p]? = some (some c) ∧ s = t := by
  unfold deref at h
  split at h
  · next c2 hc2 => cases h; exact ⟨hc2, rfl⟩
  · cases h

theorem store_inv (p : Nat) (s t : State) (c : struct_t) (u : Unit)
    (h : store p c s = .ok (u, t)) :
    ⟨s.strm, s.numbytes, s.heap.set p (some c)⟩ = t ∧ ∃ c0, s.heap[p]? = some (some c0) := by
  unfold store at h
  split at h
  · next c2 hc2 => cases h; exact ⟨rfl, c2, hc2⟩
  · cases h

theorem shr32_inv {σ : Type} (x k v : Nat) (s t : σ) (h : shr32 x k s = .ok (v, t)) :
    v = x >>> k ∧ s = t := by
  unfold shr32 at h
  split at h
  · cases h; exact ⟨rfl, rfl⟩
  · cases h

theorem shl32_inv {σ : Type} (x k v : Nat) (s t : σ) (h : shl32 x k s = .ok (v, t)) :
    v = (x <<< k) % W32 ∧ s = t := by
  unfold shl32 at h
  split at h
  · cases h; exact ⟨rfl, rfl⟩
  · cases h

/-- What the calls of `file.c` keep and deliver while `countonly` is set: the stream state
(`nzeroes`, `countonly`, `fp`) of the result is that of the start. -/
theorem clearfield_count (cfg : Config) (f : Nat)
    (hb : ∀ len st s v s2, s.strm.countonly = true → bread cfg f len st s = .ok (v, s2) →
      s2.strm = s.strm)
    (st : Option Nat) (s s2 : State) (u : Unit) (hco : s.strm.countonly = true)
    (h : clearfield cfg (f + 1) st s = .ok (u, s2)) : s2.strm = s.strm := by
  cases st with
  | none =>
    rw [clearfield] at h
    cases h; rfl
  | some p =>
    rw [clearfield] at h
    simp only [run_bind] at h
    split at h
    · next c t hd =>
      obtain ⟨-, hsub⟩ := deref_inv p s t c hd
      subst hsub
      split at h
      · simp only [run_bind] at h
        split at h
        · next v t2 hbr =>
          cases h
          exact hb _ _ _ _ _ hco hbr
        · cases h
      · cases h; rfl
    · cases h


theorem alignLoop_count (cfg : Config) (f : Nat)
    (hz : ∀ len num st s bs s2, s.strm.countonly = true →
      zread cfg f len num st s = .ok (bs, s2) → s2.strm = s.strm)
    (hl : ∀ p n s u s2, s.strm.countonly = true →
      alignLoop cfg f p n s = .ok (u, s2) → s2.strm = s.strm)
    (p n : Nat) (s s2 : State) (u : Unit) (hco : s.strm.countonly = true)
    (h : alignLoop cfg (f + 1) p n s = .ok (u, s2)) : s2.strm = s.strm := by
  rw [alignLoop] at h
  simp only [run_bind] at h
  split at h
  · next c t hd =>
    obtain ⟨-, hsub⟩ := deref_inv p s t c hd
    subst hsub
    split at h
    · simp only [run_bind] at h
      split at h
      · next bs t1 hzr =>
        have e1 := hz _ _ _ _ _ _ hco hzr
        split at h
        · next c1 t2 hd1 =>
          obtain ⟨-, hsub⟩ := deref_inv p t1 t2 c1 hd1
          subst hsub
          split at h
          · next u3 t3 hst =>
            obtain ⟨hsub, -⟩ := store_inv p t1 t3 _ u3 hst
            subst hsub
            have e2 := hl p n _ u s2 (by simp only; rw [e1]; exact hco) h
            rw [e2]; exact e1
          · cases h
        · cases h
      · cases h
    · cases h; rfl
  · cases h

theorem align_count (cfg : Config) (f : Nat)
    (hl : ∀ p n s u s2, s.strm.countonly = true →
      alignLoop cfg f p n s = .ok (u, s2) → s2.strm = s.strm)
    (st : Option Nat) (n : Nat) (s s2 : State) (u : Unit) (hco : s.strm.countonly = true)
    (h : align cfg (f + 1) st n s = .ok (u, s2)) : s2.strm = s.strm := by
  cases st with
  | none => rw [align] at h; cases h
  | some p =>
    rw [align] at h
    simp only [run_bind] at h
    split at h
    · next u1 t ha =>
      obtain ⟨-, hsub⟩ := cassert_inv _ s t u1 ha
      subst hsub
      exact hl p n s u s2 hco h
    · cases h

theorem zread_count (cfg : Config) (f : Nat)
    (hc : ∀ st s u s2, s.strm.countonly = true →
      clearfield cfg f st s = .ok (u, s2) → s2.strm = s.strm)
    (ha : ∀ st n s u s2, s.strm.countonly = true →
      align cfg f st n s = .ok (u, s2) → s2.strm = s.strm)
    (len num : Nat) (st : Option Nat) (s s2 : State) (bs : List Nat)
    (hco : s.strm.countonly = true)
    (h : zread cfg (f + 1) len num st s = .ok (bs, s2)) :
    s2.strm = s.strm ∧ bs = List.replicate (len * num) 0 := by
  have hfin : ∀ t : State, t.strm = s.strm → liftStrm (zitems cfg len num) t = .ok (bs, s2) →
      s2.strm = s.strm ∧ bs = List.replicate (len * num) 0 := by
    intro t ht hl
    obtain ⟨hz, -, -⟩ := liftStrm_frame _ t s2 bs hl
    rw [zitems_countonly cfg len num t.strm (by rw [ht]; exact hco)] at hz
    simp only [Except.ok.injEq, Prod.mk.injEq] at hz
    exact ⟨by rw [← hz.2, ht], hz.1.symm⟩
  rw [zread] at h
  simp only [run_bind] at h
  split at h
  · next u1 t1 h1 =>
    obtain ⟨-, hsub⟩ := cassert_inv _ s t1 u1 h1
    subst hsub
    split at h
    · next u2 t2 h2 =>
      obtain ⟨-, hsub⟩ := cassert_inv _ s t2 u2 h2
      subst hsub
      split at h
      · next u3 t3 h3 =>
        obtain ⟨-, hsub⟩ := cassert_inv _ s t3 u3 h3
        subst hsub
        cases st with
        | none =>
          simp only [run_pure] at h
          exact hfin s rfl h
        | some p =>
          simp only [run_bind] at h
          split at h
          · next u4 t4 h4 =>
            have e4 := hc _ _ _ _ hco h4
            split at h
            · next u5 t5 h5 =>
              have e5 := ha _ _ _ _ _ (by rw [e4]; exact hco) h5
              split at h
              · next c t6 h6 =>
                obtain ⟨-, hsub⟩ := deref_inv p t5 t6 c h6
                subst hsub
                split at h
                · next u7 t7 h7 =>
                  obtain ⟨hsub, -⟩ := store_inv p t5 t7 _ u7 h7
                  subst hsub
                  exact hfin _ (by simp only; rw [e5, e4]) h
                · cases h
              · cases h
            · cases h
          · cases h
      · cases h
    · cases h
  · cases h


theorem wordOf_zeros (cfg : Config) (buflen len : Nat) (hl : len = 1 ∨ len = 2 ∨ len = 4) :
    narrow buflen (wordOf cfg len (List.replicate (len * 1) 0)) = 0 := by
  have hn : narrow buflen 0 = 0 := by
    unfold narrow; split_ifs <;> rfl
  have hs16 : swap16 0 = 0 := by decide
  have hs32 : swap32 0 = 0 := by decide
  rcases hl with h | h | h <;> subst h
  · have hw : hostWord cfg (List.replicate (1 * 1) 0) = 0 := by
      unfold hostWord; cases cfg.hostBigEndian <;> rfl
    simp only [wordOf, if_true, hw, hn]
  · have hw : hostWord cfg (List.replicate (2 * 1) 0) = 0 := by
      unfold hostWord; cases cfg.hostBigEndian <;> rfl
    simp only [wordOf, OfNat.ofNat_ne_one, if_false, if_true, hw, hs16, ite_self, hn]
  · have hw : hostWord cfg (List.replicate (4 * 1) 0) = 0 := by
      unfold hostWord; cases cfg.hostBigEndian <;> rfl
    simp only [wordOf, OfNat.ofNat_ne_one, Nat.reduceEqDiff, if_false, if_true, hw, hs32,
      ite_self, hn]

theorem in124_of_bool (x : Nat) (h : (x == 1 || x == 2 || x == 4) = true) :
    x = 1 ∨ x = 2 ∨ x = 4 := by
  simp only [Bool.or_eq_true, beq_iff_eq] at h
  rcases h with (h | h) | h
  · exact Or.inl h
  · exact Or.inr (Or.inl h)
  · exact Or.inr (Or.inr h)

theorem iread_count (cfg : Config) (f : Nat)
    (hz : ∀ len num st s bs s2, s.strm.countonly = true →
      zread cfg f len num st s = .ok (bs, s2) →
      s2.strm = s.strm ∧ bs = List.replicate (len * num) 0)
    (buflen len : Nat) (st : Option Nat) (s s2 : State) (v : Nat)
    (hco : s.strm.countonly = true)
    (h : iread cfg (f + 1) buflen len st s = .ok (v, s2)) : s2.strm = s.strm ∧ v = 0 := by
  have h0 := h
  rw [iread] at h
  simp only [run_bind] at h
  split at h
  · next u1 t1 h1 =>
    obtain ⟨hbl, hsub⟩ := cassert_inv _ s t1 u1 h1
    subst hsub
    split at h
    · next u2 t2 h2 =>
      obtain ⟨hl, hsub⟩ := cassert_inv _ s t2 u2 h2
      subst hsub
      split at h
      · next u3 t3 h3 =>
        obtain ⟨hge, hsub⟩ := cassert_inv _ s t3 u3 h3
        subst hsub
        have hl' := in124_of_bool len hl
        rw [iread_eq cfg f buflen len st s (in124_of_bool buflen hbl) hl'
          (by simpa using hge)] at h0
        split at h0
        · next bs t4 h4 =>
          obtain ⟨e1, e2⟩ := hz _ _ _ _ _ _ hco h4
          simp only [Except.ok.injEq, Prod.mk.injEq] at h0
          rw [← h0.2, ← h0.1, e2]
          exact ⟨e1, wordOf_zeros cfg buflen len hl'⟩
        · cases h0
      · cases h
    · cases h
  · cases h


theorem zero_bits (k m : Nat) : (0 >>> k) &&& m = 0 := by
  simp

theorem zero_join (k : Nat) : ((0 <<< k) % W32) ||| 0 = 0 := by
  simp

/-- The second part of `bread` (lines 308-328): extract, account, and the spanning call. -/
theorem bread_tail_count (cfg : Config) (f : Nat)
    (hb : ∀ len st s v s2, s.strm.countonly = true → bread cfg f len st s = .ok (v, s2) →
      s2.strm = s.strm ∧ ∀ p c, st = some p → s.heap[p]? = some (some c) →
        (c.nbits = 0 ∨ c.fieldbuf = 0) → v = 0)
    (len2 spanned p : Nat) (t s2 : State) (c2 : struct_t) (v : Nat)
    (hco : t.strm.countonly = true) (hc2 : t.heap[p]? = some (some c2))
    (h : (do
        let c ← deref p
        let val ←
          if cfg.fieldMSB then do
            let v ← shr32 c.fieldbuf (sub32 c.nbits len2)
            pure (v &&& maskLoop len2)
          else do
            let v ← shr32 c.fieldbuf (sub32 ((cfg.fieldsz * 8) % W32) c.nbits)
            pure (v &&& maskLoop len2)
        store p { c with nbits := sub32 c.nbits len2 }
        if spanned ≠ 0 then
          let spanval ← bread cfg f spanned (some p)
          if cfg.fieldMSB then do
            let v ← shl32 val spanned
            pure (v ||| spanval)
          else do
            let v ← shl32 spanval len2
            pure (v ||| val)
        else pure val : M Nat) t = .ok (v, s2)) :
    s2.strm = t.strm ∧ (c2.fieldbuf = 0 → v = 0) := by
  simp only [run_bind, deref_ok p t c2 hc2] at h
  have hfin : ∀ (val : Nat) (t1 : State), (c2.fieldbuf = 0 → val = 0) →
      (⟨t.strm, t.numbytes, t.heap.set p (some { c2 with nbits := sub32 c2.nbits len2 })⟩
        : State) = t1 →
      ((if spanned ≠ 0 then do
          let spanval ← bread cfg f spanned (some p)
          if cfg.fieldMSB then do
            let v ← shl32 val spanned
            pure (v ||| spanval)
          else do
            let v ← shl32 spanval len2
            pure (v ||| val)
        else pure val : M Nat) t1 = .ok (v, s2)) →
      s2.strm = t.strm ∧ (c2.fieldbuf = 0 → v = 0) := by
    intro val t1 hval ht1 h2
    subst ht1
    by_cases hs : spanned = 0
    · simp only [hs, ne_eq, not_true_eq_false, if_false, run_pure, Except.ok.injEq,
        Prod.mk.injEq] at h2
      rw [← h2.1, ← h2.2]
      exact ⟨rfl, hval⟩
    · simp only [hs, ne_eq, not_false_eq_true, if_true, run_bind] at h2
      split at h2
      · next sv t2 hbr =>
        obtain ⟨e2, hz2⟩ := hb _ _ ⟨t.strm, t.numbytes,
          t.heap.set p (some { c2 with nbits := sub32 c2.nbits len2 })⟩ _ _ hco hbr
        have hsv : c2.fieldbuf = 0 → sv = 0 := fun h0 =>
          hz2 p _ rfl (heap_set_get t.heap p c2 _ hc2) (Or.inr h0)
        cases hM : cfg.fieldMSB
        · simp only [hM, Bool.false_eq_true, if_false, run_bind, run_pure] at h2
          split at h2
          · next x t3 hsh =>
            obtain ⟨hx, hsub⟩ := shl32_inv _ _ _ _ _ hsh
            subst hsub
            simp only [Except.ok.injEq, Prod.mk.injEq] at h2
            rw [← h2.1, ← h2.2]
            refine ⟨e2, fun h0 => ?_⟩
            rw [hx, hsv h0, hval h0]
            exact zero_join _
          · cases h2
        · simp only [hM, if_true, run_bind, run_pure] at h2
          split at h2
          · next x t3 hsh =>
            obtain ⟨hx, hsub⟩ := shl32_inv _ _ _ _ _ hsh
            subst hsub
            simp only [Except.ok.injEq, Prod.mk.injEq] at h2
            rw [← h2.1, ← h2.2]
            refine ⟨e2, fun h0 => ?_⟩
            rw [hx, hsv h0, hval h0]
            exact zero_join _
          · cases h2
      · cases h2
  cases hM : cfg.fieldMSB
  · simp only [hM, Bool.false_eq_true, if_false, run_bind, run_pure] at h
    split at h
    · next x t1 hsh =>
      obtain ⟨hx, hsub⟩ := shr32_inv _ _ _ _ _ hsh
      subst hsub
      simp only [store_ok p t c2 _ hc2] at h
      refine hfin _ _ (fun h0 => ?_) rfl (by simp only [hM, Bool.false_eq_true, if_false]; exact h)
      rw [hx, h0]; exact zero_bits _ _
    · cases h
  · simp only [hM, if_true, run_bind, run_pure] at h
    split at h
    · next x t1 hsh =>
      obtain ⟨hx, hsub⟩ := shr32_inv _ _ _ _ _ hsh
      subst hsub
      simp only [store_ok p t c2 _ hc2] at h
      refine hfin _ _ (fun h0 => ?_) rfl (by simp only [hM, if_true]; exact h)
      rw [hx, h0]; exact zero_bits _ _
    · cases h


theorem bread_count (cfg : Config) (f : Nat)
    (hi : ∀ buflen len st s v s2, s.strm.countonly = true →
      iread cfg f buflen len st s = .ok (v, s2) → s2.strm = s.strm ∧ v = 0)
    (hb : ∀ len st s v s2, s.strm.countonly = true → bread cfg f len st s = .ok (v, s2) →
      s2.strm = s.strm ∧ ∀ p c, st = some p → s.heap[p]? = some (some c) →
        (c.nbits = 0 ∨ c.fieldbuf = 0) → v = 0)
    (len : Nat) (st : Option Nat) (s s2 : State) (v : Nat) (hco : s.strm.countonly = true)
    (h : bread cfg (f + 1) len st s = .ok (v, s2)) :
    s2.strm = s.strm ∧ ∀ p c, st = some p → s.heap[p]? = some (some c) →
      (c.nbits = 0 ∨ c.fieldbuf = 0) → v = 0 := by
  cases st with
  | none => rw [bread] at h; cases h
  | some p =>
    rw [bread] at h
    simp only [run_bind] at h
    split at h
    · next u1 t1 h1 =>
      obtain ⟨hlen, hsub⟩ := cassert_inv _ s t1 u1 h1
      subst hsub
      have hlen' : 0 < len := by simpa using hlen
      split at h
      · next u2 t2 h2 =>
        obtain ⟨-, hsub⟩ := cassert_inv _ s t2 u2 h2
        subst hsub
        split at h
        · next c t3 h3 =>
          obtain ⟨hc, hsub⟩ := deref_inv p s t3 c h3
          subst hsub
          have hcell : ∀ q d, some p = some q → s.heap[q]? = some (some d) → d = c := by
            intro q d hq hd
            simp only [Option.some.injEq] at hq
            subst hq
            rw [hc] at hd
            simp only [Option.some.injEq] at hd
            exact hd.symm
          by_cases hlt : c.nbits < len
          · cases hsp : (decide (c.nbits ≠ 0) && cfg.fieldspan)
            · simp only [hlt, hsp, if_true, Bool.false_eq_true, if_false, run_bind] at h
              split at h
              · next v0 t1 h1 =>
                obtain ⟨e1, hv0⟩ := hi _ _ _ _ _ _ hco h1
                subst hv0
                split at h
                · next c1 t2 h2 =>
                  obtain ⟨hc1, hsub⟩ := deref_inv p t1 t2 c1 h2
                  subst hsub
                  split at h
                  · next u3 t3 h3 =>
                    obtain ⟨hsub, -⟩ := store_inv p t1 t3 _ u3 h3
                    subst hsub
                    have hc2 := heap_set_get t1.heap p c1 { c1 with fieldbuf := 0 } hc1
                    split at h
                    · next c3 t4 h4 =>
                      obtain ⟨hc3, hsub⟩ := deref_inv p _ t4 c3 h4
                      subst hsub
                      rw [hc2] at hc3
                      simp only [Option.some.injEq] at hc3
                      subst hc3
                      split at h
                      · next u5 t5 h5 =>
                        obtain ⟨hsub, -⟩ := store_inv p _ t5 _ u5 h5
                        subst hsub
                        simp only [run_pure] at h
                        have hT := bread_tail_count cfg f hb len 0 p
                          ⟨t1.strm, t1.numbytes, (t1.heap.set p (some { c1 with fieldbuf := 0 })).set
                            p (some ⟨c1.align, c1.nbytes, cfg.fieldsz * 8 % W32, 0, c1.parent⟩)⟩
                          s2 ⟨c1.align, c1.nbytes, cfg.fieldsz * 8 % W32, 0, c1.parent⟩ v
                          (by show t1.strm.countonly = true; rw [e1]; exact hco)
                          (heap_set_get _ p _ _ hc2)
                          (by simp only [run_bind]; exact h)
                        exact ⟨hT.1.trans e1, fun _ _ _ _ _ => hT.2 rfl⟩
                      · cases h
                    · cases h
                  · cases h
                · cases h
              · cases h
            · simp only [hlt, hsp, if_true, run_bind, run_pure] at h
              have hne : c.nbits ≠ 0 := by
                simp only [Bool.and_eq_true, decide_eq_true_eq] at hsp
                exact hsp.1
              have hT := bread_tail_count cfg f hb c.nbits (len - c.nbits) p s s2 c v hco hc
                (by simp only [run_bind]; exact h)
              refine ⟨hT.1, fun q d hq hd hz => ?_⟩
              rw [hcell q d hq hd] at hz
              exact hT.2 (hz.resolve_left hne)
          · simp only [hlt, if_false, run_bind, run_pure] at h
            have hne : c.nbits ≠ 0 := by omega
            have hT := bread_tail_count cfg f hb len 0 p s s2 c v hco hc
              (by simp only [run_bind]; exact h)
            refine ⟨hT.1, fun q d hq hd hz => ?_⟩
            rw [hcell q d hq hd] at hz
            exact hT.2 (hz.resolve_left hne)
        · cases h
      · cases h
    · cases h


theorem count_all (cfg : Config) (f : Nat) :
    (∀ st s u s2, s.strm.countonly = true →
      clearfield cfg f st s = .ok (u, s2) → s2.strm = s.strm)
    ∧ (∀ p n s u s2, s.strm.countonly = true →
      alignLoop cfg f p n s = .ok (u, s2) → s2.strm = s.strm)
    ∧ (∀ st n s u s2, s.strm.countonly = true →
      align cfg f st n s = .ok (u, s2) → s2.strm = s.strm)
    ∧ (∀ len num st s bs s2, s.strm.countonly = true →
      zread cfg f len num st s = .ok (bs, s2) →
      s2.strm = s.strm ∧ bs = List.replicate (len * num) 0)
    ∧ (∀ buflen len st s v s2, s.strm.countonly = true →
      iread cfg f buflen len st s = .ok (v, s2) → s2.strm = s.strm ∧ v = 0)
    ∧ (∀ len st s v s2, s.strm.countonly = true → bread cfg f len st s = .ok (v, s2) →
      s2.strm = s.strm ∧ ∀ p c, st = some p → s.heap[p]? = some (some c) →
        (c.nbits = 0 ∨ c.fieldbuf = 0) → v = 0) := by
  induction f with
  | zero =>
    refine ⟨?_, ?_, ?_, ?_, ?_, ?_⟩
    · intro st s u s2 _ h; rw [clearfield] at h; cases h
    · intro p n s u s2 _ h; rw [alignLoop] at h; cases h
    · intro st n s u s2 _ h; rw [align] at h; cases h
    · intro len num st s bs s2 _ h; rw [zread] at h; cases h
    · intro buflen len st s v s2 _ h; rw [iread] at h; cases h
    · intro len st s v s2 _ h; rw [bread] at h; cases h
  | succ f ih =>
    obtain ⟨ihc, ihl, iha, ihz, ihi, ihb⟩ := ih
    refine ⟨?_, ?_, ?_, ?_, ?_, ?_⟩
    · intro st s u s2 hco h
      exact clearfield_count cfg f (fun len st s v s2 hco h => (ihb len st s v s2 hco h).1)
        st s s2 u hco h
    · intro p n s u s2 hco h
      exact alignLoop_count cfg f
        (fun len num st s bs s2 hco h => (ihz len num st s bs s2 hco h).1) ihl p n s s2 u hco h
    · intro st n s u s2 hco h
      exact align_count cfg f ihl st n s s2 u hco h
    · intro len num st s bs s2 hco h
      exact zread_count cfg f ihc iha len num st s s2 bs hco h
    · intro buflen len st s v s2 hco h
      exact iread_count cfg f ihz buflen len st s s2 v hco h
    · intro len st s v s2 hco h
      exact bread_count cfg f ihi ihb len st s s2 v hco h

theorem startstruct_count (cfg : Config) (fuel : Nat) (parent : Option Nat) (hasfields : Bool)
    (maxlen : Nat) (s s2 : State) (p : Nat) (hco : s.strm.countonly = true)
    (h : startstruct cfg fuel parent hasfields maxlen s = .ok (p, s2)) :
    s2.strm = s.strm ∧ ∃ c, s2.heap[p]? = some (some c) ∧ c.nbits = 0 := by
  unfold startstruct at h
  simp only [run_bind] at h
  split at h
  · next u1 t1 h1 =>
    obtain ⟨-, hsub⟩ := cassert_inv _ s t1 u1 h1
    subst hsub
    split at h
    · next u2 t2 h2 =>
      obtain ⟨-, hsub⟩ := cassert_inv _ s t2 u2 h2
      subst hsub
      split at h
      · next u3 t3 h3 =>
        obtain ⟨-, hsub⟩ := cassert_inv _ s t3 u3 h3
        subst hsub
        split at h
        · next u4 t4 h4 =>
          obtain ⟨-, hsub⟩ := cassert_inv _ s t4 u4 h4
          subst hsub
          split at h
          · next u5 t5 h5 =>
            obtain ⟨-, hsub⟩ := cassert_inv _ s t5 u5 h5
            subst hsub
            simp only [alloc] at h
            split at h
            · next u6 t6 h6 =>
              obtain ⟨-, hsub⟩ := cassert_inv _ _ t6 u6 h6
              subst hsub
              simp only [alloc_deref, alloc_store] at h
              cases parent with
              | none =>
                simp only [run_bind, run_pure, Except.ok.injEq, Prod.mk.injEq] at h
                rw [← h.1, ← h.2]
                exact ⟨rfl, _, heap_get1 s.heap _, rfl⟩
              | some q =>
                simp only [run_bind] at h
                split at h
                · next pc t7 h7 =>
                  obtain ⟨-, hsub⟩ := deref_inv q _ t7 pc h7
                  subst hsub
                  split at h
                  · next u8 t8 h8 =>
                    obtain ⟨-, hsub⟩ := cassert_inv _ _ t8 u8 h8
                    subst hsub
                    split at h
                    · next u9 t9 h9 =>
                      simp only [run_pure, Except.ok.injEq, Prod.mk.injEq] at h
                      rw [← h.1, ← h.2]
                      have e9 := (count_all cfg fuel).2.2.1 _ _ ⟨s.strm, s.numbytes, s.heap ++
                        [some ⟨structAlignment cfg hasfields maxlen, 0, 0, 0, some q⟩]⟩ _ _ hco h9
                      obtain ⟨-, -, hcells⟩ := align_frame cfg q _ fuel _ t9 h9
                      obtain ⟨m, hm, -⟩ := hcells s.heap.length _ (heap_get1 s.heap _)
                      exact ⟨e9, _, hm, rfl⟩
                    · cases h
                  · cases h
                · cases h
            · cases h
          · cases h
        · cases h
      · cases h
    · cases h
  · cases h


theorem free_inv (p : Nat) (s t : State) (u : Unit) (h : free p s = .ok (u, t)) :
    t.strm = s.strm := by
  unfold free at h
  split at h
  · cases h; rfl
  · cases h

theorem endstruct_count (cfg : Config) (fuel : Nat) (st : Option Nat) (s s2 : State) (u : Unit)
    (hco : s.strm.countonly = true) (h : endstruct cfg fuel st s = .ok (u, s2)) :
    s2.strm = s.strm := by
  obtain ⟨hcl, -, hal, -⟩ := count_all cfg fuel
  cases st with
  | none => cases h
  | some p =>
    unfold endstruct at h
    simp only [run_bind] at h
    split at h
    · next u1 t1 h1 =>
      have e1 := hcl _ _ _ _ hco h1
      split at h
      · next c t2 h2 =>
        obtain ⟨-, hsub⟩ := deref_inv p t1 t2 c h2
        subst hsub
        split at h
        · next u3 t3 h3 =>
          have e3 := hal _ _ _ _ _ (by rw [e1]; exact hco) h3
          split at h
          · next c4 t4 h4 =>
            obtain ⟨-, hsub⟩ := deref_inv p t3 t4 c4 h4
            subst hsub
            simp only [run_modify] at h
            cases hpar : c4.parent with
            | none =>
              simp only [hpar, run_pure] at h
              rw [free_inv p _ s2 u h]
              exact e3.trans e1
            | some q =>
              simp only [hpar, run_bind] at h
              split at h
              · next pc t5 h5 =>
                obtain ⟨-, hsub⟩ := deref_inv q _ t5 pc h5
                subst hsub
                split at h
                · next u6 t6 h6 =>
                  obtain ⟨hsub, -⟩ := store_inv q _ t6 _ u6 h6
                  subst hsub
                  rw [free_inv p _ s2 u h]
                  exact e3.trans e1
                · cases h
              · cases h
          · cases h
        · cases h
      · cases h
    · cases h

/-- C10 (as stated, refuted). A struct context that still holds bits read before
`startcount` hands them out in count-only mode: after `bread(3)` on the unit `0xFF`,
`startcount`, the next `bread(5)` returns 31, not 0. -/
theorem countonly_bread_counterexample :
    readAcrossStartcount msbCfg 8 (openOn [0xFF])
      = .ok ((7, 31), ⟨⟨0, true, some []⟩, 0, [some ⟨1, 1, 0, 0xFF, none⟩]⟩) := by
  decide

/-- C10 (amended). While `countonly` is set, every successful call of `zread`, `iread`,
`bread`, `align`, `startstruct` and `endstruct`, for every configuration, leaves `nzeroes`,
the file position and `countonly` unchanged; every byte `zread` delivers is zero and `iread`
returns 0; `bread` returns 0 whenever the context it reads from has `nbits = 0` or
`fieldbuf = 0` when called, as a context just returned by `startstruct` has. -/
theorem countonly_isolation (cfg : Config) (fuel : Nat) (s : State)
    (hco : s.strm.countonly = true) :
    (∀ len num st bs s2, zread cfg fuel len num st s = .ok (bs, s2) →
      s2.strm = s.strm ∧ bs = List.replicate (len * num) 0)
    ∧ (∀ buflen len st v s2, iread cfg fuel buflen len st s = .ok (v, s2) →
      s2.strm = s.strm ∧ v = 0)
    ∧ (∀ len st v s2, bread cfg fuel len st s = .ok (v, s2) →
      s2.strm = s.strm ∧ ∀ p c, st = some p → s.heap[p]? = some (some c) →
        (c.nbits = 0 ∨ c.fieldbuf = 0) → v = 0)
    ∧ (∀ st n u s2, align cfg fuel st n s = .ok (u, s2) → s2.strm = s.strm)
    ∧ (∀ parent hasfields maxlen p s2,
      startstruct cfg fuel parent hasfields maxlen s = .ok (p, s2) →
      s2.strm = s.strm ∧ ∃ c, s2.heap[p]? = some (some c) ∧ c.nbits = 0)
    ∧ (∀ st u s2, endstruct cfg fuel st s = .ok (u, s2) → s2.strm = s.strm) := by
  obtain ⟨-, -, hal, hz, hi, hb⟩ := count_all cfg fuel
  refine ⟨?_, ?_, ?_, ?_, ?_, ?_⟩
  · intro len num st bs s2 h
    exact hz len num st s bs s2 hco h
  · intro buflen len st v s2 h
    exact hi buflen len st s v s2 hco h
  · intro len st v s2 h
    exact hb len st s v s2 hco h
  · intro st n u s2 h
    exact hal st n s u s2 hco h
  · intro parent hasfields maxlen p s2 h
    exact startstruct_count cfg fuel parent hasfields maxlen s s2 p hco h
  · intro st u s2 h
    exact endstruct_count cfg fuel st s s2 u hco h

theorem countonly_isolation_witness :
    (⟨⟨3, true, some [9]⟩, 0, [some ⟨1, 1, 5, 0, none⟩]⟩ : State).strm
        = (⟨⟨3, true, some [9]⟩, 0, [some ⟨1, 0, 0, 7, none⟩]⟩ : State).strm
      ∧ ∀ p c, some 0 = some p →
        (⟨⟨3, true, some [9]⟩, 0, [some ⟨1, 0, 0, 7, none⟩]⟩ : State).heap[p]? = some (some c) →
        (c.nbits = 0 ∨ c.fieldbuf = 0) → 0 = 0 :=
  (countonly_isolation zcfg 8 ⟨⟨3, true, some [9]⟩, 0, [some ⟨1, 0, 0, 7, none⟩]⟩ rfl).2.2.1
    3 (some 0) 0 ⟨⟨3, true, some [9]⟩, 0, [some ⟨1, 1, 5, 0, none⟩]⟩ (by decide)

/-! ## End of file and the alignment domain -/

/-- C12. With the file open, `testeof` succeeds if and only if no input bytes remain and
`nzeroes = 0`, and then leaves the state as it is; it bails with "extra junk at end of file"
whenever one or more bytes remain, and with "file ends in middle of zerocomp run" when the
input is exhausted but `nzeroes > 0`. -/
theorem testeof_iff (s : State) (bs : List Nat) (hfp : s.strm.fp = some bs) :
    ((∃ r, testeof s = .ok r) ↔ bs = [] ∧ s.strm.nzeroes = 0)
    ∧ (bs = [] → s.strm.nzeroes = 0 → testeof s = .ok ((), s))
    ∧ (bs ≠ [] → testeof s = .error Err.extraJunk)
    ∧ (bs = [] → 0 < s.strm.nzeroes → testeof s = .error Err.midRun) := by
  cases bs with
  | nil =>
    by_cases hz : s.strm.nzeroes = 0
    · have h : testeof s = .ok ((), s) := by simp [testeof, hfp, hz]
      refine ⟨?_, fun _ _ => h, fun hne => absurd rfl hne, fun _ hpos => by omega⟩
      constructor
      · intro _
        exact ⟨rfl, hz⟩
      · intro _
        exact ⟨_, h⟩
    · have h : testeof s = .error Err.midRun := by simp [testeof, hfp, hz]
      refine ⟨?_, fun _ h0 => absurd h0 hz, fun hne => absurd rfl hne, fun _ _ => h⟩
      constructor
      · intro hr
        obtain ⟨r, hr⟩ := hr
        rw [h] at hr
        cases hr
      · intro hh
        exact absurd hh.2 hz
  | cons b rest =>
    have h : testeof s = .error Err.extraJunk := by simp [testeof, hfp]
    refine ⟨?_, ?_, fun _ => h, ?_⟩
    · constructor
      · intro hr
        obtain ⟨r, hr⟩ := hr
        rw [h] at hr
        cases hr
      · intro hh
        cases hh.1
    · intro hh
      cases hh
    · intro hh
      cases hh

theorem testeof_iff_witness :
    testeof ⟨⟨2, false, some []⟩, 0, []⟩ = .error Err.midRun :=
  (testeof_iff ⟨⟨2, false, some []⟩, 0, []⟩ [] rfl).2.2.2 rfl (by decide)

/-- C17. For every configuration in the accepted domains and every `hasfields` and `maxlen`
in `{1,2,4}`, the alignment `startstruct` computes is in `{1,2,4}`: the assertion on it
(line 140) passes in every state, and a call without a parent always returns. -/
theorem structAlignment_in_domain (cfg : Config) (hv : ValidConfig cfg) (hasfields : Bool)
    (maxlen : Nat) (hl : maxlen = 1 ∨ maxlen = 2 ∨ maxlen = 4) :
    (structAlignment cfg hasfields maxlen = 1 ∨ structAlignment cfg hasfields maxlen = 2
      ∨ structAlignment cfg hasfields maxlen = 4)
    ∧ (∀ s : State, cassert (structAlignment cfg hasfields maxlen == 1
        || structAlignment cfg hasfields maxlen == 2
        || structAlignment cfg hasfields maxlen == 4) s = .ok ((), s))
    ∧ (∀ fuel s, ∃ r, startstruct cfg fuel none hasfields maxlen s = .ok r) := by
  have ha := structAlignment_valid cfg hv hasfields maxlen hl
  refine ⟨ha, fun s => cassert_ok _ (in124_bool _ ha) s, fun fuel s => ?_⟩
  exact ⟨_, startstruct_none cfg hv hasfields maxlen hl fuel s⟩

theorem structAlignment_in_domain_witness :
    structAlignment packedCfg true 1 = 1 ∨ structAlignment packedCfg true 1 = 2
      ∨ structAlignment packedCfg true 1 = 4 :=
  (structAlignment_in_domain packedCfg
    ⟨Or.inr (Or.inr rfl), Or.inl rfl, Or.inl rfl, Or.inl rfl⟩ true 1 (Or.inl rfl)).1

/-! ## Accounting of `endstruct`, `startstruct` and `zread` -/

theorem heap_set_ne (h : List (Option struct_t)) (p q : Nat) (x : Option struct_t)
    (hpq : q ≠ p) : (h.set p x)[q]? = h[q]? := by
  rw [List.getElem?_set_ne (Ne.symm hpq)]

theorem heap_set_swap (h : List (Option struct_t)) (p q : Nat) (x y z : Option struct_t)
    (hpq : q ≠ p) : ((h.set p x).set q y).set p z = (h.set q y).set p z := by
  rw [List.set_comm x y h (Ne.symm hpq), List.set_set]

theorem pad_least (n b : Nat) (hn : n = 1 ∨ n = 2 ∨ n = 4) :
    n ∣ b + padding b n ∧ ∀ m, b ≤ m → n ∣ m → b + padding b n ≤ m := by
  unfold padding
  constructor
  · rcases hn with hn | hn | hn <;> subst hn <;> omega
  · intro m hm1 hm2
    rcases hn with hn | hn | hn <;> subst hn <;> omega

/-- C13 (as stated, refuted). A context with `nbytes = 2^32 - 1` and alignment 2 is padded by
one byte and its 32-bit count wraps: the recorded struct size is 0, not a multiple `≥ b`. -/
theorem endstruct_wrap_counterexample :
    endstruct zcfg 5 (some 0) wrapState = .ok ((), ⟨⟨0, true, none⟩, 0, [none]⟩)
    ∧ padding 4294967295 2 = 1 ∧ ¬ (4294967295 ≤ 0) := by
  decide

/-- C13 (amended). For a struct context with `nbytes = b` (a 32-bit counter), alignment `a`
in `{1,2,4}` and `nbits` within the unit, `endstruct` first drains the leftover bits without
touching the stream, then reads exactly `padding b a` bytes and records
`(b + padding b a) mod 2^32` as the last struct size, which is the least multiple of `a`
that is `≥ b` whenever it is below `2^32`; when a parent exists the parent's `nbytes` grows by
the recorded size modulo `2^32` and its `align`, `fieldbuf` and `nbits` stay as they are. -/
theorem endstruct_pads (cfg : Config) (hv : ValidConfig cfg) (f p : Nat) (s : State)
    (c : struct_t) (hc : s.heap[p]? = some (some c)) (hF : c.nbits ≤ unitBits cfg)
    (hb : c.nbytes < W32) (ha : c.align = 1 ∨ c.align = 2 ∨ c.align = 4) :
    clearfield cfg (f + 2) (some p) s
        = .ok ((), ⟨s.strm, s.numbytes, s.heap.set p (some { c with nbits := 0 })⟩)
    ∧ (c.parent = none →
        endstruct cfg (f + 5) (some p) s
          = (match zitems cfg 1 (padding c.nbytes c.align) s.strm with
            | .ok (_, t) =>
              .ok ((), ⟨t, (c.nbytes + padding c.nbytes c.align) % W32, s.heap.set p none⟩)
            | .error e => .error e))
    ∧ (∀ q pc, c.parent = some q → q ≠ p → s.heap[q]? = some (some pc) →
        endstruct cfg (f + 5) (some p) s
          = (match zitems cfg 1 (padding c.nbytes c.align) s.strm with
            | .ok (_, t) =>
              .ok ((), ⟨t, (c.nbytes + padding c.nbytes c.align) % W32,
                (s.heap.set q (some { pc with nbytes := (pc.nbytes
                  + (c.nbytes + padding c.nbytes c.align) % W32) % W32 })).set p none⟩)
            | .error e => .error e))
    ∧ (c.nbytes + padding c.nbytes c.align < W32 →
        (c.nbytes + padding c.nbytes c.align) % W32 = c.nbytes + padding c.nbytes c.align
        ∧ c.align ∣ c.nbytes + padding c.nbytes c.align
        ∧ ∀ m, c.nbytes ≤ m → c.align ∣ m → c.nbytes + padding c.nbytes c.align ≤ m) := by
  have hU := unitBits_le cfg hv
  have hm : MemberAlignOk cfg := hv.2.1
  have hspec := endstruct_spec cfg hm f p s c hc hF hU hb ha
  refine ⟨clearfield_spec cfg f p s c hc hF hU, ?_, ?_, ?_⟩
  · intro hpar
    rw [hspec, hpar]
  · intro q pc hpar hqp hq
    rw [hspec, hpar]
    cases zitems cfg 1 (padding c.nbytes c.align) s.strm with
    | error e => rfl
    | ok r =>
      obtain ⟨x, t⟩ := r
      simp only [heap_set_ne s.heap p q _ hqp, hq, heap_set_swap s.heap p q _ _ _ hqp]
  · intro hlt
    obtain ⟨h1, h2⟩ := pad_least c.align c.nbytes ha
    exact ⟨Nat.mod_eq_of_lt hlt, h1, h2⟩

theorem endstruct_pads_witness :
    endstruct plainCfg 5 (some 1)
        ⟨⟨0, false, some [7, 8, 9]⟩, 0, [some ⟨4, 4, 0, 0, none⟩, some ⟨2, 3, 5, 0, some 0⟩]⟩
      = .ok ((), ⟨⟨0, false, some [8, 9]⟩, 4, [some ⟨4, 8, 0, 0, none⟩, none]⟩) := by
  have h := (endstruct_pads plainCfg ⟨Or.inr (Or.inl rfl), Or.inr (Or.inr rfl), Or.inl rfl,
    Or.inl rfl⟩ 0 1
    ⟨⟨0, false, some [7, 8, 9]⟩, 0, [some ⟨4, 4, 0, 0, none⟩, some ⟨2, 3, 5, 0, some 0⟩]⟩
    ⟨2, 3, 5, 0, some 0⟩ rfl (by decide) (by decide) (Or.inr (Or.inl rfl))).2.2.1
    0 ⟨4, 4, 0, 0, none⟩ rfl (by decide) rfl
  rw [h]
  decide

theorem min_in124 (a b : Nat) (ha : a = 1 ∨ a = 2 ∨ a = 4) (hb : b = 1 ∨ b = 2 ∨ b = 4) :
    min a b = 1 ∨ min a b = 2 ∨ min a b = 4 := by
  rcases ha with h | h | h <;> rcases hb with h2 | h2 | h2 <;> subst h <;> subst h2 <;> decide

/-- C14 (as stated, refuted). First: the parent's alignment 4 is at least the child's
alignment 2, yet `startstruct` does not succeed, because the padding byte that brings the
parent from offset 1 to offset 2 cannot be read from the exhausted input. Second: in
count-only mode a parent at `nbytes = 2^32 - 1` is padded by one byte and wraps to 0. -/
theorem startstruct_parent_counterexample :
    startstruct plainCfg 5 (some 0) false 2 ⟨⟨0, false, some []⟩, 0, [some ⟨4, 1, 0, 0, none⟩]⟩
        = .error Err.unexpectedEof
    ∧ structAlignment plainCfg false 2 = 2
    ∧ startstruct zcfg 5 (some 0) false 2 wrapState
        = .ok (1, ⟨⟨0, true, none⟩, 0, [some ⟨2, 0, 0, 0, none⟩, some ⟨2, 0, 0, 0, some 0⟩]⟩)
    ∧ ¬ (4294967295 ≤ 0) := by
  decide

/-- C14 (amended). For a valid configuration, `startstruct` with a parent context fails its
assertion exactly when the parent's alignment is below the child's computed alignment `a`;
otherwise it reads `padding b a` bytes for the parent (`b` the parent's `nbytes`) and
succeeds exactly when those reads succeed, which is always the case in count-only mode. On
success the parent's `nbytes` is `(b + padding b a) mod 2^32`, the least multiple of `a` that
is `≥ b` whenever it is below `2^32`, and the child starts with `nbytes = 0`, `nbits = 0`. -/
theorem startstruct_parent (cfg : Config) (hv : ValidConfig cfg) (hasfields : Bool)
    (maxlen : Nat) (hl : maxlen = 1 ∨ maxlen = 2 ∨ maxlen = 4) (f q : Nat) (s : State)
    (pc : struct_t) (hq : s.heap[q]? = some (some pc)) (hb : pc.nbytes < W32) :
    (pc.align < structAlignment cfg hasfields maxlen →
        startstruct cfg (f + 5) (some q) hasfields maxlen s = .error Err.assertion)
    ∧ (structAlignment cfg hasfields maxlen ≤ pc.align →
        startstruct cfg (f + 5) (some q) hasfields maxlen s
          = (match zitems cfg 1 (padding pc.nbytes (structAlignment cfg hasfields maxlen))
                s.strm with
            | .ok (_, t) => .ok (s.heap.length, ⟨t, s.numbytes,
                s.heap.set q (some { pc with nbytes := (pc.nbytes
                  + padding pc.nbytes (structAlignment cfg hasfields maxlen)) % W32 })
                ++ [some ⟨structAlignment cfg hasfields maxlen, 0, 0, 0, some q⟩]⟩)
            | .error e => .error e))
    ∧ (s.strm.countonly = true →
        ((∃ r, startstruct cfg (f + 5) (some q) hasfields maxlen s = .ok r)
          ↔ structAlignment cfg hasfields maxlen ≤ pc.align))
    ∧ (pc.nbytes + padding pc.nbytes (structAlignment cfg hasfields maxlen) < W32 →
        (pc.nbytes + padding pc.nbytes (structAlignment cfg hasfields maxlen)) % W32
          = pc.nbytes + padding pc.nbytes (structAlignment cfg hasfields maxlen)
        ∧ structAlignment cfg hasfields maxlen
          ∣ pc.nbytes + padding pc.nbytes (structAlignment cfg hasfields maxlen)
        ∧ ∀ m, pc.nbytes ≤ m → structAlignment cfg hasfields maxlen ∣ m →
          pc.nbytes + padding pc.nbytes (structAlignment cfg hasfields maxlen) ≤ m) := by
  have ha := structAlignment_valid cfg hv hasfields maxlen hl
  have hm : MemberAlignOk cfg := hv.2.1
  have hlen : q < s.heap.length := by
    by_contra hcon
    rw [List.getElem?_eq_none (by omega)] at hq
    cases hq
  have hq2 : (s.heap ++ [some ⟨structAlignment cfg hasfields maxlen, 0, 0, 0, some q⟩])[q]?
      = some (some pc) := by
    rw [List.getElem?_append_left hlen, hq]
  have hd := deref_ok q ⟨s.strm, s.numbytes,
    s.heap ++ [some ⟨structAlignment cfg hasfields maxlen, 0, 0, 0, some q⟩]⟩ pc hq2
  have hspec := startstruct_some cfg hv hasfields maxlen hl (f + 5) q s
  rw [hd] at hspec
  simp only [] at hspec
  have hlo : pc.align < structAlignment cfg hasfields maxlen →
      startstruct cfg (f + 5) (some q) hasfields maxlen s = .error Err.assertion := by
    intro hlt
    rw [hspec, if_neg (by omega)]
  have hhi : structAlignment cfg hasfields maxlen ≤ pc.align →
      startstruct cfg (f + 5) (some q) hasfields maxlen s
        = (match zitems cfg 1 (padding pc.nbytes (structAlignment cfg hasfields maxlen))
              s.strm with
          | .ok (_, t) => .ok (s.heap.length, ⟨t, s.numbytes,
              s.heap.set q (some { pc with nbytes := (pc.nbytes
                + padding pc.nbytes (structAlignment cfg hasfields maxlen)) % W32 })
              ++ [some ⟨structAlignment cfg hasfields maxlen, 0, 0, 0, some q⟩]⟩)
          | .error e => .error e) := by
    intro hge
    rw [hspec, if_pos hge, align_spec cfg hm (f + 5) q _ ha _ pc hq2 hb (by omega)]
    simp only []
    cases zitems cfg 1 (padding pc.nbytes (structAlignment cfg hasfields maxlen)) s.strm with
    | error e => rfl
    | ok r =>
      obtain ⟨x, t⟩ := r
      simp only [List.set_append_left _ _ hlen]
  refine ⟨hlo, hhi, ?_, ?_⟩
  · intro hco
    constructor
    · intro hr
      obtain ⟨r, hr⟩ := hr
      by_contra hcon
      rw [hlo (by omega)] at hr
      cases hr
    · intro hge
      rw [hhi hge, zitems_countonly cfg _ _ _ hco]
      exact ⟨_, rfl⟩
  · intro hlt
    obtain ⟨h1, h2⟩ := pad_least _ pc.nbytes ha
    exact ⟨Nat.mod_eq_of_lt hlt, h1, h2⟩

theorem startstruct_parent_witness :
    startstruct plainCfg 5 (some 0) false 2
        ⟨⟨0, false, some [9, 8]⟩, 0, [some ⟨4, 1, 0, 0, none⟩]⟩
      = .ok (1, ⟨⟨0, false, some [8]⟩, 0,
          [some ⟨4, 2, 0, 0, none⟩, some ⟨2, 0, 0, 0, some 0⟩]⟩) := by
  have h := (startstruct_parent plainCfg ⟨Or.inr (Or.inl rfl), Or.inr (Or.inr rfl), Or.inl rfl,
    Or.inl rfl⟩ false 2 (Or.inr (Or.inl rfl)) 0 0
    ⟨⟨0, false, some [9, 8]⟩, 0, [some ⟨4, 1, 0, 0, none⟩]⟩ ⟨4, 1, 0, 0, none⟩ rfl
    (by decide)).2.1 (by decide)
  rw [h]
  decide

/-- C15 (as stated, refuted). In count-only mode a context with `nbytes = 2^32 - 1` that
reads one 1-byte item ends with `nbytes = 0`, not `roundup(2^32 - 1, 1) + 1`. -/
theorem zread_wrap_counterexample :
    zread zcfg 6 1 1 (some 0) wrapState
        = .ok ([0], ⟨⟨0, true, none⟩, 0, [some ⟨2, 0, 0, 0, none⟩]⟩)
    ∧ padding 4294967295 (min zcfg.memberalign 1) = 0
    ∧ ¬ (0 = 4294967295 + 0 + 1 * 1) := by
  decide

/-- C15 (amended). For a valid configuration, a context with `nbytes = b` (a 32-bit counter)
and `nbits` within the unit, `len` in `{1,2,4}` and `num > 0`, `zread` drops the leftover bits
(`nbits = 0` afterwards), reads `padding b (min memberalign len)` padding bytes and then
`len * num` data bytes, and sets `nbytes` to `b + padding + len * num` modulo `2^32`; when
that sum is below `2^32` it equals `roundup(b, min memberalign len) + len * num`, and the
number of decoded bytes taken equals the increase. An `iread` with a context is the same
`zread` with `num = 1`. -/
theorem zread_accounting (cfg : Config) (hv : ValidConfig cfg) (f len num p : Nat) (s : State)
    (c : struct_t) (hc : s.heap[p]? = some (some c)) (hF : c.nbits ≤ unitBits cfg)
    (hb : c.nbytes < W32) (hl : len = 1 ∨ len = 2 ∨ len = 4) (hn : 0 < num) :
    zread cfg (f + 6) len num (some p) s
      = (match zitems cfg 1 (padding c.nbytes (min cfg.memberalign len)) s.strm with
        | .ok (_, t) => (match zitems cfg len num t with
          | .ok (bs, u) => .ok (bs, ⟨u, s.numbytes, s.heap.set p (some ⟨c.align,
              ((c.nbytes + padding c.nbytes (min cfg.memberalign len)) % W32
                + (len * num) % W32) % W32, 0, c.fieldbuf, c.parent⟩)⟩)
          | .error e => .error e)
        | .error e => .error e)
    ∧ (∀ x t bs u, zitems cfg 1 (padding c.nbytes (min cfg.memberalign len)) s.strm = .ok (x, t)
        → zitems cfg len num t = .ok (bs, u)
        → x.length + bs.length = padding c.nbytes (min cfg.memberalign len) + len * num)
    ∧ (c.nbytes + padding c.nbytes (min cfg.memberalign len) + len * num < W32 →
        ((c.nbytes + padding c.nbytes (min cfg.memberalign len)) % W32
            + (len * num) % W32) % W32
          = c.nbytes + padding c.nbytes (min cfg.memberalign len) + len * num
        ∧ min cfg.memberalign len ∣ c.nbytes + padding c.nbytes (min cfg.memberalign len)
        ∧ ∀ m, c.nbytes ≤ m → min cfg.memberalign len ∣ m →
          c.nbytes + padding c.nbytes (min cfg.memberalign len) ≤ m)
    ∧ (∀ buflen, buflen = 1 ∨ buflen = 2 ∨ buflen = 4 → len ≤ buflen →
        iread cfg (f + 7) buflen len (some p) s
          = (match zread cfg (f + 6) len 1 (some p) s with
            | .ok (bs, s1) => .ok (narrow buflen (wordOf cfg len bs), s1)
            | .error e => .error e)) := by
  have hm : MemberAlignOk cfg := hv.2.1
  refine ⟨?_, ?_, ?_, ?_⟩
  · exact zread_some cfg hm f len num p s c hc hF (unitBits_le cfg hv) hb hl hn
  · intro x t bs u h1 h2
    have e1 := (zitems_bytes cfg _ _ _ _ _ h1).1
    have e2 := (zitems_bytes cfg _ _ _ _ _ h2).1
    omega
  · intro hlt
    obtain ⟨h1, h2⟩ := pad_least _ c.nbytes (min_in124 _ _ hm hl)
    refine ⟨?_, h1, h2⟩
    have e1 : (c.nbytes + padding c.nbytes (min cfg.memberalign len)) % W32
        = c.nbytes + padding c.nbytes (min cfg.memberalign len) := Nat.mod_eq_of_lt (by omega)
    have e2 : (len * num) % W32 = len * num := Nat.mod_eq_of_lt (by omega)
    rw [e1, e2]
    exact Nat.mod_eq_of_lt hlt
  · intro buflen hbl hge
    exact iread_eq cfg (f + 6) buflen len (some p) s hbl hl hge

theorem zread_accounting_witness :
    zread plainCfg 6 2 2 (some 0)
        ⟨⟨0, false, some [1, 2, 3, 4, 5, 6]⟩, 0, [some ⟨4, 1, 3, 9, none⟩]⟩
      = .ok ([2, 3, 4, 5], ⟨⟨0, false, some [6]⟩, 0, [some ⟨4, 6, 0, 9, none⟩]⟩) := by
  have h := (zread_accounting plainCfg ⟨Or.inr (Or.inl rfl), Or.inr (Or.inr rfl), Or.inl rfl,
    Or.inl rfl⟩ 0 2 2 0
    ⟨⟨0, false, some [1, 2, 3, 4, 5, 6]⟩, 0, [some ⟨4, 1, 3, 9, none⟩]⟩ ⟨4, 1, 3, 9, none⟩ rfl
    (by decide) (by decide) (Or.inr (Or.inl rfl)) (by decide)).1
  rw [h]
  decide

/-! ## Bitfield refills: fuel, fresh units and spans -/

theorem eread_ne_fuel (len : Nat) (s : Stream) : eread len s ≠ .error Err.outOfFuel := by
  unfold eread
  intro h
  split at h
  · cases h
  · split at h
    · cases h
    · split at h <;> cases h

theorem zbyte_ne_fuel (s : Stream) : zbyte s ≠ .error Err.outOfFuel := by
  intro h
  simp only [zbyte, run_bind, run_get] at h
  split at h
  · simp at h
  · simp only [run_bind] at h
    cases h1 : eread 1 s with
    | error e =>
      rw [h1] at h
      simp only [] at h
      injection h with h
      subst h
      exact eread_ne_fuel 1 s h1
    | ok r =>
      obtain ⟨b, t⟩ := r
      rw [h1] at h
      simp only [] at h
      split at h
      · simp only [run_bind] at h
        cases h2 : eread 1 t with
        | error e =>
          rw [h2] at h
          simp only [] at h
          injection h with h
          subst h
          exact eread_ne_fuel 1 t h2
        | ok r2 =>
          rw [h2] at h
          simp at h
      · simp at h

theorem zbytes_ne_fuel (n : Nat) (s : Stream) : zbytes n s ≠ .error Err.outOfFuel := by
  induction n generalizing s with
  | zero => simp [zbytes]
  | succ n ih =>
    intro h
    simp only [zbytes, run_bind, run_pure] at h
    cases h1 : zbyte s with
    | error e =>
      rw [h1] at h
      simp only [] at h
      injection h with h
      subst h
      exact zbyte_ne_fuel s h1
    | ok r =>
      obtain ⟨b, t⟩ := r
      rw [h1] at h
      simp only [] at h
      cases h2 : zbytes n t with
      | error e =>
        rw [h2] at h
        simp only [] at h
        injection h with h
        subst h
        exact ih t h2
      | ok r2 =>
        rw [h2] at h
        simp at h

theorem zitem_ne_fuel (cfg : Config) (len : Nat) (s : Stream) :
    zitem cfg len s ≠ .error Err.outOfFuel := by
  intro h
  simp only [zitem, run_bind, run_get] at h
  split at h
  · simp at h
  · split at h
    · exact zbytes_ne_fuel len s h
    · exact eread_ne_fuel len s h

theorem zitems_ne_fuel (cfg : Config) (len num : Nat) (s : Stream) :
    zitems cfg len num s ≠ .error Err.outOfFuel := by
  induction num generalizing s with
  | zero => simp [zitems]
  | succ n ih =>
    intro h
    simp only [zitems, run_bind, run_pure] at h
    cases h1 : zitem cfg len s with
    | error e =>
      rw [h1] at h
      simp only [] at h
      injection h with h
      subst h
      exact zitem_ne_fuel cfg len s h1
    | ok r =>
      obtain ⟨b, t⟩ := r
      rw [h1] at h
      simp only [] at h
      cases h2 : zitems cfg len n t with
      | error e =>
        rw [h2] at h
        simp only [] at h
        injection h with h
        subst h
        exact ih t h2
      | ok r2 =>
        rw [h2] at h
        simp at h

theorem fieldBits_eq (cfg : Config) (c : struct_t) (len : Nat) (h : len ≤ 32) :
    fieldBits cfg c len = if cfg.fieldMSB then c.fieldbuf / 2 ^ (c.nbits - len) % 2 ^ len
      else c.fieldbuf / 2 ^ (unitBits cfg - c.nbits) % 2 ^ len := by
  unfold fieldBits
  rw [shr_mask _ _ _ h, shr_mask _ _ _ h]

theorem pow256 (n : Nat) : 256 ^ n = 2 ^ (n * 8) := by
  rw [Nat.mul_comm, Nat.pow_mul]

theorem unit_word (cfg : Config) (hv : ValidConfig cfg) (bs : List Nat)
    (hlen : bs.length = cfg.fieldsz * 1) (hb : ∀ b ∈ bs, b < 256) :
    narrow 4 (wordOf cfg cfg.fieldsz bs) = wordOf cfg cfg.fieldsz bs
    ∧ wordOf cfg cfg.fieldsz bs < 2 ^ unitBits cfg := by
  have hfs : cfg.fieldsz = 1 ∨ cfg.fieldsz = 2 ∨ cfg.fieldsz = 4 := hv.1
  have hlt := wordOf_lt cfg cfg.fieldsz bs hfs (by omega) hb
  refine ⟨narrow_id 4 cfg.fieldsz _ (Or.inr (Or.inr rfl)) hfs
    (by rcases hfs with h | h | h <;> omega) hlt, ?_⟩
  rw [unitBits_eq cfg hv, ← pow256]
  exact hlt

theorem fresh_bits (cfg : Config) (w len a n : Nat) (par2 : Option Nat)
    (hw : w < 2 ^ unitBits cfg) (hle : len ≤ unitBits cfg) (hU : unitBits cfg ≤ 32) :
    fieldBits cfg ⟨a, n, unitBits cfg, w, par2⟩ len
      = if cfg.fieldMSB then w / 2 ^ (unitBits cfg - len) else w % 2 ^ len := by
  rw [fieldBits_eq _ _ _ (by omega)]
  simp only [Nat.sub_self, Nat.pow_zero, Nat.div_one]
  split
  · apply Nat.mod_eq_of_lt
    rw [Nat.div_lt_iff_lt_mul (Nat.pos_pow_of_pos _ (by decide)), ← Nat.pow_add]
    rw [show len + (unitBits cfg - len) = unitBits cfg by omega]
    exact hw
  · rfl

theorem bread_unit (cfg : Config) (hv : ValidConfig cfg) (f len p : Nat) (s : State)
    (c : struct_t) (hc : s.heap[p]? = some (some c)) (hlen : 0 < len) (hlt : c.nbits < len)
    (hle : len ≤ unitBits cfg) (hns : c.nbits = 0 ∨ cfg.fieldspan = false)
    (hb : c.nbytes < W32) :
    bread cfg (f + 8) len (some p) s
      = (match zitems cfg 1 (padding c.nbytes (min cfg.memberalign cfg.fieldsz)) s.strm with
        | .ok (_, t) => (match zitems cfg cfg.fieldsz 1 t with
          | .ok (bs, u) =>
            .ok (if cfg.fieldMSB then wordOf cfg cfg.fieldsz bs / 2 ^ (unitBits cfg - len)
                else wordOf cfg cfg.fieldsz bs % 2 ^ len,
              ⟨u, s.numbytes, s.heap.set p (some ⟨c.align,
                  ((c.nbytes + padding c.nbytes (min cfg.memberalign cfg.fieldsz)) % W32
                    + (cfg.fieldsz * 1) % W32) % W32,
                  unitBits cfg - len, wordOf cfg cfg.fieldsz bs, c.parent⟩)⟩)
          | .error e => .error e)
        | .error e => .error e) := by
  rw [bread_fresh cfg hv f len p s c hc hlen hlt hle hns hb]
  cases h1 : zitems cfg 1 (padding c.nbytes (min cfg.memberalign cfg.fieldsz)) s.strm with
  | error e => rfl
  | ok r =>
    obtain ⟨x, t⟩ := r
    simp only []
    cases h2 : zitems cfg cfg.fieldsz 1 t with
    | error e => rfl
    | ok r2 =>
      obtain ⟨bs, u⟩ := r2
      simp only []
      obtain ⟨hl, hbs⟩ := zitems_bytes cfg _ _ _ _ _ h2
      obtain ⟨hn, hw⟩ := unit_word cfg hv bs hl hbs
      rw [hn, fresh_bits cfg _ len _ _ _ hw hle (unitBits_le cfg hv)]

theorem bread_unit_ne_fuel (cfg : Config) (hv : ValidConfig cfg) (f len p : Nat) (s : State)
    (c : struct_t) (hc : s.heap[p]? = some (some c)) (hlen : 0 < len) (hlt : c.nbits < len)
    (hle : len ≤ unitBits cfg) (hns : c.nbits = 0 ∨ cfg.fieldspan = false)
    (hb : c.nbytes < W32) :
    bread cfg (f + 8) len (some p) s ≠ .error Err.outOfFuel := by
  rw [bread_unit cfg hv f len p s c hc hlen hlt hle hns hb]
  cases h1 : zitems cfg 1 (padding c.nbytes (min cfg.memberalign cfg.fieldsz)) s.strm with
  | error e =>
    intro h
    injection h with h
    subst h
    exact zitems_ne_fuel _ _ _ _ h1
  | ok r =>
    obtain ⟨x, t⟩ := r
    simp only []
    cases h2 : zitems cfg cfg.fieldsz 1 t with
    | error e =>
      intro h
      injection h with h
      subst h
      exact zitems_ne_fuel _ _ _ _ h2
    | ok r2 =>
      intro h
      cases h

/-- C16. With `fieldspan` off, `0 < nbits < len ≤ unit * 8`, `bread` returns a value and a
context in which neither the old `fieldbuf` nor the old `nbits` occurs: it reads the padding
to `min memberalign fieldsz`, then exactly one fresh unit `w`, returns the top `len` bits of
`w` when `fieldMSB` and the low `len` bits otherwise, and leaves `nbits = unit * 8 - len`. -/
theorem bread_discards_leftover (cfg : Config) (hv : ValidConfig cfg) (f len p : Nat)
    (s : State) (c : struct_t) (hc : s.heap[p]? = some (some c))
    (hsp : cfg.fieldspan = false) (hpos : 0 < c.nbits) (hlt : c.nbits < len)
    (hle : len ≤ unitBits cfg) (hb : c.nbytes < W32) :
    bread cfg (f + 8) len (some p) s
      = (match zitems cfg 1 (padding c.nbytes (min cfg.memberalign cfg.fieldsz)) s.strm with
        | .ok (_, t) => (match zitems cfg cfg.fieldsz 1 t with
          | .ok (bs, u) =>
            .ok (if cfg.fieldMSB then wordOf cfg cfg.fieldsz bs / 2 ^ (unitBits cfg - len)
                else wordOf cfg cfg.fieldsz bs % 2 ^ len,
              ⟨u, s.numbytes, s.heap.set p (some ⟨c.align,
                  ((c.nbytes + padding c.nbytes (min cfg.memberalign cfg.fieldsz)) % W32
                    + (cfg.fieldsz * 1) % W32) % W32,
                  unitBits cfg - len, wordOf cfg cfg.fieldsz bs, c.parent⟩)⟩)
          | .error e => .error e)
        | .error e => .error e)
    ∧ (∀ t bs u, zitems cfg cfg.fieldsz 1 t = .ok (bs, u) →
        bs.length = cfg.fieldsz ∧ wordOf cfg cfg.fieldsz bs < 2 ^ unitBits cfg
        ∧ wordOf cfg cfg.fieldsz bs / 2 ^ (unitBits cfg - len) < 2 ^ len)
    ∧ unitBits cfg = cfg.fieldsz * 8 := by
  refine ⟨bread_unit cfg hv f len p s c hc (by omega) hlt hle (Or.inr hsp) hb, ?_,
    unitBits_eq cfg hv⟩
  intro t bs u h2
  obtain ⟨hl, hbs⟩ := zitems_bytes cfg _ _ _ _ _ h2
  obtain ⟨_, hw⟩ := unit_word cfg hv bs hl hbs
  refine ⟨by omega, hw, ?_⟩
  rw [Nat.div_lt_iff_lt_mul (Nat.pos_pow_of_pos _ (by decide)), ← Nat.pow_add,
    show len + (unitBits cfg - len) = unitBits cfg by omega]
  exact hw

theorem bread_discards_leftover_witness :
    bread msbCfg 8 7 (some 0) ⟨⟨0, false, some [172, 1]⟩, 0, [some ⟨1, 1, 3, 255, none⟩]⟩
      = .ok (86, ⟨⟨0, false, some [1]⟩, 0, [some ⟨1, 2, 1, 172, none⟩]⟩) := by
  have h := (bread_discards_leftover msbCfg ⟨Or.inl rfl, Or.inr (Or.inr rfl), Or.inl rfl,
    Or.inl rfl⟩ 0 7 0 ⟨⟨0, false, some [172, 1]⟩, 0, [some ⟨1, 1, 3, 255, none⟩]⟩
    ⟨1, 1, 3, 255, none⟩ rfl rfl (by decide) (by decide) (by decide) (by decide)).1
  rw [h]
  decide

theorem bread_span_unit (cfg : Config) (hv : ValidConfig cfg) (f len p : Nat) (s : State)
    (c : struct_t) (hc : s.heap[p]? = some (some c)) (hpos : 0 < c.nbits)
    (hlt : c.nbits < len) (hle : len ≤ unitBits cfg) (hsp : cfg.fieldspan = true)
    (hb : c.nbytes < W32) :
    bread cfg (f + 9) len (some p) s
      = (match zitems cfg 1 (padding c.nbytes (min cfg.memberalign cfg.fieldsz)) s.strm with
        | .ok (_, t) => (match zitems cfg cfg.fieldsz 1 t with
          | .ok (bs, u) =>
            .ok (if cfg.fieldMSB then
                  ((fieldBits cfg c c.nbits <<< (len - c.nbits)) % W32)
                    ||| (wordOf cfg cfg.fieldsz bs / 2 ^ (unitBits cfg - (len - c.nbits)))
                else (((wordOf cfg cfg.fieldsz bs % 2 ^ (len - c.nbits)) <<< c.nbits) % W32)
                    ||| fieldBits cfg c c.nbits,
              ⟨u, s.numbytes, s.heap.set p (some ⟨c.align,
                  ((c.nbytes + padding c.nbytes (min cfg.memberalign cfg.fieldsz)) % W32
                    + (cfg.fieldsz * 1) % W32) % W32,
                  unitBits cfg - (len - c.nbits), wordOf cfg cfg.fieldsz bs, c.parent⟩)⟩)
          | .error e => .error e)
        | .error e => .error e) := by
  rw [bread_span cfg (f + 8) len p s c hc hpos hlt hle (unitBits_le cfg hv) hsp,
    bread_unit cfg hv f (len - c.nbits) p
      ⟨s.strm, s.numbytes, s.heap.set p (some { c with nbits := 0 })⟩ { c with nbits := 0 }
      (heap_set_get _ _ _ _ hc) (by omega) (by show 0 < len - c.nbits; omega) (by omega)
      (Or.inl rfl) hb]
  cases zitems cfg 1 (padding c.nbytes (min cfg.memberalign cfg.fieldsz)) s.strm with
  | error e => rfl
  | ok r =>
    obtain ⟨x, t⟩ := r
    simp only []
    cases zitems cfg cfg.fieldsz 1 t with
    | error e => rfl
    | ok r2 =>
      obtain ⟨bs, u⟩ := r2
      simp only [heap_set_set]
      cases cfg.fieldMSB <;> rfl

theorem bread_span_ne_fuel (cfg : Config) (hv : ValidConfig cfg) (f len p : Nat) (s : State)
    (c : struct_t) (hc : s.heap[p]? = some (some c)) (hpos : 0 < c.nbits)
    (hlt : c.nbits < len) (hle : len ≤ unitBits cfg) (hsp : cfg.fieldspan = true)
    (hb : c.nbytes < W32) :
    bread cfg (f + 9) len (some p) s ≠ .error Err.outOfFuel := by
  rw [bread_span_unit cfg hv f len p s c hc hpos hlt hle hsp hb]
  cases h1 : zitems cfg 1 (padding c.nbytes (min cfg.memberalign cfg.fieldsz)) s.strm with
  | error e =>
    intro h
    injection h with h
    subst h
    exact zitems_ne_fuel _ _ _ _ h1
  | ok r =>
    obtain ⟨x, t⟩ := r
    simp only []
    cases h2 : zitems cfg cfg.fieldsz 1 t with
    | error e =>
      intro h
      injection h with h
      subst h
      exact zitems_ne_fuel _ _ _ _ h2
    | ok r2 =>
      intro h
      cases h

/-- C18. For a valid configuration and a context with `nbits ≤ unit * 8`, `bread` with
`0 < len ≤ unit * 8` needs at most 9 units of fuel whatever the state: more fuel gives the
same result, and the result is never the out-of-fuel error. When `len ≤ nbits` it reads
nothing; otherwise, without a span, it pads and reads exactly one unit; with a span its one
self-call runs on the context with `nbits = 0` and `0 < len - nbits`, which takes the
non-spanning refill and so pulls exactly one unit. The `bread` reached from `clearfield`
(through `iread` and `zread`) only drains: `clearfield` leaves the stream as it is. -/
theorem bread_terminates (cfg : Config) (hv : ValidConfig cfg) (len p : Nat) (s : State)
    (c : struct_t) (hc : s.heap[p]? = some (some c)) (hF : c.nbits ≤ unitBits cfg)
    (hb : c.nbytes < W32) (hlen : 0 < len) (hle : len ≤ unitBits cfg) :
    (∀ f, bread cfg (f + 9) len (some p) s = bread cfg 9 len (some p) s)
    ∧ bread cfg 9 len (some p) s ≠ .error Err.outOfFuel
    ∧ (len ≤ c.nbits → bread cfg 9 len (some p) s
        = .ok (fieldBits cfg c len, ⟨s.strm, s.numbytes,
            s.heap.set p (some { c with nbits := c.nbits - len })⟩))
    ∧ (c.nbits < len → (c.nbits = 0 ∨ cfg.fieldspan = false) → bread cfg 9 len (some p) s
        = (match zitems cfg 1 (padding c.nbytes (min cfg.memberalign cfg.fieldsz)) s.strm with
          | .ok (_, t) => (match zitems cfg cfg.fieldsz 1 t with
            | .ok (bs, u) =>
              .ok (if cfg.fieldMSB then wordOf cfg cfg.fieldsz bs / 2 ^ (unitBits cfg - len)
                  else wordOf cfg cfg.fieldsz bs % 2 ^ len,
                ⟨u, s.numbytes, s.heap.set p (some ⟨c.align,
                    ((c.nbytes + padding c.nbytes (min cfg.memberalign cfg.fieldsz)) % W32
                      + (cfg.fieldsz * 1) % W32) % W32,
                    unitBits cfg - len, wordOf cfg cfg.fieldsz bs, c.parent⟩)⟩)
            | .error e => .error e)
          | .error e => .error e))
    ∧ (0 < c.nbits → c.nbits < len → cfg.fieldspan = true →
        bread cfg 9 len (some p) s
          = (match bread cfg 8 (len - c.nbits) (some p)
                ⟨s.strm, s.numbytes, s.heap.set p (some { c with nbits := 0 })⟩ with
            | .ok (spanval, s2) =>
              .ok (if cfg.fieldMSB then
                    ((fieldBits cfg c c.nbits <<< (len - c.nbits)) % W32) ||| spanval
                  else ((spanval <<< c.nbits) % W32) ||| fieldBits cfg c c.nbits, s2)
            | .error e => .error e)
        ∧ bread cfg 8 (len - c.nbits) (some p)
              ⟨s.strm, s.numbytes, s.heap.set p (some { c with nbits := 0 })⟩
          = (match zitems cfg 1 (padding c.nbytes (min cfg.memberalign cfg.fieldsz)) s.strm with
            | .ok (_, t) => (match zitems cfg cfg.fieldsz 1 t with
              | .ok (bs, u) =>
                .ok (if cfg.fieldMSB then
                      wordOf cfg cfg.fieldsz bs / 2 ^ (unitBits cfg - (len - c.nbits))
                    else wordOf cfg cfg.fieldsz bs % 2 ^ (len - c.nbits),
                  ⟨u, s.numbytes, s.heap.set p (some ⟨c.align,
                      ((c.nbytes + padding c.nbytes (min cfg.memberalign cfg.fieldsz)) % W32
                        + (cfg.fieldsz * 1) % W32) % W32,
                      unitBits cfg - (len - c.nbits), wordOf cfg cfg.fieldsz bs, c.parent⟩)⟩)
              | .error e => .error e)
            | .error e => .error e))
    ∧ (∀ f, clearfield cfg (f + 2) (some p) s
        = .ok ((), ⟨s.strm, s.numbytes, s.heap.set p (some { c with nbits := 0 })⟩)) := by
  have hU := unitBits_le cfg hv
  refine ⟨?_, ?_, ?_, ?_, ?_, fun f => clearfield_spec cfg f p s c hc hF hU⟩
  · intro f
    by_cases h1 : len ≤ c.nbits
    · rw [bread_extract cfg (f + 8) len p s c hc hlen h1 hF hU,
        bread_extract cfg 8 len p s c hc hlen h1 hF hU]
    · by_cases h2 : c.nbits = 0 ∨ cfg.fieldspan = false
      · rw [bread_unit cfg hv (f + 1) len p s c hc hlen (by omega) hle h2 hb,
          bread_unit cfg hv 1 len p s c hc hlen (by omega) hle h2 hb]
      · have h3 : 0 < c.nbits := by
          by_contra hcon
          exact h2 (Or.inl (by omega))
        have h4 : cfg.fieldspan = true := by
          cases hs : cfg.fieldspan
          · exact absurd (Or.inr hs) h2
          · rfl
        rw [bread_span_unit cfg hv f len p s c hc h3 (by omega) hle h4 hb,
          bread_span_unit cfg hv 0 len p s c hc h3 (by omega) hle h4 hb]
  · by_cases h1 : len ≤ c.nbits
    · rw [bread_extract cfg 8 len p s c hc hlen h1 hF hU]
      intro h
      cases h
    · by_cases h2 : c.nbits = 0 ∨ cfg.fieldspan = false
      · exact bread_unit_ne_fuel cfg hv 1 len p s c hc hlen (by omega) hle h2 hb
      · have h3 : 0 < c.nbits := by
          by_contra hcon
          exact h2 (Or.inl (by omega))
        have h4 : cfg.fieldspan = true := by
          cases hs : cfg.fieldspan
          · exact absurd (Or.inr hs) h2
          · rfl
        exact bread_span_ne_fuel cfg hv 0 len p s c hc h3 (by omega) hle h4 hb
  · intro h1
    exact bread_extract cfg 8 len p s c hc hlen h1 hF hU
  · intro h1 h2
    exact bread_unit cfg hv 1 len p s c hc hlen h1 hle h2 hb
  · intro h3 h1 h4
    refine ⟨bread_span cfg 8 len p s c hc h3 h1 hle hU h4, ?_⟩
    have h := bread_unit cfg hv 0 (len - c.nbits) p
      ⟨s.strm, s.numbytes, s.heap.set p (some { c with nbits := 0 })⟩ { c with nbits := 0 }
      (heap_set_get _ _ _ _ hc) (by omega) (by show 0 < len - c.nbits; omega) (by omega)
      (Or.inl rfl) hb
    simp only [heap_set_set] at h
    exact h

theorem bread_terminates_witness :
    bread spanLsbCfg 9 6 (some 0)
        ⟨⟨0, false, some [255, 1]⟩, 0, [some ⟨1, 1, 3, 160, none⟩]⟩
      ≠ .error Err.outOfFuel :=
  (bread_terminates spanLsbCfg ⟨Or.inl rfl, Or.inr (Or.inr rfl), Or.inl rfl, Or.inl rfl⟩ 6 0
    ⟨⟨0, false, some [255, 1]⟩, 0, [some ⟨1, 1, 3, 160, none⟩]⟩ ⟨1, 1, 3, 160, none⟩ rfl
    (by decide) (by decide) (by decide) (by decide)).2.1

/-! ## Joining two adjacent bitfield reads -/

theorem mod_split (q a b : Nat) : q % 2 ^ (a + b) = q % 2 ^ a + 2 ^ a * (q / 2 ^ a % 2 ^ b) := by
  rw [Nat.pow_add, Nat.mod_mul]

theorem div_pow_add (w i j : Nat) : w / 2 ^ i / 2 ^ j = w / 2 ^ (i + j) := by
  rw [Nat.div_div_eq_div_mul, ← Nat.pow_add]

theorem lt_pow_join (h l m k : Nat) (hh : h < 2 ^ m) (hl : l < 2 ^ k) :
    h * 2 ^ k + l < 2 ^ (m + k) := by
  have h1 : (h + 1) * 2 ^ k ≤ 2 ^ m * 2 ^ k := Nat.mul_le_mul_right _ hh
  rw [Nat.pow_add]
  rw [Nat.add_mul] at h1
  omega

theorem top_lt (u U k : Nat) (hu : u < 2 ^ U) (hk : k ≤ U) : u / 2 ^ (U - k) < 2 ^ k := by
  rw [Nat.div_lt_iff_lt_mul (Nat.pos_pow_of_pos _ (by decide)), ← Nat.pow_add,
    show k + (U - k) = U by omega]
  exact hu

theorem or_shl_high (x y b : Nat) (hy : y < 2 ^ b) : (x <<< b) ||| y = x * 2 ^ b + y := by
  rw [Nat.shiftLeft_eq, Nat.or_comm, or_low b y x hy, Nat.add_comm]

theorem or_shl_low (x y a : Nat) (hx : x < 2 ^ a) : x ||| (y <<< a) = x + y * 2 ^ a := by
  rw [Nat.shiftLeft_eq, or_low a x y hx]

theorem msb_ext_ext (w n a b : Nat) (h : a + b ≤ n) :
    ((w / 2 ^ (n - a) % 2 ^ a) <<< b) ||| (w / 2 ^ (n - a - b) % 2 ^ b)
      = w / 2 ^ (n - (a + b)) % 2 ^ (a + b) := by
  have e1 : n - (a + b) = n - a - b := by omega
  have e2 : w / 2 ^ (n - a) = w / 2 ^ (n - a - b) / 2 ^ b := by
    rw [div_pow_add, show n - a - b + b = n - a by omega]
  rw [or_shl_high _ _ _ (Nat.mod_lt _ (Nat.pos_pow_of_pos _ (by decide))), e1, e2,
    Nat.add_comm a b, mod_split]
  ring

theorem lsb_ext_ext (w U n a b : Nat) (h : a ≤ n) (hn : n ≤ U) :
    (w / 2 ^ (U - n) % 2 ^ a) ||| ((w / 2 ^ (U - (n - a)) % 2 ^ b) <<< a)
      = w / 2 ^ (U - n) % 2 ^ (a + b) := by
  have e2 : w / 2 ^ (U - (n - a)) = w / 2 ^ (U - n) / 2 ^ a := by
    rw [div_pow_add, show U - n + a = U - (n - a) by omega]
  rw [or_shl_low _ _ _ (Nat.mod_lt _ (Nat.pos_pow_of_pos _ (by decide))), e2, mod_split]
  ring

theorem msb_ext_span (w u U n a b : Nat) (hu : u < 2 ^ U) (h1 : a ≤ n) (h2 : n < a + b)
    (h3 : a + b ≤ U) :
    ((w / 2 ^ (n - a) % 2 ^ a) <<< b)
        ||| ((w % 2 ^ (n - a)) * 2 ^ (b - (n - a)) + u / 2 ^ (U - (b - (n - a))))
      = (w % 2 ^ n) * 2 ^ (a + b - n) + u / 2 ^ (U - (a + b - n)) := by
  obtain ⟨m, rfl⟩ : ∃ m, n = m + a := ⟨n - a, by omega⟩
  obtain ⟨k, rfl⟩ : ∃ k, b = m + k := ⟨b - m, by omega⟩
  have e1 : m + a - a = m := by omega
  have e2 : m + k - m = k := by omega
  have e3 : a + (m + k) - (m + a) = k := by omega
  rw [e1, e2, e3]
  have ht := top_lt u U k hu (by omega)
  rw [or_shl_high _ _ _ (lt_pow_join _ _ m k (Nat.mod_lt _ (Nat.pos_pow_of_pos _ (by decide)))
    ht), mod_split w m a, Nat.pow_add]
  ring

theorem lsb_ext_span (w u U n a b : Nat) (h1 : a ≤ n) (h2 : n < a + b) (hn : n ≤ U) :
    (w / 2 ^ (U - n) % 2 ^ a)
        ||| (((u % 2 ^ (b - (n - a))) * 2 ^ (n - a)
              + w / 2 ^ (U - (n - a)) % 2 ^ (n - a)) <<< a)
      = (u % 2 ^ (a + b - n)) * 2 ^ n + w / 2 ^ (U - n) % 2 ^ n := by
  obtain ⟨m, rfl⟩ : ∃ m, n = a + m := ⟨n - a, by omega⟩
  obtain ⟨k, rfl⟩ : ∃ k, b = m + k := ⟨b - m, by omega⟩
  have e1 : a + m - a = m := by omega
  have e2 : m + k - m = k := by omega
  have e3 : a + (m + k) - (a + m) = k := by omega
  have e4 : w / 2 ^ (U - m) = w / 2 ^ (U - (a + m)) / 2 ^ a := by
    rw [div_pow_add, show U - (a + m) + a = U - m by omega]
  rw [e1, e2, e3, or_shl_low _ _ _ (Nat.mod_lt _ (Nat.pos_pow_of_pos _ (by decide))),
    mod_split _ a m, e4, Nat.pow_add]
  ring

theorem msb_span_ext (w u U n a b : Nat) (h1 : n < a) (h3 : a + b ≤ U) :
    (((w % 2 ^ n) * 2 ^ (a - n) + u / 2 ^ (U - (a - n))) <<< b)
        ||| (u / 2 ^ (U - (a - n) - b) % 2 ^ b)
      = (w % 2 ^ n) * 2 ^ (a + b - n) + u / 2 ^ (U - (a + b - n)) := by
  have e1 : U - (a + b - n) = U - (a - n) - b := by omega
  have e2 : u / 2 ^ (U - (a - n)) = u / 2 ^ (U - (a - n) - b) / 2 ^ b := by
    rw [div_pow_add, show U - (a - n) - b + b = U - (a - n) by omega]
  have e3 : a + b - n = a - n + b := by omega
  rw [or_shl_high _ _ _ (Nat.mod_lt _ (Nat.pos_pow_of_pos _ (by decide))), e1, e2, e3,
    Nat.pow_add]
  have e4 := Nat.div_add_mod (u / 2 ^ (U - (a - n) - b)) (2 ^ b)
  generalize u / 2 ^ (U - (a - n) - b) = q at e4 ⊢
  rw [Nat.add_mul, Nat.add_assoc, Nat.mul_assoc, Nat.mul_comm (q / 2 ^ b), e4]

theorem lsb_span_ext (w u U n a b : Nat) (h1 : n < a) (h3 : a + b ≤ U) :
    ((u % 2 ^ (a - n)) * 2 ^ n + w / 2 ^ (U - n) % 2 ^ n)
        ||| ((u / 2 ^ (U - (U - (a - n))) % 2 ^ b) <<< a)
      = (u % 2 ^ (a + b - n)) * 2 ^ n + w / 2 ^ (U - n) % 2 ^ n := by
  have e1 : U - (U - (a - n)) = a - n := by omega
  have e3 : a + b - n = a - n + b := by omega
  have hx : (u % 2 ^ (a - n)) * 2 ^ n + w / 2 ^ (U - n) % 2 ^ n < 2 ^ a := by
    have := lt_pow_join (u % 2 ^ (a - n)) (w / 2 ^ (U - n) % 2 ^ n) (a - n) n
      (Nat.mod_lt _ (Nat.pos_pow_of_pos _ (by decide)))
      (Nat.mod_lt _ (Nat.pos_pow_of_pos _ (by decide)))
    rwa [show a - n + n = a by omega] at this
  have e5 : 2 ^ a = 2 ^ (a - n) * 2 ^ n := by
    rw [← Nat.pow_add, show a - n + n = a by omega]
  rw [or_shl_low _ _ _ hx, e1, e3, mod_split u (a - n) b, e5]
  ring

theorem bread_join_refill (cfg : Config) (hv : ValidConfig cfg) (f len p : Nat) (s : State)
    (c : struct_t) (hc : s.heap[p]? = some (some c)) (hlt : c.nbits < len)
    (hle : len ≤ unitBits cfg) (hns : c.nbits = 0 ∨ cfg.fieldspan = true)
    (hb : c.nbytes < W32) :
    bread cfg (f + 9) len (some p) s
      = (match zitems cfg 1 (padding c.nbytes (min cfg.memberalign cfg.fieldsz)) s.strm with
        | .ok (_, t) => (match zitems cfg cfg.fieldsz 1 t with
          | .ok (bs, u) =>
            .ok (spanBits cfg c.fieldbuf c.nbits len (wordOf cfg cfg.fieldsz bs),
              ⟨u, s.numbytes, s.heap.set p (some ⟨c.align,
                  ((c.nbytes + padding c.nbytes (min cfg.memberalign cfg.fieldsz)) % W32
                    + (cfg.fieldsz * 1) % W32) % W32,
                  unitBits cfg - (len - c.nbits), wordOf cfg cfg.fieldsz bs, c.parent⟩)⟩)
          | .error e => .error e)
        | .error e => .error e) := by
  have hU := unitBits_le cfg hv
  by_cases h0 : c.nbits = 0
  · rw [bread_unit cfg hv (f + 1) len p s c hc (by omega) hlt hle (Or.inl h0) hb]
    cases zitems cfg 1 (padding c.nbytes (min cfg.memberalign cfg.fieldsz)) s.strm with
    | error e => rfl
    | ok r =>
      obtain ⟨x, t⟩ := r
      simp only []
      cases zitems cfg cfg.fieldsz 1 t with
      | error e => rfl
      | ok r2 =>
        obtain ⟨bs, u⟩ := r2
        simp only [h0, spanBits, Nat.sub_zero, Nat.pow_zero, Nat.mod_one, Nat.zero_mul,
          Nat.zero_add, Nat.mul_one, Nat.add_zero]
  · have hsp : cfg.fieldspan = true := by
      rcases hns with h | h
      · exact absurd h h0
      · exact h
    rw [bread_span_unit cfg hv f len p s c hc (by omega) hlt hle hsp hb]
    cases zitems cfg 1 (padding c.nbytes (min cfg.memberalign cfg.fieldsz)) s.strm with
    | error e => rfl
    | ok r =>
      obtain ⟨x, t⟩ := r
      simp only []
      cases h2 : zitems cfg cfg.fieldsz 1 t with
      | error e => rfl
      | ok r2 =>
        obtain ⟨bs, u⟩ := r2
        obtain ⟨hl, hbs⟩ := zitems_bytes cfg _ _ _ _ _ h2
        obtain ⟨_, hw⟩ := unit_word cfg hv bs hl hbs
        have hval : (if cfg.fieldMSB then
              ((fieldBits cfg c c.nbits <<< (len - c.nbits)) % W32)
                ||| (wordOf cfg cfg.fieldsz bs / 2 ^ (unitBits cfg - (len - c.nbits)))
            else (((wordOf cfg cfg.fieldsz bs % 2 ^ (len - c.nbits)) <<< c.nbits) % W32)
                ||| fieldBits cfg c c.nbits)
            = spanBits cfg c.fieldbuf c.nbits len (wordOf cfg cfg.fieldsz bs) := by
          have hfb := fieldBits_eq cfg c c.nbits (by omega)
          have hp32 : (2 : Nat) ^ len ≤ W32 := by
            unfold W32
            exact Nat.pow_le_pow_right (by decide) (by omega)
          cases hM : cfg.fieldMSB
          · rw [hM] at hfb
            simp only [Bool.false_eq_true, if_false] at hfb
            simp only [spanBits, hM, Bool.false_eq_true, if_false, hfb]
            have hlt2 := lt_pow_join (wordOf cfg cfg.fieldsz bs % 2 ^ (len - c.nbits)) 0
              (len - c.nbits) c.nbits (Nat.mod_lt _ (Nat.pos_pow_of_pos _ (by decide)))
              (Nat.pos_pow_of_pos _ (by decide))
            rw [show len - c.nbits + c.nbits = len by omega] at hlt2
            rw [Nat.shiftLeft_eq, Nat.mod_eq_of_lt (by omega), Nat.or_comm,
              or_low _ _ _ (Nat.mod_lt _ (Nat.pos_pow_of_pos _ (by decide))), Nat.add_comm]
          · rw [hM] at hfb
            simp only [if_true, Nat.sub_self, Nat.pow_zero, Nat.div_one] at hfb
            simp only [spanBits, hM, if_true, hfb]
            have hlt2 := lt_pow_join (c.fieldbuf % 2 ^ c.nbits) 0
              c.nbits (len - c.nbits) (Nat.mod_lt _ (Nat.pos_pow_of_pos _ (by decide)))
              (Nat.pos_pow_of_pos _ (by decide))
            rw [show c.nbits + (len - c.nbits) = len by omega] at hlt2
            rw [Nat.shiftLeft_eq, Nat.mod_eq_of_lt (by omega), Nat.or_comm,
              or_low _ _ _ (top_lt _ _ _ hw (by omega)), Nat.add_comm]
        simp only [hval]

theorem join_ext_ext (cfg : Config) (c : struct_t) (a b : Nat) (h : a + b ≤ c.nbits)
    (hn : c.nbits ≤ unitBits cfg) (hU : unitBits cfg ≤ 32) :
    joinBits cfg a b (fieldBits cfg c a)
        (fieldBits cfg ⟨c.align, c.nbytes, c.nbits - a, c.fieldbuf, c.parent⟩ b)
      = fieldBits cfg c (a + b) := by
  rw [fieldBits_eq _ _ _ (by omega), fieldBits_eq _ _ _ (by omega),
    fieldBits_eq _ _ _ (by omega)]
  cases hM : cfg.fieldMSB
  · simp only [joinBits, hM, Bool.false_eq_true, if_false]
    exact lsb_ext_ext _ _ _ _ _ (by omega) hn
  · simp only [joinBits, hM, if_true]
    exact msb_ext_ext _ _ _ _ h

theorem join_ext_span (cfg : Config) (c : struct_t) (a b u : Nat) (h1 : a ≤ c.nbits)
    (h2 : c.nbits < a + b) (h3 : a + b ≤ unitBits cfg) (hu : u < 2 ^ unitBits cfg)
    (hU : unitBits cfg ≤ 32) :
    joinBits cfg a b (fieldBits cfg c a) (spanBits cfg c.fieldbuf (c.nbits - a) b u)
      = spanBits cfg c.fieldbuf c.nbits (a + b) u := by
  rw [fieldBits_eq _ _ _ (by omega)]
  cases hM : cfg.fieldMSB
  · simp only [joinBits, spanBits, hM, Bool.false_eq_true, if_false]
    exact lsb_ext_span _ _ _ _ _ _ h1 h2 (by omega)
  · simp only [joinBits, spanBits, hM, if_true]
    exact msb_ext_span _ _ _ _ _ _ hu h1 h2 h3

theorem join_span_ext (cfg : Config) (w n a b u al N : Nat) (par : Option Nat) (h1 : n < a)
    (h3 : a + b ≤ unitBits cfg) (hU : unitBits cfg ≤ 32) :
    joinBits cfg a b (spanBits cfg w n a u)
        (fieldBits cfg ⟨al, N, unitBits cfg - (a - n), u, par⟩ b)
      = spanBits cfg w n (a + b) u := by
  rw [fieldBits_eq _ _ _ (by omega)]
  cases hM : cfg.fieldMSB
  · simp only [joinBits, spanBits, hM, Bool.false_eq_true, if_false]
    exact lsb_span_ext _ _ _ _ _ _ h1 h3
  · simp only [joinBits, spanBits, hM, if_true]
    exact msb_span_ext _ _ _ _ _ _ h1 h3

theorem bread_join (cfg : Config) (hv : ValidConfig cfg) (f a b p : Nat) (s : State)
    (c : struct_t) (hc : s.heap[p]? = some (some c)) (hsp : cfg.fieldspan = true)
    (hF : c.nbits ≤ unitBits cfg) (hb : c.nbytes < W32) (ha : 0 < a) (hb0 : 0 < b)
    (hab : a + b ≤ unitBits cfg) :
    (bread cfg (f + 9) a (some p) >>= fun x =>
      bread cfg (f + 9) b (some p) >>= fun y => pure (joinBits cfg a b x y)) s
      = bread cfg (f + 9) (a + b) (some p) s := by
  have hU := unitBits_le cfg hv
  simp only [run_bind, run_pure]
  by_cases hA : a ≤ c.nbits
  · rw [bread_extract cfg (f + 8) a p s c hc ha hA hF hU]
    simp only []
    have hc1 : (⟨s.strm, s.numbytes, s.heap.set p (some { c with nbits := c.nbits - a })⟩
        : State).heap[p]? = some (some { c with nbits := c.nbits - a }) :=
      heap_set_get _ _ _ _ hc
    by_cases hB : a + b ≤ c.nbits
    · rw [bread_extract cfg (f + 8) b p _ _ hc1 hb0 (by show b ≤ c.nbits - a; omega)
          (by show c.nbits - a ≤ unitBits cfg; omega) hU,
        bread_extract cfg (f + 8) (a + b) p s c hc (by omega) hB hF hU]
      simp only [heap_set_set, join_ext_ext cfg c a b hB hF hU, Nat.sub_sub]
    · rw [bread_join_refill cfg hv f b p _ _ hc1 (by show c.nbits - a < b; omega) (by omega)
          (Or.inr hsp) hb,
        bread_join_refill cfg hv f (a + b) p s c hc (by omega) hab (Or.inr hsp) hb]
      simp only []
      cases zitems cfg 1 (padding c.nbytes (min cfg.memberalign cfg.fieldsz)) s.strm with
      | error e => rfl
      | ok r =>
        obtain ⟨x, t⟩ := r
        simp only []
        cases h2 : zitems cfg cfg.fieldsz 1 t with
        | error e => rfl
        | ok r2 =>
          obtain ⟨bs, u⟩ := r2
          obtain ⟨hl, hbs⟩ := zitems_bytes cfg _ _ _ _ _ h2
          obtain ⟨_, hw⟩ := unit_word cfg hv bs hl hbs
          simp only [heap_set_set, join_ext_span cfg c a b _ hA (by omega) hab hw hU,
            show b - (c.nbits - a) = a + b - c.nbits by omega]
  · rw [bread_join_refill cfg hv f a p s c hc (by omega) (by omega) (Or.inr hsp) hb,
      bread_join_refill cfg hv f (a + b) p s c hc (by omega) hab (Or.inr hsp) hb]
    cases zitems cfg 1 (padding c.nbytes (min cfg.memberalign cfg.fieldsz)) s.strm with
    | error e => rfl
    | ok r =>
      obtain ⟨x, t⟩ := r
      simp only []
      cases h2 : zitems cfg cfg.fieldsz 1 t with
      | error e => rfl
      | ok r2 =>
        obtain ⟨bs, u⟩ := r2
        simp only []
        rw [bread_extract cfg (f + 8) b p _ _ (heap_set_get _ _ _ _ hc) hb0
          (by show b ≤ unitBits cfg - (a - c.nbits); omega)
          (by show unitBits cfg - (a - c.nbits) ≤ unitBits cfg; omega) hU]
        simp only [heap_set_set,
          show unitBits cfg - (a - c.nbits) - b = unitBits cfg - (a + b - c.nbits) by omega]
        rw [join_span_ext cfg c.fieldbuf c.nbits a b _ _ _ _ (by omega) hab hU]

/-- Without `fieldspan` the two reads and the single read part ways: with 3 bits left, reading
2 and then 4 bits keeps one old bit unread before refilling, while reading 6 bits refills at
once; the final contexts differ. -/
theorem bread_join_needs_span :
    (bread msbCfg 9 2 (some 0) >>= fun x =>
      bread msbCfg 9 4 (some 0) >>= fun y => pure (joinBits msbCfg 2 4 x y))
        ⟨⟨0, false, some [172, 1]⟩, 0, [some ⟨1, 1, 3, 255, none⟩]⟩
      = .ok (58, ⟨⟨0, false, some [1]⟩, 0, [some ⟨1, 2, 4, 172, none⟩]⟩)
    ∧ bread msbCfg 9 6 (some 0) ⟨⟨0, false, some [172, 1]⟩, 0, [some ⟨1, 1, 3, 255, none⟩]⟩
      = .ok (43, ⟨⟨0, false, some [1]⟩, 0, [some ⟨1, 2, 2, 172, none⟩]⟩) := by
  decide

/-- C20. With `fieldspan` on, a valid configuration, a context with `nbits ≤ unit * 8`, and
`a, b > 0` with `a + b ≤ unit * 8`: `bread` of `a` bits followed by `bread` of `b` bits,
returning `x` and `y`, behaves exactly as one `bread` of `a + b` bits: the same errors, the
same final context and stream state, and the single read returns `(x << b) | y` when
`fieldMSB` and `x | (y << a)` otherwise. -/
theorem bread_split_join (cfg : Config) (hv : ValidConfig cfg) (f a b p : Nat) (s : State)
    (c : struct_t) (hc : s.heap[p]? = some (some c)) (hsp : cfg.fieldspan = true)
    (hF : c.nbits ≤ unitBits cfg) (hb : c.nbytes < W32) (ha : 0 < a) (hb0 : 0 < b)
    (hab : a + b ≤ unitBits cfg) :
    ((bread cfg (f + 9) a (some p) >>= fun x =>
        bread cfg (f + 9) b (some p) >>= fun y => pure (joinBits cfg a b x y)) s
      = bread cfg (f + 9) (a + b) (some p) s)
    ∧ (∀ x s1 y s2, bread cfg (f + 9) a (some p) s = .ok (x, s1) →
        bread cfg (f + 9) b (some p) s1 = .ok (y, s2) →
        bread cfg (f + 9) (a + b) (some p) s
          = .ok (if cfg.fieldMSB then (x <<< b) ||| y else x ||| (y <<< a), s2))
    ∧ (∀ v s2, bread cfg (f + 9) (a + b) (some p) s = .ok (v, s2) →
        ∃ x s1 y, bread cfg (f + 9) a (some p) s = .ok (x, s1)
          ∧ bread cfg (f + 9) b (some p) s1 = .ok (y, s2)
          ∧ v = if cfg.fieldMSB then (x <<< b) ||| y else x ||| (y <<< a)) := by
  have h := bread_join cfg hv f a b p s c hc hsp hF hb ha hb0 hab
  refine ⟨h, ?_, ?_⟩
  · intro x s1 y s2 h1 h2
    rw [← h]
    simp only [run_bind, run_pure, h1, h2, joinBits]
  · intro v s2 hv2
    rw [← h] at hv2
    simp only [run_bind, run_pure] at hv2
    cases h1 : bread cfg (f + 9) a (some p) s with
    | error e =>
      rw [h1] at hv2
      cases hv2
    | ok r =>
      obtain ⟨x, s1⟩ := r
      rw [h1] at hv2
      simp only [] at hv2
      cases h2 : bread cfg (f + 9) b (some p) s1 with
      | error e =>
        rw [h2] at hv2
        cases hv2
      | ok r2 =>
        obtain ⟨y, s3⟩ := r2
        rw [h2] at hv2
        simp only [Except.ok.injEq, Prod.mk.injEq] at hv2
        obtain ⟨e1, e2⟩ := hv2
        subst e2
        exact ⟨x, s1, y, rfl, h2, by rw [← e1]; rfl⟩

theorem bread_split_join_witness :
    (bread spanLsbCfg 9 2 (some 0) >>= fun x =>
        bread spanLsbCfg 9 4 (some 0) >>= fun y => pure (joinBits spanLsbCfg 2 4 x y))
        ⟨⟨0, false, some [255, 1]⟩, 0, [some ⟨1, 1, 3, 160, none⟩]⟩
      = bread spanLsbCfg 9 6 (some 0)
        ⟨⟨0, false, some [255, 1]⟩, 0, [some ⟨1, 1, 3, 160, none⟩]⟩ :=
  (bread_split_join spanLsbCfg ⟨Or.inl rfl, Or.inr (Or.inr rfl), Or.inl rfl, Or.inl rfl⟩ 0 2 4 0
    ⟨⟨0, false, some [255, 1]⟩, 0, [some ⟨1, 1, 3, 160, none⟩]⟩ ⟨1, 1, 3, 160, none⟩ rfl rfl
    (by decide) (by decide) (by decide) (by decide) (by decide)).1

/-! ## The invariant `nbits ≤ fieldsz * 8` -/

theorem triple_post {α : Type} {P : State → Prop} {m : M α} {Q Q2 : α → State → Prop}
    (h : Triple P m Q) (hQ : ∀ a s, Q a s → Q2 a s) : Triple P m Q2 :=
  fun s a t h2 hr => hQ a t (h s a t h2 hr)

theorem triple_store_last {P : State → Prop} {R : Unit → State → Prop} (p : Nat)
    (c : struct_t) (hQ : ∀ s, P s → R () ⟨s.strm, s.numbytes, s.heap.set p (some c)⟩) :
    Triple P (store p c) R := by
  intro s r t hP hr
  obtain ⟨hsub, -⟩ := store_inv p s t c r hr
  subst hsub
  exact hQ s hP

theorem rel_deref (s1 s2 : State) (p : Nat) (c : struct_t) (h : CountRel s1 s2)
    (hc : s1.heap[p]? = some (some c)) :
    ∃ fb, s2.heap[p]? = some (some ⟨c.align, c.nbytes, c.nbits, fb, c.parent⟩) := by
  have h3 := congrArg (fun l => l[p]?) h.2.2
  simp only [List.getElem?_map, hc, Option.map_some'] at h3
  cases h2 : s2.heap[p]? with
  | none =>
    rw [h2] at h3
    cases h3
  | some o =>
    rw [h2] at h3
    simp only [Option.map_some', Option.some.injEq] at h3
    cases o with
    | none => cases h3
    | some d =>
      simp only [eraseBuf, Option.map_some', Option.some.injEq, struct_t.mk.injEq] at h3
      obtain ⟨e1, e2, e3, -, e5⟩ := h3
      refine ⟨d.fieldbuf, ?_⟩
      rw [e1, e2, e3, e5]

theorem rel_set (s1 s2 : State) (p : Nat) (c d : struct_t) (h : CountRel s1 s2)
    (hcd : c.align = d.align ∧ c.nbytes = d.nbytes ∧ c.nbits = d.nbits ∧ c.parent = d.parent) :
    CountRel ⟨s1.strm, s1.numbytes, s1.heap.set p (some c)⟩
      ⟨s2.strm, s2.numbytes, s2.heap.set p (some d)⟩ := by
  refine ⟨h.1, h.2.1, ?_⟩
  obtain ⟨e1, e2, e3, e5⟩ := hcd
  simp only [List.map_set, h.2.2, eraseBuf, Option.map_some', e1, e2, e3, e5]

theorem sim_bind {α β γ δ : Type} {m1 : M α} {m2 : M β} {f1 : α → M γ} {f2 : β → M δ}
    {W : γ → δ → Prop} (V : α → β → Prop) (hm : Sim V m1 m2)
    (hf : ∀ a b, V a b → Sim W (f1 a) (f2 b)) : Sim W (m1 >>= f1) (m2 >>= f2) := by
  intro s1 s2 r t1 hR h
  simp only [run_bind] at h
  split at h
  · next a u1 h1 =>
    obtain ⟨b, u2, h2, hV, hR2⟩ := hm s1 s2 a u1 hR h1
    obtain ⟨r2, t2, h3, hW, hR3⟩ := hf a b hV u1 u2 r t1 hR2 h
    refine ⟨r2, t2, ?_, hW, hR3⟩
    simp only [run_bind, h2, h3]
  · cases h

theorem sim_pure {α β : Type} {V : α → β → Prop} (a : α) (b : β) (h : V a b) :
    Sim V (pure a) (pure b) := by
  intro s1 s2 r t1 hR hr
  cases hr
  exact ⟨b, s2, rfl, h, hR⟩

theorem sim_pure_bind {α β γ δ : Type} {W : γ → δ → Prop} (a : α) (b : β) (f1 : α → M γ)
    (f2 : β → M δ) (h : Sim W (f1 a) (f2 b)) : Sim W (pure a >>= f1) (pure b >>= f2) := by
  intro s1 s2 r t1 hR hr
  simp only [run_bind, run_pure] at hr ⊢
  exact h s1 s2 r t1 hR hr

theorem sim_throw {α β : Type} {V : α → β → Prop} (e : Err) (m2 : M β) :
    Sim V (throw e : M α) m2 := by
  intro s1 s2 a t1 _ hr
  cases hr

theorem sim_cassert {γ δ : Type} {W : γ → δ → Prop} (b : Bool) (f1 : Unit → M γ)
    (f2 : Unit → M δ) (h : b = true → Sim W (f1 ()) (f2 ())) :
    Sim W (cassert b >>= f1) (cassert b >>= f2) := by
  intro s1 s2 r t1 hR hr
  simp only [run_bind] at hr
  split at hr
  · next u t h1 =>
    obtain ⟨hb, hsub⟩ := cassert_inv _ s1 t u h1
    subst hsub
    subst hb
    obtain ⟨r2, t2, h3, hW, hR3⟩ := h rfl s1 s2 r t1 hR hr
    exact ⟨r2, t2, by simp only [run_bind, cassert_true, h3], hW, hR3⟩
  · cases hr

theorem sim_deref {γ δ : Type} {W : γ → δ → Prop} (p : Nat) (f1 : struct_t → M γ)
    (f2 : struct_t → M δ)
    (h : ∀ c fb, Sim W (f1 c) (f2 ⟨c.align, c.nbytes, c.nbits, fb, c.parent⟩)) :
    Sim W (deref p >>= f1) (deref p >>= f2) := by
  intro s1 s2 r t1 hR hr
  simp only [run_bind] at hr
  split at hr
  · next c t h1 =>
    obtain ⟨hc, hsub⟩ := deref_inv p s1 t c h1
    subst hsub
    obtain ⟨fb, hd⟩ := rel_deref s1 s2 p c hR hc
    obtain ⟨r2, t2, h3, hW, hR3⟩ := h c fb s1 s2 r t1 hR hr
    exact ⟨r2, t2, by simp only [run_bind, deref_ok p s2 _ hd, h3], hW, hR3⟩
  · cases hr

theorem sim_store {γ δ : Type} {W : γ → δ → Prop} (p : Nat) (c d : struct_t)
    (f1 : Unit → M γ) (f2 : Unit → M δ)
    (hcd : c.align = d.align ∧ c.nbytes = d.nbytes ∧ c.nbits = d.nbits ∧ c.parent = d.parent)
    (h : Sim W (f1 ()) (f2 ())) : Sim W (store p c >>= f1) (store p d >>= f2) := by
  intro s1 s2 r t1 hR hr
  simp only [run_bind] at hr
  split at hr
  · next u t h1 =>
    obtain ⟨hsub, c0, hc0⟩ := store_inv p s1 t c u h1
    subst hsub
    obtain ⟨fb, hd⟩ := rel_deref s1 s2 p c0 hR hc0
    obtain ⟨r2, t2, h3, hW, hR3⟩ := h _ _ r t1 (rel_set s1 s2 p c d hR hcd) hr
    exact ⟨r2, t2, by simp only [run_bind, store_ok p s2 _ d hd, h3], hW, hR3⟩
  · cases hr

theorem sim_store_last (p : Nat) (c d : struct_t)
    (hcd : c.align = d.align ∧ c.nbytes = d.nbytes ∧ c.nbits = d.nbits ∧ c.parent = d.parent) :
    Sim (fun _ _ => True) (store p c) (store p d) := by
  intro s1 s2 r t1 hR hr
  obtain ⟨hsub, c0, hc0⟩ := store_inv p s1 t1 c r hr
  subst hsub
  obtain ⟨fb, hd⟩ := rel_deref s1 s2 p c0 hR hc0
  exact ⟨(), _, store_ok p s2 _ d hd, trivial, rel_set s1 s2 p c d hR hcd⟩

theorem sim_shr32 {γ δ : Type} {W : γ → δ → Prop} (x y k : Nat) (f1 : Nat → M γ)
    (f2 : Nat → M δ) (h : ∀ v w, Sim W (f1 v) (f2 w)) :
    Sim W (shr32 x k >>= f1) (shr32 y k >>= f2) := by
  intro s1 s2 r t1 hR hr
  simp only [run_bind] at hr
  split at hr
  · next v t h1 =>
    obtain ⟨-, hsub⟩ := shr32_inv x k v s1 t h1
    subst hsub
    have hk : k < 32 := by
      unfold shr32 at h1
      split at h1
      · assumption
      · cases h1
    obtain ⟨r2, t2, h3, hW, hR3⟩ := h v (y >>> k) s1 s2 r t1 hR hr
    exact ⟨r2, t2, by simp only [run_bind, shr32_ok y k hk, h3], hW, hR3⟩
  · cases hr

theorem sim_shl32 {γ δ : Type} {W : γ → δ → Prop} (x y k : Nat) (f1 : Nat → M γ)
    (f2 : Nat → M δ) (h : ∀ v w, Sim W (f1 v) (f2 w)) :
    Sim W (shl32 x k >>= f1) (shl32 y k >>= f2) := by
  intro s1 s2 r t1 hR hr
  simp only [run_bind] at hr
  split at hr
  · next v t h1 =>
    obtain ⟨-, hsub⟩ := shl32_inv x k v s1 t h1
    subst hsub
    have hk : k < 32 := by
      unfold shl32 at h1
      split at h1
      · assumption
      · cases h1
    obtain ⟨r2, t2, h3, hW, hR3⟩ := h v ((y <<< k) % W32) s1 s2 r t1 hR hr
    exact ⟨r2, t2, by simp only [run_bind, shl32_ok y k hk, h3], hW, hR3⟩
  · cases hr

theorem sim_zitems (cfg cfg2 : Config) (len num : Nat) :
    Sim (fun _ _ => True) (liftStrm (zitems cfg len num)) (liftStrm (zitems cfg2 len num)) := by
  intro s1 s2 r t1 hR hr
  obtain ⟨-, hh, hn⟩ := liftStrm_frame _ s1 t1 r hr
  refine ⟨List.replicate (len * num) 0, s2, ?_, trivial, hR.1, ?_, ?_⟩
  · simp only [liftStrm, zitems_countonly cfg2 len num s2.strm hR.1]
  · rw [hn]
    exact hR.2.1
  · rw [hh]
    exact hR.2.2

theorem sim_clearfield (cfg : Config) (z : Bool) (f : Nat)
    (ihb : ∀ len st, Sim (fun _ _ => True) (bread cfg f len st)
      (bread (withZerocomp cfg z) f len st))
    (st : Option Nat) :
    Sim (fun _ _ => True) (clearfield cfg (f + 1) st)
      (clearfield (withZerocomp cfg z) (f + 1) st) := by
  cases st with
  | none =>
    rw [clearfield, clearfield]
    exact sim_pure _ _ trivial
  | some p =>
    rw [clearfield, clearfield]
    apply sim_deref
    intro c fb
    dsimp only
    split
    · refine sim_bind (fun _ _ => True) (ihb _ _) ?_
      intro _ _ _
      exact sim_pure _ _ trivial
    · exact sim_pure _ _ trivial

theorem sim_alignLoop (cfg : Config) (z : Bool) (f : Nat)
    (ihz : ∀ len num st, Sim (fun _ _ => True) (zread cfg f len num st)
      (zread (withZerocomp cfg z) f len num st))
    (ihl : ∀ p n, Sim (fun _ _ => True) (alignLoop cfg f p n)
      (alignLoop (withZerocomp cfg z) f p n))
    (p n : Nat) :
    Sim (fun _ _ => True) (alignLoop cfg (f + 1) p n)
      (alignLoop (withZerocomp cfg z) (f + 1) p n) := by
  rw [alignLoop, alignLoop]
  apply sim_deref
  intro c fb
  dsimp only
  split
  · refine sim_bind (fun _ _ => True) (ihz _ _ _) ?_
    intro _ _ _
    apply sim_deref
    intro c2 fb2
    dsimp only
    refine sim_store _ _ _ _ _ ?_ ?_
    · exact ⟨rfl, rfl, rfl, rfl⟩
    · exact ihl _ _
  · exact sim_pure _ _ trivial

theorem sim_align (cfg : Config) (z : Bool) (f : Nat)
    (ihl : ∀ p n, Sim (fun _ _ => True) (alignLoop cfg f p n)
      (alignLoop (withZerocomp cfg z) f p n))
    (st : Option Nat) (n : Nat) :
    Sim (fun _ _ => True) (align cfg (f + 1) st n)
      (align (withZerocomp cfg z) (f + 1) st n) := by
  cases st with
  | none =>
    rw [align]
    exact sim_throw _ _
  | some p =>
    rw [align, align]
    apply sim_cassert
    intro _
    exact ihl _ _

theorem sim_zread (cfg : Config) (z : Bool) (f : Nat)
    (ihc : ∀ st, Sim (fun _ _ => True) (clearfield cfg f st)
      (clearfield (withZerocomp cfg z) f st))
    (iha : ∀ st n, Sim (fun _ _ => True) (align cfg f st n)
      (align (withZerocomp cfg z) f st n))
    (len num : Nat) (st : Option Nat) :
    Sim (fun _ _ => True) (zread cfg (f + 1) len num st)
      (zread (withZerocomp cfg z) (f + 1) len num st) := by
  rw [zread, zread]
  apply sim_cassert
  intro _
  apply sim_cassert
  intro _
  apply sim_cassert
  intro _
  cases st with
  | none =>
    dsimp only
    apply sim_pure_bind
    exact sim_zitems _ _ _ _
  | some p =>
    dsimp only
    refine sim_bind (fun _ _ => True) (ihc _) ?_
    intro _ _ _
    refine sim_bind (fun _ _ => True) (iha _ _) ?_
    intro _ _ _
    apply sim_deref
    intro c fb
    dsimp only
    refine sim_store _ _ _ _ _ ?_ ?_
    · exact ⟨rfl, rfl, rfl, rfl⟩
    · exact sim_zitems _ _ _ _

theorem sim_iread (cfg : Config) (z : Bool) (f : Nat)
    (ihz : ∀ len num st, Sim (fun _ _ => True) (zread cfg f len num st)
      (zread (withZerocomp cfg z) f len num st))
    (buflen len : Nat) (st : Option Nat) :
    Sim (fun _ _ => True) (iread cfg (f + 1) buflen len st)
      (iread (withZerocomp cfg z) (f + 1) buflen len st) := by
  rw [iread, iread]
  apply sim_cassert
  intro _
  apply sim_cassert
  intro _
  apply sim_cassert
  intro _
  dsimp only
  split
  · refine sim_bind (fun _ _ => True) (ihz _ _ _) ?_
    intro _ _ _
    apply sim_pure_bind
    exact sim_pure _ _ trivial
  · split
    · refine sim_bind (fun _ _ => True) (ihz _ _ _) ?_
      intro _ _ _
      apply sim_pure_bind
      exact sim_pure _ _ trivial
    · split
      · refine sim_bind (fun _ _ => True) (ihz _ _ _) ?_
        intro _ _ _
        apply sim_pure_bind
        exact sim_pure _ _ trivial
      · apply sim_pure_bind
        exact sim_pure _ _ trivial

theorem sim_bread_tail (cfg : Config) (z : Bool) (f : Nat)
    (ihb : ∀ len st, Sim (fun _ _ => True) (bread cfg f len st)
      (bread (withZerocomp cfg z) f len st))
    (len2 spanned p : Nat) :
    Sim (fun _ _ => True)
      (do
        let c ← deref p
        let val ←
          if cfg.fieldMSB then do
            let v ← shr32 c.fieldbuf (sub32 c.nbits len2)
            pure (v &&& maskLoop len2)
          else do
            let v ← shr32 c.fieldbuf (sub32 ((cfg.fieldsz * 8) % W32) c.nbits)
            pure (v &&& maskLoop len2)
        store p { c with nbits := sub32 c.nbits len2 }
        if spanned ≠ 0 then
          let spanval ← bread cfg f spanned (some p)
          if cfg.fieldMSB then do
            let v ← shl32 val spanned
            pure (v ||| spanval)
          else do
            let v ← shl32 spanval len2
            pure (v ||| val)
        else pure val : M Nat)
      (do
        let c ← deref p
        let val ←
          if cfg.fieldMSB then do
            let v ← shr32 c.fieldbuf (sub32 c.nbits len2)
            pure (v &&& maskLoop len2)
          else do
            let v ← shr32 c.fieldbuf (sub32 ((cfg.fieldsz * 8) % W32) c.nbits)
            pure (v &&& maskLoop len2)
        store p { c with nbits := sub32 c.nbits len2 }
        if spanned ≠ 0 then
          let spanval ← bread (withZerocomp cfg z) f spanned (some p)
          if cfg.fieldMSB then do
            let v ← shl32 val spanned
            pure (v ||| spanval)
          else do
            let v ← shl32 spanval len2
            pure (v ||| val)
        else pure val : M Nat) := by
  dsimp only
  apply sim_deref
  intro c fb
  dsimp only
  split
  · apply sim_shr32
    intro v w
    apply sim_pure_bind
    refine sim_store _ _ _ _ _ ?_ ?_
    · exact ⟨rfl, rfl, rfl, rfl⟩
    · split
      · refine sim_bind (fun _ _ => True) (ihb _ _) ?_
        intro sv sw _
        apply sim_shl32
        intro v2 w2
        exact sim_pure _ _ trivial
      · exact sim_pure _ _ trivial
  · apply sim_shr32
    intro v w
    apply sim_pure_bind
    refine sim_store _ _ _ _ _ ?_ ?_
    · exact ⟨rfl, rfl, rfl, rfl⟩
    · split
      · refine sim_bind (fun _ _ => True) (ihb _ _) ?_
        intro sv sw _
        apply sim_shl32
        intro v2 w2
        exact sim_pure _ _ trivial
      · exact sim_pure _ _ trivial

theorem sim_bread (cfg : Config) (z : Bool) (f : Nat)
    (ihi : ∀ buflen len st, Sim (fun _ _ => True) (iread cfg f buflen len st)
      (iread (withZerocomp cfg z) f buflen len st))
    (ihb : ∀ len st, Sim (fun _ _ => True) (bread cfg f len st)
      (bread (withZerocomp cfg z) f len st))
    (len : Nat) (st : Option Nat) :
    Sim (fun _ _ => True) (bread cfg (f + 1) len st)
      (bread (withZerocomp cfg z) (f + 1) len st) := by
  cases st with
  | none =>
    rw [bread]
    exact sim_throw _ _
  | some p =>
    rw [bread, bread]
    apply sim_cassert
    intro _
    apply sim_cassert
    intro _
    apply sim_deref
    intro c fb
    dsimp only [withZerocomp]
    split
    · split
      · apply sim_pure_bind
        exact sim_bread_tail cfg z f ihb c.nbits (len - c.nbits) p
      · refine sim_bind (fun _ _ => True) (ihi _ _ _) ?_
        intro v w _
        apply sim_deref
        intro c1 fb1
        dsimp only
        refine sim_store _ _ _ _ _ ?_ ?_
        · exact ⟨rfl, rfl, rfl, rfl⟩
        · apply sim_deref
          intro c2 fb2
          dsimp only
          refine sim_store _ _ _ _ _ ?_ ?_
          · exact ⟨rfl, rfl, rfl, rfl⟩
          · apply sim_pure_bind
            exact sim_bread_tail cfg z f ihb len 0 p
    · apply sim_pure_bind
      exact sim_bread_tail cfg z f ihb len 0 p

theorem sim_all (cfg : Config) (z : Bool) (f : Nat) :
    (∀ st, Sim (fun _ _ => True) (clearfield cfg f st) (clearfield (withZerocomp cfg z) f st))
    ∧ (∀ p n, Sim (fun _ _ => True) (alignLoop cfg f p n)
        (alignLoop (withZerocomp cfg z) f p n))
    ∧ (∀ st n, Sim (fun _ _ => True) (align cfg f st n) (align (withZerocomp cfg z) f st n))
    ∧ (∀ len num st, Sim (fun _ _ => True) (zread cfg f len num st)
        (zread (withZerocomp cfg z) f len num st))
    ∧ (∀ buflen len st, Sim (fun _ _ => True) (iread cfg f buflen len st)
        (iread (withZerocomp cfg z) f buflen len st))
    ∧ (∀ len st, Sim (fun _ _ => True) (bread cfg f len st)
        (bread (withZerocomp cfg z) f len st)) := by
  induction f with
  | zero =>
    refine ⟨?_, ?_, ?_, ?_, ?_, ?_⟩
    · intro st; rw [clearfield]; exact sim_throw _ _
    · intro p n; rw [alignLoop]; exact sim_throw _ _
    · intro st n; rw [align]; exact sim_throw _ _
    · intro len num st; rw [zread]; exact sim_throw _ _
    · intro buflen len st; rw [iread]; exact sim_throw _ _
    · intro len st; rw [bread]; exact sim_throw _ _
  | succ f ih =>
    obtain ⟨ihc, ihl, iha, ihz, ihi, ihb⟩ := ih
    exact ⟨sim_clearfield cfg z f ihb, sim_alignLoop cfg z f ihz ihl, sim_align cfg z f ihl,
      sim_zread cfg z f ihc iha, sim_iread cfg z f ihz, sim_bread cfg z f ihi ihb⟩

theorem sim_alloc {γ δ : Type} {W : γ → δ → Prop} (f1 : Nat → M γ) (f2 : Nat → M δ)
    (h : ∀ n, Sim W (f1 n) (f2 n)) : Sim W (alloc >>= f1) (alloc >>= f2) := by
  intro s1 s2 r t1 hR hr
  have hlen : s1.heap.length = s2.heap.length := by
    have := congrArg List.length hR.2.2
    simpa only [List.length_map] using this
  simp only [run_bind, alloc] at hr ⊢
  rw [← hlen]
  refine h s1.heap.length ⟨s1.strm, s1.numbytes, s1.heap ++ [some ⟨0, 0, 0, 0, none⟩]⟩
    ⟨s2.strm, s2.numbytes, s2.heap ++ [some ⟨0, 0, 0, 0, none⟩]⟩ r t1 ⟨hR.1, hR.2.1, ?_⟩ hr
  simp only [List.map_append, hR.2.2]

theorem sim_setsize {γ δ : Type} {W : γ → δ → Prop} (n : Nat) (f1 : PUnit → M γ)
    (f2 : PUnit → M δ) (h : Sim W (f1 ⟨⟩) (f2 ⟨⟩)) :
    Sim W ((modify fun s => { s with numbytes := n }) >>= f1)
      ((modify fun s => { s with numbytes := n }) >>= f2) := by
  intro s1 s2 r t1 hR hr
  simp only [run_bind, run_modify] at hr ⊢
  exact h ⟨s1.strm, n, s1.heap⟩ ⟨s2.strm, n, s2.heap⟩ r t1 ⟨hR.1, rfl, hR.2.2⟩ hr

theorem sim_free (p : Nat) : Sim (fun _ _ => True) (free p) (free p) := by
  intro s1 s2 r t1 hR hr
  obtain ⟨c0, hc0⟩ : ∃ c0, s1.heap[p]? = some (some c0) := by
    unfold free at hr
    split at hr
    · next c2 hc2 => exact ⟨c2, hc2⟩
    · cases hr
  rw [free_ok p s1 c0 hc0] at hr
  cases hr
  obtain ⟨fb, hd⟩ := rel_deref s1 s2 p c0 hR hc0
  refine ⟨(), _, free_ok p s2 _ hd, trivial, hR.1, hR.2.1, ?_⟩
  simp only [List.map_set, hR.2.2, eraseBuf, Option.map_none']

theorem sim_recorded : Sim (fun a b => a = b) recorded recorded := by
  intro s1 s2 r t1 hR hr
  cases hr
  exact ⟨s2.numbytes, s2, rfl, hR.2.1, hR⟩

theorem sim_startstruct (cfg : Config) (z : Bool) (fuel : Nat) (parent : Option Nat)
    (hasfields : Bool) (maxlen : Nat) :
    Sim (fun a b => a = b) (startstruct cfg fuel parent hasfields maxlen)
      (startstruct (withZerocomp cfg z) fuel parent hasfields maxlen) := by
  have hA : structAlignment (withZerocomp cfg z) hasfields maxlen
      = structAlignment cfg hasfields maxlen := rfl
  unfold startstruct
  rw [hA]
  dsimp only [withZerocomp]
  apply sim_cassert
  intro _
  apply sim_cassert
  intro _
  apply sim_cassert
  intro _
  apply sim_cassert
  intro _
  apply sim_cassert
  intro _
  apply sim_alloc
  intro st
  apply sim_cassert
  intro _
  apply sim_deref
  intro c fb
  dsimp only
  refine sim_store _ _ _ _ _ ?_ ?_
  · exact ⟨rfl, rfl, rfl, rfl⟩
  · cases parent with
    | none =>
      dsimp only
      apply sim_pure_bind
      exact sim_pure _ _ rfl
    | some q =>
      dsimp only
      apply sim_deref
      intro pc fb2
      dsimp only
      apply sim_cassert
      intro _
      refine sim_bind (fun _ _ => True) ((sim_all cfg z fuel).2.2.1 _ _) ?_
      intro _ _ _
      exact sim_pure _ _ rfl

theorem sim_endstruct (cfg : Config) (z : Bool) (fuel : Nat) (st : Option Nat) :
    Sim (fun _ _ => True) (endstruct cfg fuel st) (endstruct (withZerocomp cfg z) fuel st) := by
  cases st with
  | none =>
    unfold endstruct
    exact sim_throw _ _
  | some p =>
    unfold endstruct
    dsimp only
    refine sim_bind (fun _ _ => True) ((sim_all cfg z fuel).1 _) ?_
    intro _ _ _
    apply sim_deref
    intro c fb
    dsimp only
    refine sim_bind (fun _ _ => True) ((sim_all cfg z fuel).2.2.1 _ _) ?_
    intro _ _ _
    apply sim_deref
    intro c2 fb2
    obtain ⟨al, nb, nbit, fbuf, par⟩ := c2
    dsimp only
    apply sim_setsize
    cases par with
    | none =>
      dsimp only
      apply sim_pure_bind
      exact sim_free p
    | some q =>
      dsimp only
      apply sim_deref
      intro pc fb3
      dsimp only
      refine sim_store _ _ _ _ _ ?_ ?_
      · exact ⟨rfl, rfl, rfl, rfl⟩
      · exact sim_free p

theorem sim_runCall (cfg : Config) (z : Bool) (fuel : Nat) (c : Call) :
    Sim (fun a b => a = b) (runCall cfg fuel c) (runCall (withZerocomp cfg z) fuel c) := by
  cases c with
  | startstruct parent hasfields maxlen =>
    unfold runCall
    refine sim_bind (fun a b => a = b) (sim_startstruct cfg z fuel _ _ _) ?_
    intro _ _ _
    exact sim_pure _ _ rfl
  | endstruct st =>
    unfold runCall
    refine sim_bind (fun _ _ => True) (sim_endstruct cfg z fuel _) ?_
    intro _ _ _
    refine sim_bind (fun a b => a = b) sim_recorded ?_
    intro a b hab
    subst hab
    exact sim_pure _ _ rfl
  | zread len num st =>
    unfold runCall
    refine sim_bind (fun _ _ => True) ((sim_all cfg z fuel).2.2.2.1 _ _ _) ?_
    intro _ _ _
    exact sim_pure _ _ rfl
  | iread buflen len st =>
    unfold runCall
    refine sim_bind (fun _ _ => True) ((sim_all cfg z fuel).2.2.2.2.1 _ _ _) ?_
    intro _ _ _
    exact sim_pure _ _ rfl
  | bread len st =>
    unfold runCall
    refine sim_bind (fun _ _ => True) ((sim_all cfg z fuel).2.2.2.2.2 _ _) ?_
    intro _ _ _
    exact sim_pure _ _ rfl
  | align st n =>
    unfold runCall
    refine sim_bind (fun _ _ => True) ((sim_all cfg z fuel).2.2.1 _ _) ?_
    intro _ _ _
    exact sim_pure _ _ rfl

theorem sim_runCalls (cfg : Config) (z : Bool) (fuel : Nat) (calls : List Call) :
    Sim (fun a b => a = b) (runCalls cfg fuel calls)
      (runCalls (withZerocomp cfg z) fuel calls) := by
  induction calls with
  | nil =>
    unfold runCalls
    exact sim_pure _ _ rfl
  | cons c cs ih =>
    unfold runCalls
    refine sim_bind (fun a b => a = b) (sim_runCall cfg z fuel c) ?_
    intro a b hab
    subst hab
    refine sim_bind (fun a b => a = b) ih ?_
    intro r1 r2 hr
    subst hr
    exact sim_pure _ _ rfl

theorem getcount_ok (s : State) (h : s.strm.countonly = true) :
    getcount s = .ok (s.numbytes, ⟨{ s.strm with countonly := false }, s.numbytes, s.heap⟩) := by
  simp [getcount, h]

theorem startcount_ok (s : State) (h : s.strm.countonly = false) :
    startcount s = .ok ((), ⟨{ s.strm with countonly := true }, s.numbytes, s.heap⟩) := by
  simp [startcount, h]

/-- C11. Take any fixed sequence of schema calls and any state `s1` from which the real
traversal completes, recording `sizes` at its `endstruct` calls and ending with
`numbytes = n`. Then the same sequence run between `startcount` and `getcount`, from any
state with the same contexts and `numbytes` (whatever its stream and whatever `zerocomp`),
completes too, records the same `sizes`, and `getcount` returns `n`. Hence any two completed
real traversals of the sequence, on any two streams and with either `zerocomp`, record the
same sizes. -/
theorem count_equals_real (cfg : Config) (z : Bool) (fuel : Nat) (calls : List Call)
    (s1 : State) (sizes : List Nat) (t1 : State)
    (hreal : runCalls cfg fuel calls s1 = .ok (sizes, t1)) :
    (∀ s0 : State, s0.strm.countonly = false → s0.heap = s1.heap →
        s0.numbytes = s1.numbytes →
        ∃ t0, (do
            startcount
            let sz ← runCalls (withZerocomp cfg z) fuel calls
            let n ← getcount
            pure (sz, n) : M (List Nat × Nat)) s0 = .ok ((sizes, t1.numbytes), t0))
    ∧ (∀ (s2 : State) (sizes2 : List Nat) (t2 : State), s2.heap = s1.heap →
        s2.numbytes = s1.numbytes →
        runCalls (withZerocomp cfg z) fuel calls s2 = .ok (sizes2, t2) →
        sizes2 = sizes ∧ t2.numbytes = t1.numbytes) := by
  constructor
  · intro s0 hco hheap hnum
    have hR : CountRel s1 ⟨{ s0.strm with countonly := true }, s0.numbytes, s0.heap⟩ :=
      ⟨rfl, hnum.symm, by rw [hheap]⟩
    obtain ⟨b, t2, h2, hb, hR2⟩ := sim_runCalls cfg z fuel calls s1 _ sizes t1 hR hreal
    subst hb
    refine ⟨⟨{ t2.strm with countonly := false }, t2.numbytes, t2.heap⟩, ?_⟩
    simp only [run_bind, run_pure, startcount_ok s0 hco, h2, getcount_ok t2 hR2.1, hR2.2.1]
  · intro s2 sizes2 t2 hheap hnum h2
    have hR1 : CountRel s1 ⟨⟨0, true, none⟩, s1.numbytes, s1.heap⟩ := ⟨rfl, rfl, rfl⟩
    have hR2 : CountRel s2 ⟨⟨0, true, none⟩, s1.numbytes, s1.heap⟩ :=
      ⟨rfl, hnum, by rw [hheap]⟩
    obtain ⟨b1, u1, e1, hb1, hU1⟩ := sim_runCalls cfg true fuel calls s1 _ sizes t1 hR1 hreal
    obtain ⟨b2, u2, e2, hb2, hU2⟩ :=
      sim_runCalls (withZerocomp cfg z) true fuel calls s2 _ sizes2 t2 hR2 h2
    have e3 : runCalls (withZerocomp (withZerocomp cfg z) true) fuel calls
        = runCalls (withZerocomp cfg true) fuel calls := rfl
    rw [e3, e1] at e2
    simp only [Except.ok.injEq, Prod.mk.injEq] at e2
    obtain ⟨e4, e5⟩ := e2
    subst e5
    refine ⟨by rw [hb2, ← e4, ← hb1], ?_⟩
    rw [hU2.2.1, ← hU1.2.1]

theorem count_equals_real_witness :
    ∃ t0, (do
        startcount
        let sz ← runCalls (withZerocomp plainCfg true) 9
          [Call.startstruct none false 2, Call.zread 1 1 (some 0), Call.zread 2 1 (some 0),
            Call.endstruct (some 0)]
        let n ← getcount
        pure (sz, n) : M (List Nat × Nat)) (openOn []) = .ok (([4], 4), t0) :=
  (count_equals_real plainCfg true 9
    [Call.startstruct none false 2, Call.zread 1 1 (some 0), Call.zread 2 1 (some 0),
      Call.endstruct (some 0)]
    (openOn [7, 8, 9, 10]) [4] ⟨⟨0, false, some []⟩, 4, [none]⟩ (by decide)).1
    (openOn []) rfl rfl rfl

end Graft
